import Mathlib

/-!
# Verification of the BuggyOrg/graphtools port-graph core

This development embeds the data model and the operations of the
graphtools repository (hierarchical port graphs, the change-set mutation
engine with its persistent and in-place modes, scoped connection queries,
topological sorting of a compound's children and the compound rewrite
operations) as executable Lean definitions and proves, or refutes,
the specification's claims about them.

Conventions of the embedding:
* JavaScript objects are modelled as Lean structures; a field that may be
  absent on a JavaScript object is an `Option`.
* Functions that `throw` in JavaScript return `Except String α`.
* In-place mutation is modelled by explicitly returning the updated value;
  the per-object memo cache (`___store`, non-enumerable, never part of the
  observable structure) is not part of the model.
-/

namespace Graphtools

/-- A port of a node: `{port, kind, type}` plus the owning node's id
(field `node`), which may be absent on a raw stored port. -/
structure Port where
  port : String
  kind : String
  type : String
  node : Option String
deriving Repr, DecidableEq

/-- One endpoint of an edge: either a bare node identifier or an explicit
`{node, port}` pair (the realized form). -/
inductive EdgeEnd where
  | enode (id : String)
  | eport (node : String) (port : String)
deriving Repr, DecidableEq

/-- An edge `{from, to, layer}`.  `from` is a Lean keyword, so the two
endpoint fields are called `efrom` and `eto`. -/
structure Edge where
  efrom : EdgeEnd
  eto : EdgeEnd
  layer : String
deriving Repr, DecidableEq

/-- A component registry entry.  Its identifier is the `meta` field
(`Component.id` in `component.js` returns `component.meta`); the remaining
payload is modelled as a flat field map. -/
structure Component where
  meta : String
  fields : List (String × String)
deriving Repr, DecidableEq

/-- A metaInformation value: either an opaque (string) value or a nested
object of string fields, enough to give `applySetKey` its two branches
(merge if both old and new value are objects, overwrite otherwise). -/
inductive MetaVal where
  | str (s : String)
  | obj (fields : List (String × String))
deriving Repr, DecidableEq

/-- A node of the graph tree (the root graph object has the same shape:
in the source both are plain JavaScript objects handled by the same code).
`name` and `path` may be absent; `children` models the `nodes` field whose
presence is what `Node.hasChildren` tests (atomic nodes have no `nodes`
field). `components` and `meta` are only populated on the root. -/
inductive GNode where
  | mk (id : String) (name : Option String) (ports : List Port)
       (atomic : Bool) (children : Option (List GNode)) (edges : List Edge)
       (components : List Component) (meta : List (String × MetaVal))
       (path : Option (List String))
deriving Repr

namespace GNode

def id : GNode → String
  | .mk i _ _ _ _ _ _ _ _ => i

def name? : GNode → Option String
  | .mk _ n _ _ _ _ _ _ _ => n

def ports : GNode → List Port
  | .mk _ _ p _ _ _ _ _ _ => p

def atomic : GNode → Bool
  | .mk _ _ _ a _ _ _ _ _ => a

def children : GNode → Option (List GNode)
  | .mk _ _ _ _ c _ _ _ _ => c

def edges : GNode → List Edge
  | .mk _ _ _ _ _ e _ _ _ => e

def components : GNode → List Component
  | .mk _ _ _ _ _ _ c _ _ => c

def meta : GNode → List (String × MetaVal)
  | .mk _ _ _ _ _ _ _ m _ => m

def path? : GNode → Option (List String)
  | .mk _ _ _ _ _ _ _ _ p => p

end GNode

/-- `nodes(graph)` — the list of direct children (`graph.nodes || []`). -/
def nodes (g : GNode) : List GNode :=
  (GNode.children g).getD []

/-- `Node.hasChildren` — `Array.isArray(node.nodes)` (the `hideChildren`
setting is never used by the operations verified here). -/
def hasChildren (g : GNode) : Bool :=
  (GNode.children g).isSome

/-- `Node.name` — the name of a node object: `node.name` if present,
otherwise its id. -/
def nodeName (g : GNode) : String :=
  (GNode.name? g).getD (GNode.id g)

mutual

/-- `nodesDeepInternal` from `graph/internal.js`: the direct children
followed by the recursive enumeration of each child's subtree
(`nodes(graph)` is `[]` when the `nodes` field is absent). -/
def nodesDeepInternal : GNode → List GNode
  | .mk _ _ _ _ none _ _ _ _ => []
  | .mk _ _ _ _ (some cs) _ _ _ _ => cs ++ nodesDeepList cs

def nodesDeepList : List GNode → List GNode
  | [] => []
  | n :: ns => nodesDeepInternal n ++ nodesDeepList ns

end

/-- `nodesDeep` from `graph/internal.js`: all nodes at all depths with the
graph object itself appended at the end (the memo store is not modelled;
it only caches this very value). -/
def nodesDeep (g : GNode) : List GNode :=
  nodesDeepInternal g ++ [g]

/-! ## Compound paths (`compoundPath.js`) -/

/-- `relativeTo(path1, path2)` from `compoundPath.js`: the suffix of
`path1` after the prefix `path2`, failing when `path2` is longer or the
heads disagree. -/
def relativeTo : List String → List String → Except String (List String)
  | p1, [] => .ok p1
  | [], _ :: _ =>
    .error "Cannot calculate relative path to a longer path."
  | h1 :: t1, h2 :: t2 =>
    if (h2 :: t2).length > (h1 :: t1).length then
      .error "Cannot calculate relative path to a longer path."
    else if h1 ≠ h2 then
      .error "Pathes are are not subsets and thus the relative path cannot be calculated."
    else
      relativeTo t1 t2

/-- `parent(path)` from `compoundPath.js` on the array form:
`path.slice(0, -1)`. -/
def pathParent (p : List String) : List String :=
  p.dropLast

/-- `join(base, rest)` from `compoundPath.js` (both already in array
form, so no normalization is needed). -/
def pathJoin (base rest : List String) : List String :=
  base ++ rest

/-! ## Locations and node/port resolution

`location.js` (the selector matcher) is not part of the source snapshot.
The resolution used below is modelled from the spec: a location is either
a node given by its unique identifier (the `'#id'` string form and the
node-object form coincide), a port given by its owning node's identifier
and its name, or a compound path relative to the graph; a selector
matches the node it designates. -/

/-- A location, restricted to the identifier-designated forms the claims
quantify over. -/
inductive Target where
  | byId (id : String)
  | byPort (node : String) (port : String)
  | byPath (path : List String)
deriving Repr, DecidableEq

/-- Modelled from the spec: the location matcher of the out-of-scope
`location.js`.  An id selector matches the node with that id, a port
selector matches the port's owning node, and a path selector matches the
node whose stored path is the graph's path extended by the selector. -/
def nodeMatches (g : GNode) (t : Target) (n : GNode) : Bool :=
  match t with
  | .byId s => GNode.id n == s
  | .byPort nid _ => GNode.id n == nid
  | .byPath p =>
    match GNode.path? g with
    | some gp => GNode.path? n == some (pathJoin gp p)
    | none => GNode.path? n == some p

/-- `nodeBy(fn, graph)` from `graph/internal.js`: the first node of
`nodesDeep` satisfying the predicate. -/
def nodeBy (fn : GNode → Bool) (g : GNode) : Option GNode :=
  ((nodesDeep g).filter fn).head?

/-- `node(loc, graph)` from `graph/node.ts`: resolve a location, throwing
when nothing matches. -/
def nodeL (t : Target) (g : GNode) : Except String GNode :=
  match nodeBy (nodeMatches g t) g with
  | some n => .ok n
  | none => .error "Node does not exist in the graph."

/-- `hasNode(loc, graph)` from `graph/node.ts`. -/
def hasNodeL (t : Target) (g : GNode) : Bool :=
  (nodeBy (nodeMatches g t) g).isSome

/-- `Node.port(name, node)` from `node.js`: find the stored port with the
given name (no owner id is merged in here). -/
def nodePort (name : String) (n : GNode) : Except String Port :=
  match (GNode.ports n).find? (fun p => p.port == name) with
  | some p => .ok p
  | none => .error ("Cannot find port with name " ++ name ++ " in node " ++ GNode.id n)

/-- `Node.hasPort(name, node)` from `node.js`. -/
def nodeHasPort (name : String) (n : GNode) : Bool :=
  ((GNode.ports n).find? (fun p => p.port == name)).isSome

/-- `hasPort(port, graph)` from `graph/node.ts`: for a port location, the
owning node exists and has the port; a node location normalizes to a port
query without a port name and therefore never matches a stored port. -/
def hasPortT (t : Target) (g : GNode) : Bool :=
  match t with
  | .byPort nid pname =>
    match nodeBy (nodeMatches g (.byPort nid pname)) g with
    | some n => nodeHasPort pname n
    | none => false
  | _ => false

/-- `port(port, graph)` from `graph/node.ts`:
`Node.port(normalizePort(port), node(port, graph))`. -/
def portT (t : Target) (g : GNode) : Except String Port :=
  match t with
  | .byPort nid pname =>
    match nodeL (.byPort nid pname) g with
    | .error e => .error e
    | .ok n => nodePort pname n
  | _ => .error "Cannot resolve port for a non-port location."

/-- `port(e.to, graph)` for an edge endpoint: the endpoint's owning node
is resolved in the whole graph and the port looked up on it; a bare-node
endpoint has no port name and never resolves. -/
def portOfEnd (e : EdgeEnd) (g : GNode) : Except String Port :=
  match e with
  | .eport n p => portT (.byPort n p) g
  | .enode _ => .error "Cannot resolve port of a node-form edge endpoint."

/-- `parent(loc, graph)` from `graph/node.ts`: `undefined` (here `none`)
when the located node's path equals the graph's path, otherwise the node
at the parent of the located node's path relative to the graph. -/
def parentL (t : Target) (g : GNode) : Except String (Option GNode) :=
  match nodeL t g with
  | .error e => .error e
  | .ok n =>
    if GNode.path? n == GNode.path? g then
      .ok none
    else
      match GNode.path? n, GNode.path? g with
      | some np, some gp =>
        match relativeTo np gp with
        | .error e => .error e
        | .ok rel =>
          match nodeL (.byPath (pathParent rel)) g with
          | .error e => .error e
          | .ok m => .ok (some m)
      | _, _ => .error "Malformed compound path."

/-! ## Edges (`edge.js` / `graph/edge.js` are not in the snapshot) -/

/-- Modelled from the spec: `Edge.isBetweenPorts` of the out-of-scope
`edge.js` — both endpoints are explicit (node, port) pairs. -/
def isBetweenPorts (e : Edge) : Bool :=
  match e.efrom, e.eto with
  | .eport _ _, .eport _ _ => true
  | _, _ => false

/-- Modelled from the spec: `edges(node)` of the missing `graph/edge.js`
— the edge list owned by one node (its own scope). -/
def edgesOf (g : GNode) : List Edge :=
  GNode.edges g

mutual

/-- Modelled from the spec: `edgesDeep(graph)` of the missing
`graph/edge.js` — the flattened enumeration of the edge lists of the graph
and of every node at every depth, each scope's list kept contiguous and in
order. -/
def edgesDeep : GNode → List Edge
  | .mk _ _ _ _ none e _ _ _ => e
  | .mk _ _ _ _ (some cs) e _ _ _ => e ++ edgesDeepList cs

def edgesDeepList : List GNode → List Edge
  | [] => []
  | n :: ns => edgesDeep n ++ edgesDeepList ns

end

/-! ## Connection queries (`graph/connections.js`) -/

/-- `pointsTo(target, graph, edge)` from `graph/connections.js` for the
identifier-designated locations: an id location compares against the
endpoint's node (both the port form and the bare-node form), a port
location matches via the (spec-modelled) selector query on the endpoint. -/
def pointsToB (target : Target) (e : Edge) : Bool :=
  match e.eto, target with
  | .eport n _, .byId s => n == s
  | .enode n, .byId s => n == s
  | .eport n p, .byPort tn tp => n == tn && p == tp
  | .enode _, .byPort _ _ => false
  | _, .byPath _ => false

/-- `isFrom(source, graph, edge)` from `graph/connections.js`, symmetric
to `pointsToB`. -/
def isFromB (source : Target) (e : Edge) : Bool :=
  match e.efrom, source with
  | .eport n _, .byId s => n == s
  | .enode n, .byId s => n == s
  | .eport n p, .byPort tn tp => n == tn && p == tp
  | .enode _, .byPort _ _ => false
  | _, .byPath _ => false

/-- `Array.prototype.filter` with a predicate that may throw: elements are
tested left to right and the first exception aborts the whole filter. -/
def filterE (f : α → Except String Bool) : List α → Except String (List α)
  | [] => .ok []
  | x :: xs =>
    match f x with
    | .error e => .error e
    | .ok b =>
      match filterE f xs with
      | .error e => .error e
      | .ok rest => .ok (if b then x :: rest else rest)

/-- The edge filter of `inIncidents`: target match, layer selection,
dataflow edges must be between ports, and — only on the dataflow layer
without `goIntoCompounds` for a non-port target — the edge must end in an
input port (looked up in the whole graph, which can throw). -/
def inFilterFn (target : Target) (g : GNode) (layers : List String)
    (goIntoCompounds : Bool) (e : Edge) : Except String Bool :=
  if pointsToB target e && layers.any (fun l => l == e.layer)
      && (isBetweenPorts e || e.layer != "dataflow") then
    if e.layer != "dataflow" || goIntoCompounds || hasPortT target g then
      .ok true
    else
      match portOfEnd e.eto g with
      | .error err => .error err
      | .ok p => .ok (Port.kind p == "input")
  else
    .ok false

/-- `inIncidents(target, graph, {layers, goIntoCompounds})` from
`graph/connections.js`: on the default dataflow layer without
`goIntoCompounds` only the edge list of the target's own node (for an
output port) or of its nearest containing compound is scanned; otherwise
all edges at all depths are. -/
def inIncidents (target : Target) (g : GNode) (layers : List String)
    (goIntoCompounds : Bool) : Except String (List Edge) :=
  if layers.length == 1 && layers.head? == some "dataflow" && !goIntoCompounds then
    match nodeL target g with
    | .error e => .error e
    | .ok n =>
      if hasPortT target g then
        match portT target g with
        | .error e => .error e
        | .ok p =>
          if Port.node p == some (GNode.id n) && Port.kind p == "output" then
            filterE (inFilterFn target g layers goIntoCompounds) (edgesOf n)
          else
            match parentL (.byId (GNode.id n)) g with
            | .error e => .error e
            | .ok par =>
              filterE (inFilterFn target g layers goIntoCompounds)
                (edgesOf (par.getD g))
      else
        match parentL (.byId (GNode.id n)) g with
        | .error e => .error e
        | .ok par =>
          filterE (inFilterFn target g layers goIntoCompounds)
            (edgesOf (par.getD g))
  else
    filterE (inFilterFn target g layers goIntoCompounds) (edgesDeep g)

/-- The edge filter of `outIncidents`, symmetric to `inFilterFn` (the
source port must be an output port). -/
def outFilterFn (source : Target) (g : GNode) (layers : List String)
    (goIntoCompounds : Bool) (e : Edge) : Except String Bool :=
  if isFromB source e && layers.any (fun l => l == e.layer)
      && (isBetweenPorts e || e.layer != "dataflow") then
    if e.layer != "dataflow" || goIntoCompounds || hasPortT source g then
      .ok true
    else
      match portOfEnd e.efrom g with
      | .error err => .error err
      | .ok p => .ok (Port.kind p == "output")
  else
    .ok false

/-- `outIncidents(source, graph, {layers, goIntoCompounds})` from
`graph/connections.js`: on the default configuration only the edge list of
the source's own node (for an input port) or of its nearest containing
compound is scanned; otherwise all edges at all depths are. -/
def outIncidents (source : Target) (g : GNode) (layers : List String)
    (goIntoCompounds : Bool) : Except String (List Edge) :=
  if layers.length == 1 && layers.head? == some "dataflow" && !goIntoCompounds then
    match nodeL source g with
    | .error e => .error e
    | .ok n =>
      if hasPortT source g then
        match portT source g with
        | .error e => .error e
        | .ok p =>
          if Port.node p == some (GNode.id n) && Port.kind p == "input" then
            filterE (outFilterFn source g layers goIntoCompounds) (edgesOf n)
          else
            match parentL (.byId (GNode.id n)) g with
            | .error e => .error e
            | .ok par =>
              filterE (outFilterFn source g layers goIntoCompounds)
                (edgesOf (par.getD g))
      else
        match parentL (.byId (GNode.id n)) g with
        | .error e => .error e
        | .ok par =>
          filterE (outFilterFn source g layers goIntoCompounds)
            (edgesOf (par.getD g))
  else
    filterE (outFilterFn source g layers goIntoCompounds) (edgesDeep g)

/-- `successors(source, graph, config)` from `graph/connections.js`:
`map('to')` over the outgoing incident edges. -/
def successorsL (source : Target) (g : GNode) (layers : List String)
    (goIntoCompounds : Bool) : Except String (List EdgeEnd) :=
  match outIncidents source g layers goIntoCompounds with
  | .error e => .error e
  | .ok es => .ok (es.map Edge.eto)

/-- `predecessors(target, graph, config)` from `graph/connections.js`:
`map('from')` over the ingoing incident edges. -/
def predecessorsL (target : Target) (g : GNode) (layers : List String)
    (goIntoCompounds : Bool) : Except String (List EdgeEnd) :=
  match inIncidents target g layers goIntoCompounds with
  | .error e => .error e
  | .ok es => .ok (es.map Edge.efrom)

/-! ## Topological sorting (`algorithm` module, `topologicalSort`)

The JavaScript `predecessorCount` object is modelled as an
insertion-ordered association list from keys to `Option Int`; the value
`none` models `NaN`, which arises when `++`/`--` hits an absent key
(`undefined ± 1`).  `Object.keys` enumerates the (non-numeric) keys in
insertion order, which the list order preserves. -/

/-- `successor.node`: the key under which a successor's counter lives.  A
bare-string successor has no `node` field; the resulting `undefined`
coerces to the object key `"undefined"`. -/
def endNodeKey : EdgeEnd → String
  | .eport n _ => n
  | .enode _ => "undefined"

/-- `predecessorCount[k] = 0`: overwrite if the key exists, append
otherwise. -/
def pcSetZero (m : List (String × Option Int)) (k : String) :
    List (String × Option Int) :=
  if m.any (fun kv => kv.1 == k) then
    m.map (fun kv => if kv.1 == k then (kv.1, some (0 : Int)) else kv)
  else
    m ++ [(k, some (0 : Int))]

/-- `predecessorCount[k]++`: increment an existing value (`NaN` stays
`NaN`); on an absent key `undefined + 1` is `NaN`, which is stored. -/
def pcIncrement (m : List (String × Option Int)) (k : String) :
    List (String × Option Int) :=
  if m.any (fun kv => kv.1 == k) then
    m.map (fun kv => if kv.1 == k then (kv.1, kv.2.map (· + 1)) else kv)
  else
    m ++ [(k, none)]

/-- `predecessorCount[k]--`, symmetric to `pcIncrement`. -/
def pcDecrement (m : List (String × Option Int)) (k : String) :
    List (String × Option Int) :=
  if m.any (fun kv => kv.1 == k) then
    m.map (fun kv => if kv.1 == k then (kv.1, kv.2.map (· - 1)) else kv)
  else
    m ++ [(k, none)]

/-- `delete predecessorCount[k]` (keys are unique in an object, but the
model removes every binding of `k`). -/
def pcDelete (m : List (String × Option Int)) (k : String) :
    List (String × Option Int) :=
  m.filter (fun kv => kv.1 ≠ k)

/-- Number of entries holding an actual number (not `NaN`); the measure
that shrinks on every iteration of the sorting loop. -/
def countSome (m : List (String × Option Int)) : Nat :=
  m.countP (fun kv => kv.2.isSome)

theorem countSome_map_adjust (m : List (String × Option Int)) (k : String)
    (f : Int → Int) :
    countSome (m.map (fun kv => if kv.1 == k then (kv.1, kv.2.map f) else kv))
      = countSome m := by
  unfold countSome
  induction m with
  | nil => rfl
  | cons kv tl ih =>
    simp only [List.map_cons, List.countP_cons]
    rw [ih]
    by_cases h : kv.1 == k <;> simp [h, Option.isSome_map]

theorem countSome_pcDecrement (m : List (String × Option Int)) (k : String) :
    countSome (pcDecrement m k) = countSome m := by
  unfold pcDecrement
  split
  · exact countSome_map_adjust m k (· - 1)
  · unfold countSome
    simp [List.countP_append]

theorem countSome_filter_le (m : List (String × Option Int))
    (q : String × Option Int → Bool) :
    countSome (m.filter q) ≤ countSome m := by
  unfold countSome
  induction m with
  | nil => simp
  | cons kv tl ih =>
    simp only [List.filter_cons, List.countP_cons]
    split
    · simp only [List.countP_cons]
      omega
    · omega

theorem countSome_pcDelete_lt (m : List (String × Option Int)) (k : String)
    (v : Int) (hmem : (k, some v) ∈ m) :
    countSome (pcDelete m k) < countSome m := by
  induction m with
  | nil => cases hmem
  | cons kv tl ih =>
    rcases List.mem_cons.mp hmem with h | h
    · subst h
      have hdrop : pcDelete ((k, some v) :: tl) k = pcDelete tl k := by
        unfold pcDelete
        simp
      rw [hdrop]
      have h1 : countSome (pcDelete tl k) ≤ countSome tl :=
        countSome_filter_le tl _
      have h2 : countSome ((k, some v) :: tl) = countSome tl + 1 := by
        unfold countSome
        simp [List.countP_cons]
      omega
    · have hlt := ih h
      unfold pcDelete countSome at *
      simp only [List.filter_cons]
      split
      · simp only [List.countP_cons]
        split <;> omega
      · simp only [List.countP_cons]
        split <;> omega

theorem countSome_foldlDec (g : GNode) (succs : List EdgeEnd)
    (m : List (String × Option Int)) :
    countSome (succs.foldl (fun m' s =>
      if endNodeKey s != GNode.id g then pcDecrement m' (endNodeKey s) else m') m)
      = countSome m := by
  induction succs generalizing m with
  | nil => rfl
  | cons s tl ih =>
    simp only [List.foldl_cons]
    rw [ih]
    split
    · exact countSome_pcDecrement m (endNodeKey s)
    · rfl

/-- The second initialization loop of `topologicalSort`: walk every direct
child's successor list, incrementing the counter of each successor that is
not the graph itself. -/
def initLoop (g : GNode) : List GNode → List (String × Option Int)
    → Except String (List (String × Option Int))
  | [], m => .ok m
  | n :: ns, m =>
    match successorsL (.byId (GNode.id n)) g ["dataflow"] false with
    | .error e => .error e
    | .ok succs =>
      initLoop g ns (succs.foldl
        (fun m' s =>
          if endNodeKey s != GNode.id g then pcIncrement m' (endNodeKey s) else m') m)

/-- The two initialization loops of `topologicalSort`: zero every direct
child's counter, then increment along every successor edge. -/
def initPredecessorCount (g : GNode) : Except String (List (String × Option Int)) :=
  initLoop g (nodes g) ((nodes g).foldl (fun m n => pcSetZero m (GNode.id n)) [])

/-- The main loop of `topologicalSort`: while counters remain, pick the
first key with counter `0` (cycle error if none), emit its node, delete
its counter and decrement the counters of its successors other than the
graph itself. -/
def topoLoop (g : GNode) (m : List (String × Option Int)) (acc : List GNode) :
    Except String (List GNode) :=
  if m.isEmpty then .ok acc
  else
    match h : m.find? (fun kv => kv.2 == some (0 : Int)) with
    | none =>
      .error "Found cycle in the graph. Impossible to calculate topological sorting."
    | some kv =>
      match nodeL (.byId kv.1) g with
      | .error e => .error e
      | .ok n =>
        match successorsL (.byId kv.1) g ["dataflow"] false with
        | .error e => .error e
        | .ok succs =>
          topoLoop g
            (succs.foldl
              (fun m' s =>
                if endNodeKey s != GNode.id g then pcDecrement m' (endNodeKey s) else m')
              (pcDelete m kv.1))
            (acc ++ [n])
termination_by countSome m
decreasing_by
  simp only [dite_eq_ite]
  rw [countSome_foldlDec]
  have hp := List.find?_some h
  have hm := List.mem_of_find?_eq_some h
  simp only [beq_iff_eq] at hp
  rcases kv with ⟨k, v⟩
  simp only at hp
  subst hp
  exact countSome_pcDelete_lt m k 0 hm

/-- `topologicalSort(graph)` from the algorithm module. -/
def topologicalSort (g : GNode) : Except String (List GNode) :=
  match initPredecessorCount g with
  | .error e => .error e
  | .ok pc => topoLoop g pc []

/-! ## Wellformedness

The spec's invariants for graphs produced by the public mutation API:
(a) identifiers are unique across the entire tree, (c) every stored path
matches the actual chain of containment, (d) every dataflow edge endpoint
resolves to an existing port, and (e) every edge is recorded in the edge
list of the nearest common ancestor compound of its endpoints (with the
boundary-port kind discipline that entails).  They are stated as Boolean
predicates so concrete witnesses can be checked by evaluation. -/

/-- The ids of the direct children. -/
def childIds (g : GNode) : List String :=
  (nodes g).map GNode.id

/-- `isID` from `node.js`: a string whose first character is `'#'`. -/
def isID (s : String) : Bool :=
  s.data.head? == some ('#' : Char)

/-- Invariant (a): node ids are unique across the whole tree, the root
included, and every id carries the `'#'` prefix `Node.create` assigns
(which is what routes id lookups past the selector-string fallback). -/
def wfIds (g : GNode) : Bool :=
  (((nodesDeep g).map GNode.id).Nodup : Bool)
    && (nodesDeep g).all (fun n => isID (GNode.id n))

mutual

/-- Invariant (c) below one node: every child's stored path extends the
parent's path `gp` by the child's id, recursively. -/
def wfPathsAux : List String → GNode → Bool
  | _, .mk _ _ _ _ none _ _ _ _ => true
  | gp, .mk _ _ _ _ (some cs) _ _ _ _ => wfPathsList gp cs

def wfPathsList : List String → List GNode → Bool
  | _, [] => true
  | gp, c :: cs =>
    (GNode.path? c == some (gp ++ [GNode.id c]))
      && wfPathsAux (gp ++ [GNode.id c]) c && wfPathsList gp cs

end

/-- Invariant (c): the graph has a stored path and all descendant paths
are consistent with containment. -/
def wfPaths (g : GNode) : Bool :=
  match GNode.path? g with
  | some gp => wfPathsAux gp g
  | none => false

/-- The stored port with the given name exists and has the given kind. -/
def portKindIs (n : GNode) (pname k : String) : Bool :=
  match (GNode.ports n).find? (fun p => p.port == pname) with
  | some p => p.kind == k
  | none => false

/-- Invariants (d)+(e) for one edge recorded in the scope of `m`: a
dataflow edge between ports starts either at an input port of `m`'s own
boundary or at an output port of a direct child, and ends either at an
output port of `m`'s boundary or at an input port of a direct child. -/
def wfEdgeAt (m : GNode) (e : Edge) : Bool :=
  if e.layer == "dataflow" then
    match e.efrom, e.eto with
    | .eport fn fp, .eport tn tp =>
      ((fn == GNode.id m && portKindIs m fp "input")
        || (nodes m).any (fun c => GNode.id c == fn && portKindIs c fp "output"))
      && ((tn == GNode.id m && portKindIs m tp "output")
        || (nodes m).any (fun c => GNode.id c == tn && portKindIs c tp "input"))
    | _, _ => true
  else true

mutual

/-- Invariants (d)+(e) at every scope of the tree, plus: every stored
port carries its owner's id in its `node` field (realized ports do). -/
def wfEdgesAux : GNode → Bool
  | m@(.mk i _ ps _ none _ _ _ _) =>
    (GNode.edges m).all (wfEdgeAt m) && ps.all (fun p => p.node == some i)
  | m@(.mk i _ ps _ (some cs) _ _ _ _) =>
    (GNode.edges m).all (wfEdgeAt m) && ps.all (fun p => p.node == some i)
      && wfEdgesList cs

def wfEdgesList : List GNode → Bool
  | [] => true
  | c :: cs => wfEdgesAux c && wfEdgesList cs

end

/-- The wellformedness package: invariants (a), (c), (d), (e). -/
def wfGraph (g : GNode) : Bool :=
  wfIds g && wfPaths g && wfEdgesAux g

/-! ## Resolution lemmas under wellformedness -/

theorem mem_nodesDeepInternal_of_child {g : GNode} {c : GNode}
    (hc : c ∈ nodes g) : c ∈ nodesDeepInternal g := by
  cases g with
  | mk i nm ps a ch es co mt pa =>
    cases ch with
    | none => simp [nodes, GNode.children] at hc
    | some cs =>
      simp only [nodes, GNode.children, Option.getD] at hc
      simp only [nodesDeepInternal, List.mem_append]
      exact Or.inl hc

theorem mem_nodesDeep_of_child {g : GNode} {c : GNode}
    (hc : c ∈ nodes g) : c ∈ nodesDeep g := by
  simp only [nodesDeep, List.mem_append]
  exact Or.inl (mem_nodesDeepInternal_of_child hc)

theorem self_mem_nodesDeep (g : GNode) : g ∈ nodesDeep g := by
  simp [nodesDeep]

/-- In a list whose ids are distinct, filtering for one member's id
yields exactly that member. -/
theorem filter_id_singleton {l : List GNode}
    (hnd : (l.map GNode.id).Nodup) {n : GNode} (hn : n ∈ l) :
    l.filter (fun m => GNode.id m == GNode.id n) = [n] := by
  induction l with
  | nil => cases hn
  | cons x xs ih =>
    simp only [List.map_cons, List.nodup_cons] at hnd
    rcases List.mem_cons.mp hn with h | h
    · subst h
      simp only [List.filter_cons, beq_self_eq_true, if_pos]
      have : xs.filter (fun m => GNode.id m == GNode.id n) = [] := by
        apply List.filter_eq_nil.mpr
        intro m hm
        simp only [beq_iff_eq]
        intro hEq
        exact hnd.1 (hEq ▸ List.mem_map_of_mem GNode.id hm)
      simp [this]
    · have hne : GNode.id x ≠ GNode.id n := by
        intro hEq
        exact hnd.1 (hEq ▸ List.mem_map_of_mem GNode.id h)
      simp only [List.filter_cons]
      rw [if_neg (by simp [hne])]
      exact ih hnd.2 h

/-- Id lookup resolves any tree member to itself when ids are unique. -/
theorem nodeL_byId {g : GNode}
    (hnd : ((nodesDeep g).map GNode.id).Nodup) {n : GNode}
    (hn : n ∈ nodesDeep g) : nodeL (.byId (GNode.id n)) g = .ok n := by
  unfold nodeL nodeBy
  have : (nodesDeep g).filter (nodeMatches g (.byId (GNode.id n))) = [n] := by
    simpa [nodeMatches] using filter_id_singleton hnd hn
  rw [this]
  rfl

theorem wfIds_nodup {g : GNode} (h : wfIds g = true) :
    ((nodesDeep g).map GNode.id).Nodup := by
  unfold wfIds at h
  simp only [Bool.and_eq_true, decide_eq_true_eq] at h
  exact h.1

/-- Under id uniqueness, no descendant shares the root's id. -/
theorem child_id_ne_root {g : GNode}
    (hnd : ((nodesDeep g).map GNode.id).Nodup) {n : GNode}
    (hn : n ∈ nodesDeepInternal g) : GNode.id n ≠ GNode.id g := by
  unfold nodesDeep at hnd
  rw [List.map_append] at hnd
  rcases List.nodup_append.mp hnd with ⟨_, _, hdisj⟩
  intro hEq
  exact hdisj (List.mem_map_of_mem GNode.id hn) (by simp [hEq])

theorem relativeTo_append (a b : List String) :
    relativeTo (a ++ b) a = .ok b := by
  induction a with
  | nil =>
    cases b with
    | nil => rfl
    | cons y ys => rfl
  | cons x xs ih =>
    show relativeTo (x :: (xs ++ b)) (x :: xs) = .ok b
    unfold relativeTo
    have hlen : ¬ ((x :: xs).length > (x :: (xs ++ b)).length) := by
      simp
    rw [if_neg hlen, if_neg (by simp)]
    exact ih

mutual

theorem wfPathsAux_deep (gp : List String) (g : GNode)
    (h : wfPathsAux gp g = true) :
    ∀ n ∈ nodesDeepInternal g,
      ∃ suf, suf ≠ [] ∧ GNode.path? n = some (gp ++ suf) := by
  cases g with
  | mk i nm ps a ch es co mt pa =>
    cases ch with
    | none =>
      intro n hn
      simp [nodesDeepInternal] at hn
    | some cs =>
      intro n hn
      simp only [nodesDeepInternal] at hn
      unfold wfPathsAux at h
      exact (wfPathsList_deep gp cs h).2 n hn

theorem wfPathsList_deep (gp : List String) (cs : List GNode)
    (h : wfPathsList gp cs = true) :
    (∀ c ∈ cs, GNode.path? c = some (gp ++ [GNode.id c])) ∧
    (∀ n ∈ cs ++ nodesDeepList cs,
      ∃ suf, suf ≠ [] ∧ GNode.path? n = some (gp ++ suf)) := by
  cases cs with
  | nil =>
    constructor
    · intro c hc
      cases hc
    · intro n hn
      simp [nodesDeepList] at hn
  | cons c cs' =>
    unfold wfPathsList at h
    simp only [Bool.and_eq_true, beq_iff_eq] at h
    obtain ⟨⟨hpath, haux⟩, htail⟩ := h
    have ihtail := wfPathsList_deep gp cs' htail
    have ihaux := wfPathsAux_deep (gp ++ [GNode.id c]) c haux
    constructor
    · intro x hx
      rcases List.mem_cons.mp hx with hx | hx
      · rw [hx]
        exact hpath
      · exact ihtail.1 x hx
    · intro n hn
      simp only [nodesDeepList, List.cons_append, List.mem_cons,
        List.mem_append] at hn
      rcases hn with hn | hn
      · refine ⟨[GNode.id c], by simp, ?_⟩
        rw [hn]
        exact hpath
      · rcases hn with hn | hn | hn
        · exact ihtail.2 n (by simp [hn])
        · obtain ⟨suf, hsuf, hp⟩ := ihaux n hn
          exact ⟨[GNode.id c] ++ suf, by simp, by simpa using hp⟩
        · exact ihtail.2 n (by simp [hn])
end

/-- Under invariant (c), the paths of direct children. -/
theorem wfPaths_child {g : GNode} {gp : List String}
    (hgp : GNode.path? g = some gp) (h : wfPaths g = true)
    {c : GNode} (hc : c ∈ nodes g) :
    GNode.path? c = some (gp ++ [GNode.id c]) := by
  unfold wfPaths at h
  rw [hgp] at h
  cases g with
  | mk i nm ps a ch es co mt pa =>
    cases ch with
    | none => simp [nodes, GNode.children] at hc
    | some cs =>
      unfold wfPathsAux at h
      simp only [nodes, GNode.children, Option.getD] at hc
      exact (wfPathsList_deep gp cs h).1 c hc

/-- Resolving the parent of a direct child returns the graph itself. -/
theorem parentL_child {g : GNode} {gp : List String}
    (hgp : GNode.path? g = some gp)
    (hnd : ((nodesDeep g).map GNode.id).Nodup)
    (hpaths : wfPaths g = true) {c : GNode} (hc : c ∈ nodes g) :
    parentL (.byId (GNode.id c)) g = .ok (some g) := by
  have hcp := wfPaths_child hgp hpaths hc
  have hfind : (nodesDeep g).filter (nodeMatches g (.byPath [])) = [g] := by
    unfold nodesDeep
    rw [List.filter_append]
    have h1 : (nodesDeepInternal g).filter (nodeMatches g (.byPath [])) = [] := by
      apply List.filter_eq_nil_iff.mpr
      intro n hn
      have hdeep : ∃ suf, suf ≠ [] ∧ GNode.path? n = some (gp ++ suf) := by
        unfold wfPaths at hpaths
        rw [hgp] at hpaths
        exact wfPathsAux_deep gp g hpaths n hn
      obtain ⟨suf, hsuf, hp⟩ := hdeep
      simp only [nodeMatches, hgp, pathJoin, List.append_nil, hp,
        Option.some.injEq, beq_iff_eq]
      intro hEq
      apply hsuf
      have h0 : gp ++ suf = gp ++ [] := by simpa using hEq
      simpa using List.append_cancel_left h0
    have h2 : [g].filter (nodeMatches g (.byPath [])) = [g] := by
      simp [nodeMatches, hgp, pathJoin]
    rw [h1, h2]
    rfl
  have hroot : nodeL (.byPath []) g = .ok g := by
    unfold nodeL nodeBy
    rw [hfind]
    rfl
  have hif : (some (gp ++ [GNode.id c]) == some gp) = false := by
    simp only [beq_eq_false_iff_ne, ne_eq, Option.some.injEq]
    intro hEq
    have h0 : gp ++ [GNode.id c] = gp ++ [] := by simpa using hEq
    simpa using List.append_cancel_left h0
  have hpp : pathParent [GNode.id c] = [] := rfl
  unfold parentL
  rw [nodeL_byId hnd (mem_nodesDeep_of_child hc)]
  simp only [hcp, hgp, hif, Bool.false_eq_true, if_false,
    relativeTo_append gp [GNode.id c], hpp, hroot]

theorem wfGraph_ids {g : GNode} (h : wfGraph g = true) : wfIds g = true := by
  unfold wfGraph at h
  simp only [Bool.and_eq_true] at h
  exact h.1.1

theorem wfGraph_paths {g : GNode} (h : wfGraph g = true) : wfPaths g = true := by
  unfold wfGraph at h
  simp only [Bool.and_eq_true] at h
  exact h.1.2

theorem wfGraph_edges {g : GNode} (h : wfGraph g = true) : wfEdgesAux g = true := by
  unfold wfGraph at h
  simp only [Bool.and_eq_true] at h
  exact h.2

theorem wfPaths_rootPath {g : GNode} (h : wfPaths g = true) :
    ∃ gp, GNode.path? g = some gp := by
  unfold wfPaths at h
  cases hg : GNode.path? g with
  | none => rw [hg] at h; cases h
  | some gp => exact ⟨gp, rfl⟩

/-- The root scope's edges satisfy the per-edge invariant. -/
theorem wfEdges_root {g : GNode} (h : wfEdgesAux g = true) :
    ∀ e ∈ GNode.edges g, wfEdgeAt g e = true := by
  intro e he
  cases g with
  | mk i nm ps a ch es co mt pa =>
    cases ch with
    | none =>
      unfold wfEdgesAux at h
      simp only [Bool.and_eq_true, List.all_eq_true] at h
      exact h.1 e he
    | some cs =>
      unfold wfEdgesAux at h
      simp only [Bool.and_eq_true, List.all_eq_true] at h
      exact h.1.1 e he

theorem child_id_mem {g : GNode} {c : GNode} (hc : c ∈ nodes g) :
    GNode.id c ∈ childIds g :=
  List.mem_map_of_mem GNode.id hc

theorem child_of_childId {g : GNode} {cid : String} (h : cid ∈ childIds g) :
    ∃ c ∈ nodes g, GNode.id c = cid := by
  rcases List.mem_map.mp h with ⟨c, hc, hid⟩
  exact ⟨c, hc, hid⟩

theorem childId_ne_root {g : GNode}
    (hnd : ((nodesDeep g).map GNode.id).Nodup) {cid : String}
    (h : cid ∈ childIds g) : cid ≠ GNode.id g := by
  rcases child_of_childId h with ⟨c, hc, hid⟩
  rw [← hid]
  exact child_id_ne_root hnd (mem_nodesDeepInternal_of_child hc)

/-- A throwing filter whose predicate provably returns on each element is
the plain filter. -/
theorem filterE_eq_filter {α} {f : α → Except String Bool} {p : α → Bool}
    {l : List α} (h : ∀ x ∈ l, f x = .ok (p x)) :
    filterE f l = .ok (l.filter p) := by
  induction l with
  | nil => rfl
  | cons x xs ih =>
    have hx := h x (List.mem_cons_self x xs)
    have hxs := ih (fun y hy => h y (List.mem_cons_of_mem x hy))
    unfold filterE
    rw [hx, hxs]
    by_cases hb : p x <;> simp [hb, List.filter_cons]

/-- Under wellformedness, resolving a port-form edge endpoint that the
edge invariant certifies as a child's output port yields that port. -/
theorem outFilterFn_child (g : GNode) (hwf : wfGraph g = true)
    {cid : String} (hcid : cid ∈ childIds g) (e : Edge)
    (he : e ∈ GNode.edges g) :
    outFilterFn (.byId cid) g ["dataflow"] false e
      = .ok (isFromB (.byId cid) e && e.layer == "dataflow" && isBetweenPorts e) := by
  have hnd := wfIds_nodup (wfGraph_ids hwf)
  have hwfe := wfEdges_root (wfGraph_edges hwf) e he
  unfold outFilterFn
  by_cases hfrom : isFromB (.byId cid) e = true
  swap
  · rw [if_neg]
    · simp only [Bool.not_eq_true] at hfrom
      rw [hfrom]
      rfl
    · simp only [Bool.and_eq_true, not_and]
      intro hcontr
      exact absurd hcontr.1 hfrom
  by_cases hlayer : e.layer = "dataflow"
  swap
  · have hany : (["dataflow"].any (fun l => l == e.layer)) = false := by
      simp only [List.any_cons, List.any_nil, Bool.or_false, beq_iff_eq]
      exact decide_eq_false (fun hEq => hlayer hEq.symm)
    rw [if_neg (by simp [hany])]
    have : (e.layer == "dataflow") = false := by
      simp [hlayer]
    simp [this]
  by_cases hbp : isBetweenPorts e = true
  swap
  · rw [if_neg]
    · simp only [Bool.not_eq_true] at hbp
      simp [hbp]
    · simp only [Bool.not_eq_true] at hbp
      simp [hbp, hlayer]
  -- all three components hold; the inner branch resolves the from-port
  rw [if_pos (by simp [hfrom, hbp, hlayer])]
  rw [if_neg (by simp [hlayer, hasPortT])]
  -- the edge starts at a child's output port
  obtain ⟨fn, fp, tn, tp, hef, het⟩ :
      ∃ fn fp tn tp, e.efrom = .eport fn fp ∧ e.eto = .eport tn tp := by
    unfold isBetweenPorts at hbp
    cases hef : e.efrom with
    | enode _ => rw [hef] at hbp; cases hbp
    | eport fn fp =>
      cases het : e.eto with
      | enode _ => rw [hef, het] at hbp; cases hbp
      | eport tn tp => exact ⟨fn, fp, tn, tp, rfl, rfl⟩
  have hfn : fn = cid := by
    unfold isFromB at hfrom
    rw [hef] at hfrom
    simpa using hfrom
  unfold wfEdgeAt at hwfe
  rw [if_pos (by simp [hlayer]), hef, het] at hwfe
  simp only [Bool.and_eq_true, Bool.or_eq_true, List.any_eq_true] at hwfe
  have hfromWf := hwfe.1
  have hfn_ne : (fn == GNode.id g) = false := by
    rw [hfn]
    simp only [beq_eq_false_iff_ne, ne_eq]
    exact childId_ne_root hnd hcid
  rcases hfromWf with ⟨hroot, _⟩ | ⟨c', hc', hcEq⟩
  · rw [hfn_ne] at hroot; cases hroot
  · simp only [Bool.and_eq_true, beq_iff_eq] at hcEq
    obtain ⟨hcid', hpk⟩ := hcEq
    unfold portKindIs at hpk
    cases hfind : (GNode.ports c').find? (fun p => p.port == fp) with
    | none => rw [hfind] at hpk; cases hpk
    | some p =>
      rw [hfind] at hpk
      simp only [beq_iff_eq] at hpk
      have hnodeL : nodeL (.byPort fn fp) g = .ok c' := by
        unfold nodeL nodeBy
        have hfe : (nodesDeep g).filter (nodeMatches g (.byPort fn fp)) = [c'] := by
          have := filter_id_singleton hnd (mem_nodesDeep_of_child hc')
          simpa [nodeMatches, hcid'] using this
        rw [hfe]
        rfl
      have hresolve : portOfEnd e.efrom g = .ok p := by
        simp only [hef, portOfEnd, portT, hnodeL, nodePort, hfind]
      simp only [hresolve, hpk]
      simp [hfrom, hlayer, hbp]

/-- The plain predicate that `outIncidents` computes for a direct child on
the default configuration. -/
def childOutPred (cid : String) (e : Edge) : Bool :=
  isFromB (.byId cid) e && e.layer == "dataflow" && isBetweenPorts e

/-- Under wellformedness, the outgoing-incident query of a direct child on
the default configuration scans exactly the compound's own edge list. -/
theorem outIncidents_child (g : GNode) (hwf : wfGraph g = true)
    {c : GNode} (hc : c ∈ nodes g) :
    outIncidents (.byId (GNode.id c)) g ["dataflow"] false
      = .ok ((GNode.edges g).filter (childOutPred (GNode.id c))) := by
  have hnd := wfIds_nodup (wfGraph_ids hwf)
  obtain ⟨gp, hgp⟩ := wfPaths_rootPath (wfGraph_paths hwf)
  have hnodeL := nodeL_byId hnd (mem_nodesDeep_of_child hc)
  have hpar := parentL_child hgp hnd (wfGraph_paths hwf) hc
  have hfil : filterE (outFilterFn (.byId (GNode.id c)) g ["dataflow"] false)
      (edgesOf g) = .ok ((GNode.edges g).filter (childOutPred (GNode.id c))) := by
    apply filterE_eq_filter
    intro e he
    exact outFilterFn_child g hwf (child_id_mem hc) e he
  unfold outIncidents
  rw [if_pos (by decide)]
  simp only [hnodeL, hasPortT, Bool.false_eq_true, if_false, hpar,
    Option.getD_some]
  exact hfil

/-- Under wellformedness, `successors` of a direct child on the default
configuration returns the `to` ends of the matching own-scope edges. -/
theorem successorsL_child (g : GNode) (hwf : wfGraph g = true)
    {c : GNode} (hc : c ∈ nodes g) :
    successorsL (.byId (GNode.id c)) g ["dataflow"] false
      = .ok (((GNode.edges g).filter (childOutPred (GNode.id c))).map Edge.eto) := by
  unfold successorsL
  rw [outIncidents_child g hwf hc]

/-! ## Bookkeeping for the sorting loop -/

/-- The multiset of counter keys the loop touches when processing the
child `cid`: the `to`-ends of its outgoing dataflow edges, as object keys,
without the graph's own id. -/
def succKeys (g : GNode) (cid : String) : List String :=
  ((((GNode.edges g).filter (childOutPred cid)).map Edge.eto).map endNodeKey).filter
    (fun k => k != GNode.id g)

/-- The ids of the children not yet emitted. -/
def remainingIds (g : GNode) (accIds : List String) : List String :=
  (childIds g).filter (fun k => decide (k ∉ accIds))

/-- The in-degree of `k` restricted to edges from the children in `rem`. -/
def indeg (g : GNode) (rem : List String) (k : String) : Nat :=
  (rem.map (fun u => (succKeys g u).count k)).sum

theorem map_id_of_eq {α} {f : α → α} {l : List α} (h : ∀ x ∈ l, f x = x) :
    l.map f = l := by
  induction l with
  | nil => rfl
  | cons x xs ih =>
    simp only [List.map_cons]
    rw [h x (by simp), ih (fun y hy => h y (by simp [hy]))]

theorem filter_map_comm {α β} (f : α → β) (p : β → Bool) (l : List α) :
    (l.map f).filter p = (l.filter (fun x => p (f x))).map f := by
  induction l with
  | nil => rfl
  | cons x xs ih =>
    simp only [List.map_cons, List.filter_cons]
    by_cases h : p (f x) = true <;> simp [h, ih]

/-- The per-element guard against the graph's own id commutes out of the
successor fold. -/
theorem foldl_filterKey {β} (gid : String) (f : β → String → β)
    (succs : List EdgeEnd) (m : β) :
    succs.foldl (fun m' s => if endNodeKey s != gid then f m' (endNodeKey s) else m') m
      = ((succs.map endNodeKey).filter (fun k => k != gid)).foldl f m := by
  induction succs generalizing m with
  | nil => rfl
  | cons s tl ih =>
    simp only [List.foldl_cons, List.map_cons, List.filter_cons]
    by_cases h : (endNodeKey s != gid) = true
    · rw [if_pos h]
      simp only [h, if_true]
      rw [List.foldl_cons]
      exact ih (f m (endNodeKey s))
    · rw [if_neg h]
      simp only [h]
      exact ih m

theorem any_key_map_adjust (m : List (String × Option Int)) (k k' : String)
    (f : Int → Int) :
    ((m.map (fun kv => if kv.1 == k then (kv.1, kv.2.map f) else kv)).any
        (fun kv => kv.1 == k'))
      = (m.any (fun kv => kv.1 == k')) := by
  induction m with
  | nil => rfl
  | cons kv tl ih =>
    simp only [List.map_cons, List.any_cons]
    rw [ih]
    by_cases h : kv.1 == k <;> simp [h]

/-- A fold of decrements over keys that are all present acts pointwise:
each stored counter loses the number of occurrences of its key. -/
theorem foldl_pcDecrement_eq (ks : List String)
    (m : List (String × Option Int))
    (h : ∀ k ∈ ks, (m.any (fun kv => kv.1 == k)) = true) :
    ks.foldl pcDecrement m
      = m.map (fun kv => (kv.1, kv.2.map (fun v => v - (ks.count kv.1 : Int)))) := by
  induction ks generalizing m with
  | nil =>
    simp only [List.foldl_nil, List.count_nil]
    symm
    apply map_id_of_eq
    intro kv _
    rcases kv with ⟨k1, v⟩
    cases v <;> simp
  | cons k ks ih =>
    simp only [List.foldl_cons]
    have hdec : pcDecrement m k
        = m.map (fun kv => if kv.1 == k then (kv.1, kv.2.map (· - 1)) else kv) := by
      unfold pcDecrement
      rw [if_pos (h k (by simp))]
    rw [hdec]
    rw [ih _ (by
      intro k' hk'
      rw [any_key_map_adjust]
      exact h k' (by simp [hk']))]
    rw [List.map_map]
    apply List.map_congr_left
    intro kv _
    rcases kv with ⟨k1, v⟩
    simp only [Function.comp]
    by_cases hk : (k1 == k) = true
    · have hk1 : k1 = k := by simpa using hk
      subst hk1
      simp only [hk, if_true]
      cases v with
      | none => simp
      | some x =>
        simp [List.count_cons]
        omega
    · have hkf : (k1 == k) = false := by simpa using hk
      have hne : (k == k1) = false := by
        simp only [beq_eq_false_iff_ne, ne_eq] at hkf ⊢
        exact fun hEq => hkf hEq.symm
      simp only [hkf, Bool.false_eq_true, if_false, List.count_cons, hne,
        if_false, Nat.add_zero]

/-- A fold of increments over keys that are all present acts pointwise. -/
theorem foldl_pcIncrement_eq (ks : List String)
    (m : List (String × Option Int))
    (h : ∀ k ∈ ks, (m.any (fun kv => kv.1 == k)) = true) :
    ks.foldl pcIncrement m
      = m.map (fun kv => (kv.1, kv.2.map (fun v => v + (ks.count kv.1 : Int)))) := by
  induction ks generalizing m with
  | nil =>
    simp only [List.foldl_nil, List.count_nil]
    symm
    apply map_id_of_eq
    intro kv _
    rcases kv with ⟨k1, v⟩
    cases v <;> simp
  | cons k ks ih =>
    simp only [List.foldl_cons]
    have hinc : pcIncrement m k
        = m.map (fun kv => if kv.1 == k then (kv.1, kv.2.map (· + 1)) else kv) := by
      unfold pcIncrement
      rw [if_pos (h k (by simp))]
    rw [hinc]
    rw [ih _ (by
      intro k' hk'
      rw [any_key_map_adjust]
      exact h k' (by simp [hk']))]
    rw [List.map_map]
    apply List.map_congr_left
    intro kv _
    rcases kv with ⟨k1, v⟩
    simp only [Function.comp]
    by_cases hk : (k1 == k) = true
    · have hk1 : k1 = k := by simpa using hk
      subst hk1
      simp only [hk, if_true]
      cases v with
      | none => simp
      | some x =>
        simp [List.count_cons]
        omega
    · have hkf : (k1 == k) = false := by simpa using hk
      have hne : (k == k1) = false := by
        simp only [beq_eq_false_iff_ne, ne_eq] at hkf ⊢
        exact fun hEq => hkf hEq.symm
      simp only [hkf, Bool.false_eq_true, if_false, List.count_cons, hne,
        if_false, Nat.add_zero]

/-- Zero-initialisation over fresh, pairwise-distinct keys appends each
key with counter `0`. -/
theorem foldl_pcSetZero (ks : List String) (m : List (String × Option Int))
    (hdisj : ∀ k ∈ ks, (m.any (fun kv => kv.1 == k)) = false)
    (hnd : ks.Nodup) :
    ks.foldl pcSetZero m = m ++ ks.map (fun k => (k, some (0 : Int))) := by
  induction ks generalizing m with
  | nil => simp
  | cons k ks ih =>
    simp only [List.foldl_cons]
    have hset : pcSetZero m k = m ++ [(k, some (0 : Int))] := by
      unfold pcSetZero
      rw [if_neg (by simp [hdisj k (by simp)])]
    rw [hset]
    rw [List.nodup_cons] at hnd
    rw [ih _ (by
      intro k' hk'
      simp only [List.any_append, Bool.or_eq_false_iff]
      refine ⟨hdisj k' (by simp [hk']), ?_⟩
      simp only [List.any_cons, List.any_nil, Bool.or_false, beq_iff_eq]
      exact decide_eq_false (fun hEq => hnd.1 (hEq ▸ hk'))) hnd.2]
    simp

theorem find?_map_inv {α β} {f : α → β} {p : β → Bool} {l : List α} {y : β}
    (h : (l.map f).find? p = some y) : ∃ x ∈ l, f x = y ∧ p y = true := by
  rw [List.find?_map] at h
  rcases Option.map_eq_some'.mp h with ⟨x, hx, hfx⟩
  refine ⟨x, List.mem_of_find?_eq_some hx, hfx, ?_⟩
  have := List.find?_some hx
  simpa [Function.comp, hfx] using this

theorem map_sum_split (f : String → Nat) {l : List String} {x : String}
    (hx : x ∈ l) (hnd : l.Nodup) :
    (l.map f).sum = f x + ((l.filter (fun y => y != x)).map f).sum := by
  induction l with
  | nil => cases hx
  | cons y t ih =>
    rw [List.nodup_cons] at hnd
    rcases List.mem_cons.mp hx with hh | hh
    · simp only [List.map_cons, List.sum_cons, List.filter_cons]
      have hyx : (y != x) = false := by simp [hh]
      rw [hyx]
      have hfil : t.filter (fun z => z != x) = t := by
        apply List.filter_eq_self.mpr
        intro a ha
        simp only [bne_iff_ne, ne_eq, decide_eq_true_eq]
        intro hEq
        apply hnd.1
        rw [hEq, hh] at ha
        exact ha
      simp only [Bool.false_eq_true, if_false]
      rw [hfil, hh]
    · simp only [List.map_cons, List.sum_cons, List.filter_cons]
      have hne : (y != x) = true := by
        simp only [bne_iff_ne, ne_eq]
        intro hEq
        exact hnd.1 (hEq ▸ hh)
      rw [hne]
      simp only [if_true, List.map_cons, List.sum_cons]
      rw [ih hh hnd.2]
      omega

/-- Under wellformedness, successor keys of any child stay among the
children (invariant (e): the `to` end of a scope edge is a child or the
scope's own boundary, and boundary targets are filtered out). -/
theorem succKeys_subset_childIds (g : GNode) (hwf : wfGraph g = true)
    (cid : String) : ∀ k ∈ succKeys g cid, k ∈ childIds g := by
  intro k hk
  unfold succKeys at hk
  rw [List.mem_filter] at hk
  obtain ⟨hk, hkne⟩ := hk
  rw [List.map_map, List.mem_map] at hk
  obtain ⟨e, he, hkey⟩ := hk
  rw [List.mem_filter] at he
  obtain ⟨he, hpred⟩ := he
  unfold childOutPred at hpred
  simp only [Bool.and_eq_true, beq_iff_eq] at hpred
  obtain ⟨⟨_, hlayer⟩, hbp⟩ := hpred
  obtain ⟨fn, fp, tn, tp, hef, het⟩ :
      ∃ fn fp tn tp, e.efrom = .eport fn fp ∧ e.eto = .eport tn tp := by
    unfold isBetweenPorts at hbp
    cases hef : e.efrom with
    | enode _ => rw [hef] at hbp; cases hbp
    | eport fn fp =>
      cases het : e.eto with
      | enode _ => rw [hef, het] at hbp; cases hbp
      | eport tn tp => exact ⟨fn, fp, tn, tp, rfl, rfl⟩
  have hwfe := wfEdges_root (wfGraph_edges hwf) e he
  unfold wfEdgeAt at hwfe
  rw [if_pos (by simp [hlayer]), hef, het] at hwfe
  simp only [Bool.and_eq_true, Bool.or_eq_true, List.any_eq_true] at hwfe
  have hto := hwfe.2
  have hkeq : k = tn := by
    rw [← hkey]
    simp [Function.comp, het, endNodeKey]
  rcases hto with ⟨hroot, _⟩ | ⟨c', hc', hcEq⟩
  · exfalso
    have : tn = GNode.id g := by simpa using hroot
    rw [hkeq, this] at hkne
    simp at hkne
  · simp only [Bool.and_eq_true, beq_iff_eq] at hcEq
    rw [hkeq, ← hcEq.1]
    exact child_id_mem hc'

theorem childIds_nodup {g : GNode}
    (hnd : ((nodesDeep g).map GNode.id).Nodup) : (childIds g).Nodup := by
  have hsub : List.Sublist (nodes g) (nodesDeep g) := by
    cases g with
    | mk i nm ps a ch es co mt pa =>
      cases ch with
      | none => simp [nodes, GNode.children]
      | some cs =>
        unfold nodesDeep nodesDeepInternal
        simp only [nodes, GNode.children, Option.getD]
        have h1 : List.Sublist cs (cs ++ nodesDeepList cs) :=
          List.sublist_append_left _ _
        have h2 : List.Sublist (cs ++ nodesDeepList cs)
            ((cs ++ nodesDeepList cs)
              ++ [GNode.mk i nm ps a (some cs) es co mt pa]) :=
          List.sublist_append_left _ _
        exact h1.trans h2
  exact (hnd.sublist (hsub.map GNode.id))

/-- Id lookup of a child id returns the child carrying it. -/
theorem nodeL_childId {g : GNode}
    (hnd : ((nodesDeep g).map GNode.id).Nodup) {k : String}
    (hk : k ∈ childIds g) :
    ∃ c ∈ nodes g, GNode.id c = k ∧ nodeL (.byId k) g = .ok c := by
  rcases child_of_childId hk with ⟨c, hc, hid⟩
  refine ⟨c, hc, hid, ?_⟩
  rw [← hid]
  exact nodeL_byId hnd (mem_nodesDeep_of_child hc)

theorem any_fst_of_mem {m : List (String × Option Int)} {k : String}
    (h : k ∈ m.map Prod.fst) : (m.any (fun kv => kv.1 == k)) = true := by
  rcases List.mem_map.mp h with ⟨kv, hkv, hfst⟩
  simp only [List.any_eq_true]
  exact ⟨kv, hkv, by simp [hfst]⟩

theorem keys_of_mapForm (l : List String) (f : String → Option Int) :
    ((l.map (fun k => (k, f k))).map Prod.fst) = l := by
  rw [List.map_map]
  exact map_id_of_eq (fun x _ => rfl)

theorem mem_remainingIds {g : GNode} {accIds : List String} {k : String} :
    k ∈ remainingIds g accIds ↔ k ∈ childIds g ∧ k ∉ accIds := by
  unfold remainingIds
  rw [List.mem_filter]
  simp

theorem length_filter_ne_lt {l : List String} {x : String} (hx : x ∈ l) :
    (l.filter (fun y => y != x)).length < l.length := by
  induction l with
  | nil => cases hx
  | cons y t ih =>
    simp only [List.filter_cons]
    by_cases h : (y != x) = true
    · have hxt : x ∈ t := by
        rcases List.mem_cons.mp hx with hh | hh
        · exfalso
          rw [hh] at h
          simp at h
        · exact hh
      simp only [h, if_true, List.length_cons]
      exact Nat.succ_lt_succ (ih hxt)
    · simp only [h, Bool.false_eq_true, if_false, List.length_cons]
      calc (t.filter (fun y => y != x)).length ≤ t.length :=
            List.length_filter_le _ _
        _ < t.length + 1 := Nat.lt_succ_self _

/-- The successor relation among the child ids: an in-scope dataflow edge
leads from `u` to `v`. -/
def stepRel (g : GNode) (u v : String) : Prop :=
  v ∈ succKeys g u

/-- The invariant of the sorting loop: the counter list is determined by
the emitted prefix (keys are the not-yet-emitted children in order, each
holding its in-degree restricted to not-yet-emitted children), the emitted
nodes are children with distinct ids, no emitted id is a successor of a
remaining child, and no emitted id is followed in the output by one of its
in-scope predecessors. -/
structure TopoInv (g : GNode) (m : List (String × Option Int))
    (acc : List GNode) : Prop where
  rep : m = (remainingIds g (acc.map GNode.id)).map
      (fun k => (k, some ((indeg g (remainingIds g (acc.map GNode.id)) k : Int))))
  accMem : ∀ a ∈ acc, a ∈ nodes g
  accNodup : (acc.map GNode.id).Nodup
  noEmittedSucc : ∀ a ∈ acc.map GNode.id,
      ∀ u ∈ remainingIds g (acc.map GNode.id), a ∉ succKeys g u
  accPair : (acc.map GNode.id).Pairwise (fun a b => a ∉ succKeys g b)

/-- Single occurrence bound: one remaining child's contribution never
exceeds the total in-degree. -/
theorem count_le_indeg (g : GNode) {rem : List String} {u : String}
    (hu : u ∈ rem) (k : String) :
    (succKeys g u).count k ≤ indeg g rem k := by
  unfold indeg
  exact List.single_le_sum (fun x _ => Nat.zero_le x) _
    (List.mem_map_of_mem (fun u => (succKeys g u).count k) hu)

theorem remainingIds_nil (g : GNode) : remainingIds g [] = childIds g := by
  unfold remainingIds
  apply List.filter_eq_self.mpr
  intro a _
  simp

/-- The zero-initialisation loop produces a counter per child, in order. -/
theorem initZero (g : GNode) (hnd : (childIds g).Nodup) :
    (nodes g).foldl (fun m n => pcSetZero m (GNode.id n)) []
      = (childIds g).map (fun k => (k, some (0 : Int))) := by
  have h1 : (childIds g).foldl pcSetZero []
      = (nodes g).foldl (fun m n => pcSetZero m (GNode.id n)) [] := by
    unfold childIds
    rw [List.foldl_map]
  rw [← h1, foldl_pcSetZero (childIds g) [] (fun k _ => rfl) hnd]
  simp

/-- The increment loop adds, per counter, the number of in-scope edges
into it from the processed children. -/
theorem initLoop_spec (g : GNode) (hwf : wfGraph g = true) :
    ∀ (cs : List GNode) (m : List (String × Option Int)),
      (∀ c ∈ cs, c ∈ nodes g) →
      (m.map Prod.fst = childIds g) →
      initLoop g cs m = .ok (m.map (fun kv => (kv.1, kv.2.map (fun v =>
        v + ((cs.map (fun u => (succKeys g (GNode.id u)).count kv.1)).sum : Int))))) := by
  intro cs
  induction cs with
  | nil =>
    intro m _ _
    unfold initLoop
    congr 1
    symm
    apply map_id_of_eq
    intro kv _
    rcases kv with ⟨k1, v⟩
    cases v <;> simp
  | cons c cs ih =>
    intro m hcs hkeys
    simp only [initLoop, successorsL_child g hwf (hcs c (by simp))]
    rw [foldl_filterKey]
    have hsk : ((((GNode.edges g).filter (childOutPred (GNode.id c))).map
        Edge.eto).map endNodeKey).filter (fun k => k != GNode.id g)
        = succKeys g (GNode.id c) := rfl
    rw [hsk]
    rw [foldl_pcIncrement_eq _ _ (by
      intro k hk
      apply any_fst_of_mem
      rw [hkeys]
      exact succKeys_subset_childIds g hwf (GNode.id c) k hk)]
    rw [ih _ (fun x hx => hcs x (by simp [hx])) (by
      rw [List.map_map]
      rw [show (Prod.fst ∘ fun kv : String × Option Int =>
        (kv.1, kv.2.map (fun v => v + ((succKeys g (GNode.id c)).count kv.1 : Int))))
        = Prod.fst from rfl]
      exact hkeys)]
    congr 1
    rw [List.map_map]
    apply List.map_congr_left
    intro kv _
    rcases kv with ⟨k1, v⟩
    simp only [Function.comp, List.map_cons, List.sum_cons]
    cases v with
    | none => simp
    | some x =>
      simp only [Option.map_map, Option.map_some', Option.some.injEq,
        Prod.mk.injEq, true_and, Function.comp]
      push_cast
      ring

/-- `initPredecessorCount` computes exactly the per-child in-degrees. -/
theorem initPredecessorCount_spec (g : GNode) (hwf : wfGraph g = true) :
    initPredecessorCount g = .ok ((childIds g).map (fun k =>
      (k, some ((indeg g (childIds g) k : Int))))) := by
  unfold initPredecessorCount
  rw [initZero g (childIds_nodup (wfIds_nodup (wfGraph_ids hwf)))]
  rw [initLoop_spec g hwf (nodes g) _ (fun c hc => hc)
    (keys_of_mapForm (childIds g) (fun _ => some (0 : Int)))]
  congr 1
  rw [List.map_map]
  apply List.map_congr_left
  intro k _
  have hsum : ((nodes g).map (fun u => (succKeys g (GNode.id u)).count k)).sum
      = indeg g (childIds g) k := by
    unfold indeg childIds
    rw [List.map_map]
    rfl
  rw [← hsum]
  simp

theorem topoInv_init (g : GNode) (hwf : wfGraph g = true) :
    TopoInv g ((childIds g).map (fun k =>
      (k, some ((indeg g (childIds g) k : Int))))) [] := by
  refine ⟨?_, ?_, ?_, ?_, ?_⟩
  · simp [remainingIds_nil]
  · intro a ha
    cases ha
  · simp
  · intro a ha
    cases ha
  · simp

/-- One iteration of the sorting loop: the first zero counter belongs to a
child whose lookup and successor query succeed, and deleting it and
decrementing along its out-edges re-establishes the invariant on a
strictly smaller remainder. -/
theorem topoInv_step (g : GNode) (hwf : wfGraph g = true)
    {m : List (String × Option Int)} {acc : List GNode}
    (inv : TopoInv g m acc) {kv : String × Option Int}
    (hfind : m.find? (fun kv => kv.2 == some (0 : Int)) = some kv) :
    ∃ c ∈ nodes g, GNode.id c = kv.1 ∧
      nodeL (.byId kv.1) g = .ok c ∧
      successorsL (.byId kv.1) g ["dataflow"] false
        = .ok (((GNode.edges g).filter (childOutPred kv.1)).map Edge.eto) ∧
      TopoInv g
        ((((GNode.edges g).filter (childOutPred kv.1)).map Edge.eto).foldl
          (fun m' s =>
            if endNodeKey s != GNode.id g then pcDecrement m' (endNodeKey s) else m')
          (pcDelete m kv.1)) (acc ++ [c]) ∧
      remainingIds g ((acc ++ [c]).map GNode.id)
        = (remainingIds g (acc.map GNode.id)).filter (fun k => k != kv.1) ∧
      kv.1 ∈ remainingIds g (acc.map GNode.id) ∧
      indeg g (remainingIds g (acc.map GNode.id)) kv.1 = 0 := by
  have hnd := wfIds_nodup (wfGraph_ids hwf)
  rw [inv.rep] at hfind
  obtain ⟨k0, hk0rem, hkv, hp⟩ := find?_map_inv hfind
  have hkv1 : kv.1 = k0 := by rw [← hkv]
  have hindeg0 : indeg g (remainingIds g (acc.map GNode.id)) k0 = 0 := by
    rw [← hkv] at hp
    simp only [beq_iff_eq, Option.some.injEq] at hp
    exact_mod_cast hp
  have hk0Child : k0 ∈ childIds g := (mem_remainingIds.mp hk0rem).1
  have hk0NotAcc : k0 ∉ (acc.map GNode.id) := (mem_remainingIds.mp hk0rem).2
  obtain ⟨c, hc, hidc, hnodeL⟩ := nodeL_childId hnd hk0Child
  have hsucc : successorsL (.byId k0) g ["dataflow"] false
      = .ok (((GNode.edges g).filter (childOutPred k0)).map Edge.eto) := by
    rw [← hidc]
    exact successorsL_child g hwf hc
  have hremNodup : (remainingIds g (acc.map GNode.id)).Nodup := (childIds_nodup hnd).filter _
  -- the remainder after emitting k0
  have hremEq : remainingIds g ((acc ++ [c]).map GNode.id)
      = (remainingIds g (acc.map GNode.id)).filter (fun k => k != k0) := by
    unfold remainingIds
    rw [List.filter_filter]
    apply List.filter_congr
    intro k _
    rw [List.map_append]
    simp only [List.map_cons, List.map_nil, hidc]
    by_cases h1 : k ∈ (acc.map GNode.id) <;> by_cases h2 : k = k0 <;>
      simp [h1, h2, List.mem_append]
  -- keys touched by the decrement fold stay within the new remainder
  have hsubRem : ∀ k ∈ succKeys g k0, k ∈ (remainingIds g (acc.map GNode.id)).filter (fun k => k != k0) := by
    intro k hk
    have hkChild : k ∈ childIds g := succKeys_subset_childIds g hwf k0 k hk
    have hkNotAcc : k ∉ (acc.map GNode.id) := fun hmem => inv.noEmittedSucc k hmem k0 hk0rem hk
    have hkNe : k ≠ k0 := by
      intro hEq
      subst hEq
      have hpos : 0 < (succKeys g k).count k := List.count_pos_iff.mpr hk
      have hle := count_le_indeg g hk0rem k
      omega
    rw [List.mem_filter]
    exact ⟨mem_remainingIds.mpr ⟨hkChild, hkNotAcc⟩, by simp [hkNe]⟩
  -- closed form of the deletion
  have hdel : pcDelete m k0 = ((remainingIds g (acc.map GNode.id)).filter (fun k => k != k0)).map
      (fun k => (k, some ((indeg g (remainingIds g (acc.map GNode.id)) k : Int)))) := by
    rw [inv.rep]
    unfold pcDelete
    rw [filter_map_comm]
    congr 1
    apply List.filter_congr
    intro k _
    simp only [bne]
    by_cases h : k = k0 <;> simp [h]
  -- closed form of the whole fold
  have hfold : (((GNode.edges g).filter (childOutPred k0)).map Edge.eto).foldl
      (fun m' s =>
        if endNodeKey s != GNode.id g then pcDecrement m' (endNodeKey s) else m')
      (pcDelete m k0)
      = ((remainingIds g (acc.map GNode.id)).filter (fun k => k != k0)).map
        (fun k => (k, some ((indeg g ((remainingIds g (acc.map GNode.id)).filter (fun k => k != k0)) k : Int)))) := by
    rw [foldl_filterKey]
    have hsk : (((((GNode.edges g).filter (childOutPred k0)).map Edge.eto).map
        endNodeKey).filter (fun k => k != GNode.id g)) = succKeys g k0 := rfl
    rw [hsk, hdel]
    rw [foldl_pcDecrement_eq _ _ (by
      intro k hk
      apply any_fst_of_mem
      rw [keys_of_mapForm]
      exact hsubRem k hk)]
    rw [List.map_map]
    apply List.map_congr_left
    intro k hk
    have hsplit : indeg g (remainingIds g (acc.map GNode.id)) k
        = (succKeys g k0).count k + indeg g ((remainingIds g (acc.map GNode.id)).filter (fun y => y != k0)) k := by
      unfold indeg
      exact map_sum_split (fun u => (succKeys g u).count k) hk0rem hremNodup
    simp only [Function.comp, Option.map_some', Prod.mk.injEq, true_and,
      Option.some.injEq]
    rw [hsplit]
    push_cast
    ring
  refine ⟨c, hc, by rw [hidc, hkv1], by rw [hkv1]; exact hnodeL,
    by rw [hkv1]; exact hsucc, ?_, by rw [hkv1]; exact hremEq,
    by rw [hkv1]; exact hk0rem, by rw [hkv1]; exact hindeg0⟩
  rw [hkv1]
  refine ⟨?_, ?_, ?_, ?_, ?_⟩
  · rw [hfold, hremEq]
  · intro a ha
    rcases List.mem_append.mp ha with h | h
    · exact inv.accMem a h
    · rw [List.mem_singleton.mp h]
      exact hc
  · rw [List.map_append]
    simp only [List.map_cons, List.map_nil, hidc]
    rw [List.nodup_append]
    exact ⟨inv.accNodup, List.nodup_singleton k0,
      fun a ha hmem => hk0NotAcc ((List.mem_singleton.mp hmem) ▸ ha)⟩
  · intro a ha u hu
    rw [hremEq] at hu
    have huRem : u ∈ (remainingIds g (acc.map GNode.id)) := List.mem_of_mem_filter hu
    rw [List.map_append] at ha
    simp only [List.map_cons, List.map_nil, hidc] at ha
    rcases List.mem_append.mp ha with h | h
    · exact inv.noEmittedSucc a h u huRem
    · rw [List.mem_singleton.mp h]
      intro hmem
      have hpos : 0 < (succKeys g u).count k0 := List.count_pos_iff.mpr hmem
      have hle := count_le_indeg g huRem k0
      omega
  · rw [List.map_append]
    simp only [List.map_cons, List.map_nil, hidc]
    rw [List.pairwise_append]
    refine ⟨inv.accPair, List.pairwise_singleton _ _, ?_⟩
    intro a ha b hb
    rw [List.mem_singleton.mp hb]
    exact inv.noEmittedSucc a ha k0 hk0rem

/-- Whenever `topoLoop` returns a list, that list consists of children
with distinct ids, respects the edge order, and exhausts the children. -/
theorem topoLoop_ok (g : GNode) (hwf : wfGraph g = true) :
    ∀ n (m : List (String × Option Int)) (acc : List GNode),
      (remainingIds g (acc.map GNode.id)).length = n →
      TopoInv g m acc → ∀ l, topoLoop g m acc = .ok l →
        (∀ a ∈ l, a ∈ nodes g) ∧ (l.map GNode.id).Nodup ∧
        (l.map GNode.id).Pairwise (fun a b => a ∉ succKeys g b) ∧
        remainingIds g (l.map GNode.id) = [] := by
  intro n
  induction n using Nat.strong_induction_on with
  | _ n ih =>
    intro m acc hlen inv l hok
    unfold topoLoop at hok
    by_cases hempty : m.isEmpty = true
    · rw [if_pos hempty] at hok
      cases hok
      have hremNil : remainingIds g (acc.map GNode.id) = [] := by
        have hrep := inv.rep
        rw [List.isEmpty_iff] at hempty
        rw [hempty] at hrep
        exact List.map_eq_nil_iff.mp hrep.symm
      exact ⟨inv.accMem, inv.accNodup, inv.accPair, hremNil⟩
    · rw [if_neg hempty] at hok
      split at hok
      · cases hok
      · rename_i kv hfind
        obtain ⟨c, hc, hidc, hnodeL, hsucc, inv', hremEq, hk0rem, _⟩ :=
          topoInv_step g hwf inv hfind
        simp only [hnodeL, hsucc] at hok
        have hlt : (remainingIds g ((acc ++ [c]).map GNode.id)).length < n := by
          rw [hremEq, ← hlen]
          exact length_filter_ne_lt hk0rem
        exact ih _ hlt _ _ rfl inv' l hok

/-- A nonempty, successor-closed child set without cycles contains a node
of restricted in-degree zero. -/
theorem exists_source (g : GNode) {S : List String} (hS : S ≠ [])
    (hacyc : ∀ k, ¬ Relation.TransGen (stepRel g) k k) :
    ∃ k ∈ S, indeg g S k = 0 := by
  by_contra hno
  push_neg at hno
  have hpred : ∀ k ∈ S, ∃ u ∈ S, stepRel g u k := by
    intro k hk
    by_contra hnopred
    push_neg at hnopred
    apply hno k hk
    unfold indeg
    apply List.sum_eq_zero
    intro x hx
    rcases List.mem_map.mp hx with ⟨u, hu, hux⟩
    rw [← hux, List.count_eq_zero]
    intro hmem
    exact hnopred u hu hmem
  -- minimal element of the transitive closure restricted to S
  haveI : Finite {k // k ∈ S.toFinset} := inferInstance
  let r : {k // k ∈ S.toFinset} → {k // k ∈ S.toFinset} → Prop :=
    fun a b => Relation.TransGen (fun x y : {k // k ∈ S.toFinset} =>
      stepRel g x.1 y.1) a b
  haveI : IsTrans {k // k ∈ S.toFinset} r := ⟨fun _ _ _ => Relation.TransGen.trans⟩
  haveI : IsIrrefl {k // k ∈ S.toFinset} r := ⟨by
    intro a hr
    exact hacyc a.1
      (Relation.TransGen.lift Subtype.val (fun _ _ h => h) hr)⟩
  have hwfr : WellFounded r := Finite.wellFounded_of_trans_of_irrefl r
  have hSne : ∃ x : {k // k ∈ S.toFinset}, True := by
    cases S with
    | nil => exact absurd rfl hS
    | cons a t => exact ⟨⟨a, by simp⟩, trivial⟩
  obtain ⟨x, _⟩ := hSne
  obtain ⟨mmin, _, hmin⟩ := hwfr.has_min Set.univ ⟨x, trivial⟩
  obtain ⟨u, hu, hustep⟩ := hpred mmin.1 (List.mem_toFinset.mp mmin.2)
  exact hmin ⟨u, by simp [hu]⟩ trivial
    (Relation.TransGen.single hustep)

/-- Under acyclicity among the children the sorting loop always returns a
list. -/
theorem topoLoop_progress (g : GNode) (hwf : wfGraph g = true)
    (hacyc : ∀ k, ¬ Relation.TransGen (stepRel g) k k) :
    ∀ n (m : List (String × Option Int)) (acc : List GNode),
      (remainingIds g (acc.map GNode.id)).length = n →
      TopoInv g m acc → ∃ l, topoLoop g m acc = .ok l := by
  intro n
  induction n using Nat.strong_induction_on with
  | _ n ih =>
    intro m acc hlen inv
    by_cases hempty : m.isEmpty = true
    · refine ⟨acc, ?_⟩
      unfold topoLoop
      rw [if_pos hempty]
    · have hremNe : remainingIds g (acc.map GNode.id) ≠ [] := by
        intro hnil
        apply hempty
        rw [inv.rep, hnil]
        rfl
      obtain ⟨k0, hk0, hdeg0⟩ := exists_source g hremNe hacyc
      have hfindSome : (m.find? (fun kv => kv.2 == some (0 : Int))).isSome := by
        rw [inv.rep]
        rw [List.find?_isSome]
        refine ⟨(k0, some ((indeg g (remainingIds g (acc.map GNode.id)) k0 : Int))),
          List.mem_map_of_mem _ hk0, ?_⟩
        simp [hdeg0]
      obtain ⟨kv, hfind⟩ := Option.isSome_iff_exists.mp hfindSome
      obtain ⟨c, hc, hidc, hnodeL, hsucc, inv', hremEq, hkvrem, _⟩ :=
        topoInv_step g hwf inv hfind
      have hlt : (remainingIds g ((acc ++ [c]).map GNode.id)).length < n := by
        rw [hremEq, ← hlen]
        exact length_filter_ne_lt hkvrem
      obtain ⟨l, hl⟩ := ih _ hlt _ _ rfl inv'
      refine ⟨l, ?_⟩
      unfold topoLoop
      rw [if_neg hempty]
      split
      · rename_i hnone
        rw [hfind] at hnone
        cases hnone
      · rename_i kv' hfind'
        rw [hfind] at hfind'
        cases hfind'
        simp only [hnodeL, hsucc]
        exact hl

/-- While a dataflow cycle persists among the not-yet-emitted children,
the loop terminates in the cycle error. -/
theorem topoLoop_cycle (g : GNode) (hwf : wfGraph g = true) :
    ∀ n (m : List (String × Option Int)) (acc : List GNode),
      (remainingIds g (acc.map GNode.id)).length = n →
      TopoInv g m acc →
      (∀ k, Relation.TransGen (stepRel g) k k →
        k ∈ remainingIds g (acc.map GNode.id)) →
      (∃ k0, Relation.TransGen (stepRel g) k0 k0) →
      topoLoop g m acc
        = .error "Found cycle in the graph. Impossible to calculate topological sorting." := by
  intro n
  induction n using Nat.strong_induction_on with
  | _ n ih =>
    intro m acc hlen inv hclosed hcyc
    obtain ⟨kc, hkc⟩ := hcyc
    by_cases hempty : m.isEmpty = true
    · exfalso
      have hrep := inv.rep
      rw [List.isEmpty_iff] at hempty
      rw [hempty] at hrep
      have hremNil := List.map_eq_nil_iff.mp hrep.symm
      have := hclosed kc hkc
      rw [hremNil] at this
      cases this
    · unfold topoLoop
      rw [if_neg hempty]
      split
      · rfl
      · rename_i kv hfind
        obtain ⟨c, hc, hidc, hnodeL, hsucc, inv', hremEq, hkvrem, hdeg0⟩ :=
          topoInv_step g hwf inv hfind
        simp only [hnodeL, hsucc]
        -- the selected node is on no cycle
        have hsel : ¬ Relation.TransGen (stepRel g) kv.1 kv.1 := by
          intro hcycSel
          obtain ⟨u, hrt, hstep⟩ := Relation.TransGen.tail'_iff.mp hcycSel
          have hucyc : Relation.TransGen (stepRel g) u u :=
            Relation.TransGen.trans_left (Relation.TransGen.single hstep) hrt
          have hurem := hclosed u hucyc
          have hpos : 0 < (succKeys g u).count kv.1 :=
            List.count_pos_iff.mpr hstep
          have hle := count_le_indeg g hurem kv.1
          omega
        have hclosed' : ∀ k, Relation.TransGen (stepRel g) k k →
            k ∈ remainingIds g ((acc ++ [c]).map GNode.id) := by
          intro k hk
          rw [hremEq, List.mem_filter]
          refine ⟨hclosed k hk, ?_⟩
          simp only [bne_iff_ne, ne_eq, decide_eq_true_eq]
          intro hEq
          exact hsel (hEq ▸ hk)
        have hlt : (remainingIds g ((acc ++ [c]).map GNode.id)).length < n := by
          rw [hremEq, ← hlen]
          exact length_filter_ne_lt hkvrem
        exact ih _ hlt _ _ rfl inv' hclosed' ⟨kc, hkc⟩

/-- Under wellformedness, every member of a successor cycle is a direct
child (each cycle member has an incoming in-scope edge). -/
theorem cycle_mem_childIds (g : GNode) (hwf : wfGraph g = true) :
    ∀ k, Relation.TransGen (stepRel g) k k → k ∈ childIds g := by
  intro k h
  obtain ⟨u, _, hstep⟩ := Relation.TransGen.tail'_iff.mp h
  exact succKeys_subset_childIds g hwf u k hstep

/-- `topologicalSort` on a wellformed compound with acyclic children:
success, permutation of the children, and edge-respecting order. -/
theorem topologicalSort_spec (g : GNode) (hwf : wfGraph g = true)
    (hacyc : ∀ k, ¬ Relation.TransGen (stepRel g) k k) :
    ∃ l, topologicalSort g = .ok l ∧ l.Perm (nodes g) ∧
      (l.map GNode.id).Pairwise (fun a b => a ∉ succKeys g b) := by
  have hnd := wfIds_nodup (wfGraph_ids hwf)
  have hinv := topoInv_init g hwf
  obtain ⟨l, hl⟩ := topoLoop_progress g hwf hacyc _ _ [] rfl hinv
  obtain ⟨hmem, hnodup, hpair, hexh⟩ := topoLoop_ok g hwf _ _ [] rfl hinv l hl
  refine ⟨l, ?_, ?_, hpair⟩
  · unfold topologicalSort
    rw [initPredecessorCount_spec g hwf]
    exact hl
  · have hlNodup : l.Nodup := List.Nodup.of_map _ hnodup
    have hcNodup : (nodes g).Nodup := List.Nodup.of_map _ (childIds_nodup hnd)
    rw [List.perm_ext_iff_of_nodup hlNodup hcNodup]
    intro a
    constructor
    · exact hmem a
    · intro ha
      have hida : GNode.id a ∈ childIds g := child_id_mem ha
      have hin : GNode.id a ∈ l.map GNode.id := by
        unfold remainingIds at hexh
        by_contra hnotin
        have := List.filter_eq_nil_iff.mp hexh (GNode.id a) hida
        simp [hnotin] at this
      rcases List.mem_map.mp hin with ⟨b, hb, hba⟩
      have hbc : b ∈ nodes g := hmem b hb
      have hEq : b = a :=
        List.inj_on_of_nodup_map (childIds_nodup hnd) hbc ha hba
      rw [← hEq]
      exact hb

/-! ## Claims C2, C3, C10: topological sorting and the deep enumeration -/

/-- **C2** — For every (wellformed) compound node whose direct children
have no dataflow cycle among them, `topologicalSort` returns an ordering
of exactly those direct children — a permutation of the child list, so it
does not recurse into nested compounds — in which every node appears after
all of its intra-compound predecessors: no emitted id is followed by one
of its in-scope predecessors, and whenever the node at position `j` has an
in-scope dataflow edge to the node at position `i`, then `j < i`. -/
theorem claim_C2_topologicalSort_sorts (g : GNode) (hwf : wfGraph g = true)
    (hacyc : ∀ k, ¬ Relation.TransGen (stepRel g) k k) :
    ∃ l, topologicalSort g = .ok l ∧ l.Perm (nodes g) ∧
      (l.map GNode.id).Pairwise (fun a b => a ∉ succKeys g b) ∧
      (∀ (i j : Fin l.length),
        GNode.id (l.get i) ∈ succKeys g (GNode.id (l.get j)) → j < i) := by
  obtain ⟨l, hok, hperm, hpair⟩ := topologicalSort_spec g hwf hacyc
  refine ⟨l, hok, hperm, hpair, ?_⟩
  intro i j hedge
  rcases lt_trichotomy (i : Nat) (j : Nat) with hij | hij | hij
  · exfalso
    have hpg := List.pairwise_iff_get.mp hpair
      ⟨i, by simpa using i.2⟩ ⟨j, by simpa using j.2⟩ (by simpa using hij)
    simp only [List.get_map] at hpg
    exact hpg hedge
  · exfalso
    have hii : (i : Nat) = (j : Nat) := hij
    have : GNode.id (l.get i) ∈ succKeys g (GNode.id (l.get i)) := by
      have hgetEq : l.get i = l.get j := by
        congr 1
        exact Fin.ext hii
      rw [hgetEq] at hedge ⊢
      exact hedge
    exact hacyc _ (Relation.TransGen.single this)
  · exact Fin.lt_def.mpr hij

/-- **C3** — For every (wellformed) compound whose direct children
contain a dataflow cycle, `topologicalSort` raises the cycle-detected
error rather than returning an ordering or looping forever. -/
theorem claim_C3_topologicalSort_cycle_error (g : GNode)
    (hwf : wfGraph g = true)
    (hcyc : ∃ k, Relation.TransGen (stepRel g) k k) :
    topologicalSort g
      = .error "Found cycle in the graph. Impossible to calculate topological sorting." := by
  unfold topologicalSort
  rw [initPredecessorCount_spec g hwf]
  apply topoLoop_cycle g hwf _ _ [] rfl (topoInv_init g hwf) ?_ hcyc
  intro k hk
  simp only [List.map_nil]
  rw [remainingIds_nil]
  exact cycle_mem_childIds g hwf k hk

/-- **C10** — `nodesDeep` contains the root graph object itself as an
element, appended after all descendant nodes; `topologicalSort` filters it
out by id, so no node of its result carries the root's id. -/
theorem claim_C10_nodesDeep_contains_root (g : GNode)
    (hwf : wfGraph g = true) :
    (nodesDeep g).getLast? = some g ∧ g ∈ nodesDeep g ∧
    (∀ l, topologicalSort g = .ok l → GNode.id g ∉ l.map GNode.id) := by
  refine ⟨?_, self_mem_nodesDeep g, ?_⟩
  · unfold nodesDeep
    exact List.getLast?_concat _
  · intro l hok hin
    unfold topologicalSort at hok
    rw [initPredecessorCount_spec g hwf] at hok
    obtain ⟨hmem, _, _, _⟩ :=
      topoLoop_ok g hwf _ _ [] rfl (topoInv_init g hwf) l hok
    rcases List.mem_map.mp hin with ⟨a, ha, hida⟩
    exact childId_ne_root (wfIds_nodup (wfGraph_ids hwf))
      (child_id_mem (hmem a ha)) hida

/-! ### Concrete witness graphs -/

/-- A chain `a → b` inside a compound, in realized form. -/
def chainA : GNode := .mk "#a" (some "a")
  [⟨"out", "output", "g", some "#a"⟩] true none [] [] [] (some ["#g", "#a"])

def chainB : GNode := .mk "#b" (some "b")
  [⟨"in", "input", "g", some "#b"⟩] true none [] [] [] (some ["#g", "#b"])

def chainComp : GNode := .mk "#g" (some "g") [] false (some [chainA, chainB])
  [⟨.eport "#a" "out", .eport "#b" "in", "dataflow"⟩] [] [] (some ["#g"])

/-- A two-node dataflow cycle `x → y → x` inside a compound. -/
def cycX : GNode := .mk "#x" (some "x")
  [⟨"out", "output", "g", some "#x"⟩, ⟨"in", "input", "g", some "#x"⟩]
  true none [] [] [] (some ["#h", "#x"])

def cycY : GNode := .mk "#y" (some "y")
  [⟨"out", "output", "g", some "#y"⟩, ⟨"in", "input", "g", some "#y"⟩]
  true none [] [] [] (some ["#h", "#y"])

def cycComp : GNode := .mk "#h" (some "h") [] false (some [cycX, cycY])
  [⟨.eport "#x" "out", .eport "#y" "in", "dataflow"⟩,
   ⟨.eport "#y" "out", .eport "#x" "in", "dataflow"⟩] [] [] (some ["#h"])

theorem chain_succKeys (u : String) :
    succKeys chainComp u = if u = "#a" then ["#b"] else [] := by
  by_cases hu : u = "#a"
  · subst hu
    rfl
  · rw [if_neg hu]
    unfold succKeys chainComp childOutPred
    simp only [GNode.edges, List.filter_cons, List.filter_nil]
    have hfrom : isFromB (.byId u)
        ⟨.eport "#a" "out", .eport "#b" "in", "dataflow"⟩ = false := by
      unfold isFromB
      simp only [beq_eq_false_iff_ne, ne_eq]
      exact fun hEq => hu hEq.symm
    rw [hfrom]
    rfl

theorem chain_acyclic : ∀ k, ¬ Relation.TransGen (stepRel chainComp) k k := by
  intro k hcyc
  obtain ⟨u, _, hlast⟩ := Relation.TransGen.tail'_iff.mp hcyc
  obtain ⟨v, hfirst, _⟩ := Relation.TransGen.head'_iff.mp hcyc
  unfold stepRel at hlast hfirst
  rw [chain_succKeys] at hlast hfirst
  by_cases hu : u = "#a"
  · rw [if_pos hu] at hlast
    have hk : k = "#b" := by simpa using hlast
    rw [hk] at hfirst
    rw [if_neg (by decide)] at hfirst
    cases hfirst
  · rw [if_neg hu] at hlast
    cases hlast

/-- Witness for C2 on the chain `a → b`: the hypotheses hold and the
conclusion is realized (the computed order is `[a, b]`). -/
theorem claim_C2_witness :
    wfGraph chainComp = true ∧
    (∃ l, topologicalSort chainComp = .ok l ∧ l.Perm (nodes chainComp) ∧
      (l.map GNode.id).Pairwise (fun a b => a ∉ succKeys chainComp b) ∧
      (∀ (i j : Fin l.length),
        GNode.id (l.get i) ∈ succKeys chainComp (GNode.id (l.get j)) → j < i)) :=
  ⟨by decide,
    claim_C2_topologicalSort_sorts chainComp (by decide) chain_acyclic⟩

/-- Witness for C3 on the cycle `x → y → x`. -/
theorem claim_C3_witness :
    wfGraph cycComp = true ∧
    topologicalSort cycComp
      = .error "Found cycle in the graph. Impossible to calculate topological sorting." :=
  ⟨by decide,
    claim_C3_topologicalSort_cycle_error cycComp (by decide)
      ⟨"#x", Relation.TransGen.head
        (by unfold stepRel; decide : stepRel cycComp "#x" "#y")
        (Relation.TransGen.single
          (by unfold stepRel; decide : stepRel cycComp "#y" "#x"))⟩⟩

/-- Witness for C10 on the chain compound. -/
theorem claim_C10_witness :
    (nodesDeep chainComp).getLast? = some chainComp ∧
    chainComp ∈ nodesDeep chainComp ∧
    (∀ l, topologicalSort chainComp = .ok l →
      GNode.id chainComp ∉ l.map GNode.id) :=
  claim_C10_nodesDeep_contains_root chainComp (by decide)

/-! ## The change-set engine (`changeSet.js`)

A change-set value is either a recognized change-set (one of the shapes
the module's constructors produce), an object with the `type: 'changeSet'`
marker whose `operation` is not in the dispatch list (`empty()` produces
such a value: its typo `opertaion` leaves `operation` undefined), or any
other value, which fails `isChangeSet`.

The in-place execution is modelled by returning the updated tree; the
object property created by an assignment to a negative array index (which
no array operation of the library ever observes) is modelled as leaving
the list unchanged.  A JavaScript `TypeError` (property access on
`undefined`) is an `.error`; a function that falls off its end returns
`.ok none` (`undefined`). -/

/-- A partial node object, merged into a stored node by `_f.merge` in
`applyMergeByPath`.  Present fields override; the model replaces
array-valued fields wholesale (lodash merges arrays index-wise, which no
caller of `updateNode` in this repository relies on). -/
structure NodeUpdate where
  name? : Option String
  ports? : Option (List Port)
  atomic? : Option Bool
  edges? : Option (List Edge)
deriving Repr, DecidableEq

/-- `_f.merge` of a partial node into a node. -/
def mergeNodeVal (n : GNode) (u : NodeUpdate) : GNode :=
  match n with
  | .mk i nm ps a ch es co mt pa =>
    .mk i (match u.name? with | some s => some s | none => nm)
      (u.ports?.getD ps) (u.atomic?.getD a) ch (u.edges?.getD es) co mt pa

/-- A partial edge object for `updateEdge`. -/
structure EdgeUpdate where
  efrom? : Option EdgeEnd
  eto? : Option EdgeEnd
  layer? : Option String
deriving Repr, DecidableEq

/-- `_f.merge` of a partial edge into an edge. -/
def mergeEdgeVal (e : Edge) (u : EdgeUpdate) : Edge :=
  ⟨u.efrom?.getD e.efrom, u.eto?.getD e.eto, u.layer?.getD e.layer⟩

/-- `_f.merge` of component fields (present fields override or extend). -/
def mergeFields (f1 f2 : List (String × String)) : List (String × String) :=
  f1.map (fun kv =>
    match f2.find? (fun kv' => kv'.1 == kv.1) with
    | some kv' => (kv.1, kv'.2)
    | none => kv)
    ++ f2.filter (fun kv' => !(f1.any (fun kv => kv.1 == kv'.1)))

/-- `Node.equal(selector, node)` from `node.js`, specialized to a string
selector against a stored (valid) node: a `'#'`-prefixed selector compares
ids, any other string compares against the node's name. -/
def nodeEqualStr (s : String) (n : GNode) : Bool :=
  if isID s then GNode.id n == s else nodeName n == s

/-- The recognized change-set shapes, as the module's constructors build
them, plus the marker-only shape with an unrecognized operation. -/
inductive ChangeSet where
  | updateNodeCS (query : List String) (value : NodeUpdate)
  | setNodeCS (query : List String) (value : GNode)
  | insertNodeCS (value : GNode) (path : List String)
  | insertEdgeCS (value : Edge)
  | insertComponentCS (value : Component)
  | updateComponentCS (query : String) (value : List (String × String))
  | updateEdgeCS (query : Edge) (value : EdgeUpdate)
  | removeNodeCS (id : String)
  | removeComponentCS (id : String)
  | removeEdgeCS (edge : Edge)
  | setMetaCS (value : List (String × MetaVal))
  | addMetaCS (key : String) (value : MetaVal)
  | removeMetaCS (key : String)
  | unrecognized

/-- A value handed to `applyChangeSet`: either a change-set object or a
value failing `isChangeSet` (carrying its printed form). -/
inductive CSVal where
  | cs (c : ChangeSet)
  | notChangeSet (printed : String)

/-- `applyMergeByPath(graph, path, value)`: descend along name/id
selectors, merging into the addressed node; an unresolved step falls off
the end (`undefined`), and an empty path crashes on `path[0]`. -/
def applyMergeByPath : GNode → List String → NodeUpdate → Except String (Option GNode)
  | _, [], _ => .error "TypeError: Node.equal on undefined selector"
  | g, [p], value =>
    match (nodes g).findIdx? (nodeEqualStr p) with
    | some idx =>
      .ok (some (match g with
        | .mk i nm ps a ch es co mt pa =>
          .mk i nm ps a (ch.map (fun cs => cs.mapIdx (fun j c =>
            if j = idx then mergeNodeVal c value else c))) es co mt pa))
    | none => .ok none
  | g, p :: p' :: rest, value =>
    match (nodes g).findIdx? (nodeEqualStr p) with
    | some idx =>
      match (nodes g).get? idx with
      | some child =>
        if hasChildren child then
          match applyMergeByPath child (p' :: rest) value with
          | .error e => .error e
          | .ok none =>
            .error "Invalid merge: node replaced by undefined."
          | .ok (some child') =>
            .ok (some (match g with
              | .mk i nm ps a ch es co mt pa =>
                .mk i nm ps a (ch.map (fun cs => cs.mapIdx (fun j c =>
                  if j = idx then child' else c))) es co mt pa))
        else .ok none
      | none => .ok none
    | none => .ok none

/-- The persistent branch of `applySetByPath` (recursive calls descend
into child nodes, which never carry the `inplace` flag). -/
def applySetByPathP : GNode → List String → GNode → Except String (Option GNode)
  | _, [], _ => .error "TypeError: Node.equal on undefined selector"
  | g, [p], value =>
    match (nodes g).findIdx? (nodeEqualStr p) with
    | some idx =>
      .ok (some (match g with
        | .mk i nm ps a ch es co mt pa =>
          .mk i nm ps a (ch.map (fun cs => cs.mapIdx (fun j c =>
            if j = idx then value else c))) es co mt pa))
    | none => .ok none
  | g, p :: p' :: rest, value =>
    match (nodes g).findIdx? (nodeEqualStr p) with
    | some idx =>
      match (nodes g).get? idx with
      | some child =>
        if hasChildren child then
          match applySetByPathP child (p' :: rest) value with
          | .error e => .error e
          | .ok none => .error "Invalid setPath: node replaced by undefined."
          | .ok (some child') =>
            .ok (some (match g with
              | .mk i nm ps a ch es co mt pa =>
                .mk i nm ps a (ch.map (fun cs => cs.mapIdx (fun j c =>
                  if j = idx then child' else c))) es co mt pa))
        else .ok none
      | none => .ok none
    | none => .ok none

/-- `setNodeByPath` (the in-place branch of `applySetByPath`): walk the
path mutating in place; a missing final selector assigns to index `-1`
(invisible to every array operation, so the tree is unchanged), a missing
or childless intermediate node raises a `TypeError`; the graph itself is
returned. -/
def setNodeByPathIP : GNode → List String → GNode → Except String GNode
  | _, [], _ => .error "TypeError: Node.equal on undefined selector"
  | g, [p], value =>
    match (nodes g).findIdx? (nodeEqualStr p) with
    | some idx =>
      .ok (match g with
        | .mk i nm ps a ch es co mt pa =>
          .mk i nm ps a (ch.map (fun cs => cs.mapIdx (fun j c =>
            if j = idx then value else c))) es co mt pa)
    | none =>
      if hasChildren g then .ok g
      else .error "TypeError: cannot set property of undefined"
  | g, p :: p' :: rest, value =>
    match (nodes g).findIdx? (nodeEqualStr p) with
    | some idx =>
      match (nodes g).get? idx with
      | some child =>
        match setNodeByPathIP child (p' :: rest) value with
        | .error e => .error e
        | .ok child' =>
          .ok (match g with
            | .mk i nm ps a ch es co mt pa =>
              .mk i nm ps a (ch.map (fun cs => cs.mapIdx (fun j c =>
                if j = idx then child' else c))) es co mt pa)
      | none => .error "TypeError: cannot read property of undefined"
    | none => .error "TypeError: cannot read property of undefined"

/-- `applySetByPath(graph, path, value)` with the mode selected by the
root's `inplace` flag. -/
def applySetByPath : Bool → GNode → List String → GNode →
    Except String (Option GNode)
  | true, g, path, value =>
    match setNodeByPathIP g path value with
    | .error e => .error e
    | .ok g' => .ok (some g')
  | false, g, path, value => applySetByPathP g path value

/-- `getPath(graph, path)` from `changeSet.js`: walk the id/name chain
from the graph; a failed step surfaces as a `TypeError` at its first
dereference. -/
def getPath : GNode → List String → Except String GNode
  | g, [] => .ok g
  | g, p :: rest =>
    match (nodes g).findIdx? (nodeEqualStr p) with
    | some idx =>
      match (nodes g).get? idx with
      | some child =>
        match rest with
        | [] => .ok child
        | _ => getPath child rest
      | none => .error "TypeError: cannot read property of undefined"
    | none => .error "TypeError: cannot read property of undefined"

/-- Append a node to the children of the node addressed by `where`,
rebuilding the spine (the functional image of `node[what].push(value)`
after `getPath`). -/
def pushNodeAt : GNode → List String → GNode → Except String GNode
  | g, [], value =>
    match g with
    | .mk i nm ps a ch es co mt pa =>
      match ch with
      | some cs => .ok (.mk i nm ps a (some (cs ++ [value])) es co mt pa)
      | none => .error "TypeError: cannot push onto undefined"
  | g, p :: rest, value =>
    match (nodes g).findIdx? (nodeEqualStr p) with
    | some idx =>
      match (nodes g).get? idx with
      | some child =>
        match pushNodeAt child rest value with
        | .error e => .error e
        | .ok child' =>
          .ok (match g with
            | .mk i nm ps a ch es co mt pa =>
              .mk i nm ps a (ch.map (fun cs => cs.mapIdx (fun j c =>
                if j = idx then child' else c))) es co mt pa)
      | none => .error "TypeError: cannot read property of undefined"
    | none => .error "TypeError: cannot read property of undefined"

/-- `insertInGraph('nodes', where, value, graph)`: the in-place branch
pushes at the addressed node; the persistent branch refuses any path that
is not the graph's own (`Cannot insert deep without modifications`) and
appends at the root. -/
def insertNodeInGraph : Bool → GNode → List String → GNode →
    Except String (Option GNode)
  | true, g, whereP, value =>
    match pushNodeAt g whereP value with
    | .error e => .error e
    | .ok g' => .ok (some g')
  | false, g, whereP, value =>
    match GNode.path? g with
    | none => .error "TypeError: cannot read length of undefined"
    | some gp =>
      match relativeTo whereP gp with
      | .error e => .error e
      | .ok rel =>
        if rel.length ≠ 0 then
          .error "Cannot insert deep without modifications."
        else
          match g with
          | .mk i nm ps a ch es co mt pa =>
            match ch with
            | some cs => .ok (some (.mk i nm ps a (some (cs ++ [value])) es co mt pa))
            | none => .error "TypeError: spread of undefined"

/-- `insertInGraph('edges', ...)`: both modes append to the root edge
list (the in-place special case only covers `'nodes'`). -/
def insertEdgeInGraph (g : GNode) (value : Edge) : GNode :=
  match g with
  | .mk i nm ps a ch es co mt pa => .mk i nm ps a ch (es ++ [value]) co mt pa

/-- `insertInGraph('components', ...)`. -/
def insertComponentInGraph (g : GNode) (value : Component) : GNode :=
  match g with
  | .mk i nm ps a ch es co mt pa => .mk i nm ps a ch es (co ++ [value]) mt pa

/-- `applyMergeByComponent`. -/
def applyMergeByComponent (g : GNode) (cId : String)
    (value : List (String × String)) : GNode :=
  match g with
  | .mk i nm ps a ch es co mt pa =>
    .mk i nm ps a ch es
      (match co.findIdx? (fun c => c.meta == cId) with
       | some idx => co.mapIdx (fun j c =>
           if j = idx then ⟨c.meta, mergeFields c.fields value⟩ else c)
       | none => co)
      mt pa

/-- `applyMergeByEdge` (edge equality of the out-of-scope `edge.js` is
modelled from the spec as structural equality of endpoints and layer). -/
def applyMergeByEdge (g : GNode) (edge : Edge) (value : EdgeUpdate) : GNode :=
  match g with
  | .mk i nm ps a ch es co mt pa =>
    .mk i nm ps a ch
      (match es.findIdx? (fun e => e == edge) with
       | some idx => es.mapIdx (fun j e =>
           if j = idx then mergeEdgeVal e value else e)
       | none => es)
      co mt pa

/-- Assoc-list update used by `applySetKey` (`_f.set` on one meta key). -/
def setMetaKey (mt : List (String × MetaVal)) (key : String) (v : MetaVal) :
    List (String × MetaVal) :=
  if mt.any (fun kv => kv.1 == key) then
    mt.map (fun kv => if kv.1 == key then (kv.1, v) else kv)
  else
    mt ++ [(key, v)]

/-- `applySetKey(graph, 'metaInformation.' ++ key, value)`: merge when
both the old and the new value are objects, overwrite otherwise. -/
def applySetKey (g : GNode) (key : String) (value : MetaVal) : GNode :=
  match g with
  | .mk i nm ps a ch es co mt pa =>
    let old := (mt.find? (fun kv => kv.1 == key)).map Prod.snd
    let newVal :=
      match old, value with
      | some (.obj f1), .obj f2 => MetaVal.obj (mergeFields f1 f2)
      | _, _ => value
    .mk i nm ps a ch es co (setMetaKey mt key newVal) pa

/-- `applyChangeSetInplace(graph, changeSet)` from `changeSet.js` (and
`applyChangeSet`, which simply calls it); the mode is the root's
`inplace` flag, passed explicitly since the flag is not part of the
compared structure. -/
def applyChangeSetInplace (inplace : Bool) (g : GNode) (v : CSVal) :
    Except String (Option GNode) :=
  match v with
  | .notChangeSet printed =>
    .error ("Cannot apply non-ChangeSet " ++ printed)
  | .cs c =>
    match c with
    | .updateNodeCS q value => applyMergeByPath g q value
    | .setNodeCS q value => applySetByPath inplace g q value
    | .updateComponentCS q value => .ok (some (applyMergeByComponent g q value))
    | .updateEdgeCS q value => .ok (some (applyMergeByEdge g q value))
    | .insertNodeCS value path => insertNodeInGraph inplace g path value
    | .insertEdgeCS value => .ok (some (insertEdgeInGraph g value))
    | .insertComponentCS value => .ok (some (insertComponentInGraph g value))
    | .removeNodeCS nid =>
      .ok (some (match g with
        | .mk i nm ps a ch es co mt pa =>
          .mk i nm ps a (ch.map (fun cs =>
            cs.filter (fun n => !(nodeEqualStr nid n)))) es co mt pa))
    | .removeComponentCS cid =>
      .ok (some (match g with
        | .mk i nm ps a ch es co mt pa =>
          .mk i nm ps a ch es (co.filter (fun c => !(c.meta == cid))) mt pa))
    | .removeEdgeCS edge =>
      .ok (some (match g with
        | .mk i nm ps a ch es co mt pa =>
          .mk i nm ps a ch (es.filter (fun e => !(e == edge))) co mt pa))
    | .setMetaCS value =>
      .ok (some (match g with
        | .mk i nm ps a ch es co _ pa => .mk i nm ps a ch es co value pa))
    | .addMetaCS key value => .ok (some (applySetKey g key value))
    | .removeMetaCS key =>
      .ok (some (match g with
        | .mk i nm ps a ch es co mt pa =>
          .mk i nm ps a ch es co (mt.filter (fun kv => !(kv.1 == key))) pa))
    | .unrecognized => .ok (some g)

/-- Applying one change-set to the running value of a reduce: applying to
`undefined` passes the `isChangeSet` check and then crashes on the first
property access. -/
def applyCS (inplace : Bool) (og : Option GNode) (v : CSVal) :
    Except String (Option GNode) :=
  match og with
  | some g => applyChangeSetInplace inplace g v
  | none =>
    match v with
    | .notChangeSet printed => .error ("Cannot apply non-ChangeSet " ++ printed)
    | .cs _ => .error "TypeError: cannot read properties of undefined"

/-- The reduce of `applyChangeSets`, threading the possibly-`undefined`
running value. -/
def applyChangeSetsGo (inplace : Bool) : Option GNode → List CSVal →
    Except String (Option GNode)
  | og, [] => .ok og
  | og, v :: rest =>
    match applyCS inplace og v with
    | .error e => .error e
    | .ok og' => applyChangeSetsGo inplace og' rest

/-- `applyChangeSets(graph, changeSets)`: strict left-to-right reduce. -/
def applyChangeSets (inplace : Bool) (g : GNode) (l : List CSVal) :
    Except String (Option GNode) :=
  applyChangeSetsGo inplace (some g) l

/-- A `setPath` query resolves in `g`: every step finds its node and every
intermediate node is a compound.  On such queries both execution modes
replace the same stored node. -/
def resolvesB : GNode → List String → Bool
  | _, [] => false
  | g, [p] => ((nodes g).findIdx? (nodeEqualStr p)).isSome
  | g, p :: p' :: rest =>
    match (nodes g).findIdx? (nodeEqualStr p) with
    | some idx =>
      match (nodes g).get? idx with
      | some child => hasChildren child && resolvesB child (p' :: rest)
      | none => false
    | none => false

/-- A change-set is mode-agnostic on `g`: `setPath` queries must resolve
and node insertion must target the root itself (a normalized root has
path `[]`).  Every other operation runs identical code in both modes. -/
def safeStep (g : GNode) (v : CSVal) : Bool :=
  match v with
  | .cs (.setNodeCS q _) => resolvesB g q
  | .cs (.insertNodeCS _ path) =>
    (GNode.path? g == some []) && path.isEmpty && hasChildren g
  | _ => true

/-- Every change-set of the sequence is mode-agnostic on the intermediate
value the persistent execution has reached when it is applied. -/
def safeSeq : Option GNode → List CSVal → Bool
  | _, [] => true
  | og, v :: rest =>
    (match og with | some g => safeStep g v | none => true) &&
    (match applyCS false og v with
     | .error _ => true
     | .ok og' => safeSeq og' rest)

/-! ## Loading and serializing (`graph/io.js`: `fromJSON` / `toJSON`)

`fromJSON` clones the document, runs `rePath` over it (defaulting the
root's `path` to `[]` and overwriting every descendant's `path` with the
id chain from the root), validates every node and edge (`assertValid` /
`checkEdge` either throw or leave the value untouched, so they do not
affect the produced shape and are not modelled), and finally merges the
defaults `{components: [], edges: [], nodes: []}` into the root — in this
embedding `edges`/`components` are total fields, so only the missing
`nodes` field (children `none` becoming `some []`) is observable.
`toJSON` is `cloneDeep`, the identity on the structure: it strips nothing
(the memo store is a non-enumerable property, which a clone drops; it is
not part of the modelled structure). -/

mutual

/-- `rePathRec` on one child: overwrite its `path` with `basePath ++ [id]`
and recurse into its children when it has any. -/
def rePathNode (basePath : List String) : GNode → GNode
  | .mk i nm ps a none es co mt _ =>
    .mk i nm ps a none es co mt (some (basePath ++ [i]))
  | .mk i nm ps a (some cs) es co mt _ =>
    .mk i nm ps a (some (rePathChildren (basePath ++ [i]) cs)) es co mt
      (some (basePath ++ [i]))

def rePathChildren (basePath : List String) : List GNode → List GNode
  | [] => []
  | n :: ns => rePathNode basePath n :: rePathChildren basePath ns

end

/-- `rePath(graph)` from `graph/internal.js`: `graph.path = graph.path || []`
(an existing path — even `[]`, a truthy value — is kept), then rewrite all
descendant paths. -/
def rePath : GNode → GNode
  | .mk i nm ps a none es co mt pa =>
    .mk i nm ps a none es co mt (some (pa.getD []))
  | .mk i nm ps a (some cs) es co mt pa =>
    .mk i nm ps a (some (rePathChildren (pa.getD []) cs)) es co mt
      (some (pa.getD []))

/-- `merge({components: [], edges: [], nodes: []}, graph)`: materialize a
missing root `nodes` field. -/
def mergeDefaults : GNode → GNode
  | .mk i nm ps a none es co mt pa => .mk i nm ps a (some []) es co mt pa
  | .mk i nm ps a (some cs) es co mt pa => .mk i nm ps a (some cs) es co mt pa

/-- `fromJSON` from `graph/io.js`. -/
def fromJSON (g : GNode) : GNode :=
  mergeDefaults (rePath g)

/-- `toJSON` from `graph/io.js`: `cloneDeep(graph)`. -/
def toJSON (g : GNode) : GNode := g

mutual

/-- Every node of the list carries the path `basePath ++ [id]`, and so do
its descendants. -/
def pathsOkNode (basePath : List String) : GNode → Bool
  | .mk i _ _ _ none _ _ _ pa => pa == some (basePath ++ [i])
  | .mk i _ _ _ (some cs) _ _ _ pa =>
    pa == some (basePath ++ [i]) && pathsOkChildren (basePath ++ [i]) cs

def pathsOkChildren (basePath : List String) : List GNode → Bool
  | [] => true
  | n :: ns => pathsOkNode basePath n && pathsOkChildren basePath ns

end

/-- A document is normalized when its root has a `path` and a `nodes`
field and every descendant's `path` is the id chain from the root — the
shape `fromJSON` itself produces. -/
def normalizedB : GNode → Bool
  | .mk _ _ _ _ none _ _ _ _ => false
  | .mk _ _ _ _ (some _) _ _ _ none => false
  | .mk _ _ _ _ (some cs) _ _ _ (some p) => pathsOkChildren p cs

/-- A valid document without `path` fields: one compound root with one
atomic child holding one valid port (so `assertValid` and `checkEdge`
pass on it). -/
def jsonDoc0 : GNode :=
  .mk "#r0" none [] false
    (some [.mk "#a0" (some "a0") [⟨"out", "output", "generic", some "#a0"⟩]
      true none [] [] [] none])
    [] [] [] none

/-- Concrete graphs exercising the change-set engine: a root `#r` with one
compound child `#c` containing the atomic node `#a`. -/
def csLeafA : GNode :=
  .mk "#a" (some "a") [⟨"out", "output", "generic", some "#a"⟩] true none
    [] [] [] (some ["#c", "#a"])

def csNew : GNode :=
  .mk "#n" (some "n") [⟨"in", "input", "generic", some "#n"⟩] true none
    [] [] [] none

def csCompC : GNode :=
  .mk "#c" (some "c") [⟨"in", "input", "generic", some "#c"⟩] false
    (some [csLeafA]) [] [] [] (some ["#c"])

def csRoot : GNode :=
  .mk "#r" none [] false (some [csCompC]) [] [] [("k", .str "v")] (some [])

/-- A mode-agnostic change-set sequence on `csRoot`: replace `#a` through
the name path `c/a`, insert a node at the root, merge a meta key and
remove a (non-existent) edge. -/
def csSeq : List CSVal :=
  [.cs (.setNodeCS ["c", "a"] csNew),
   .cs (.insertNodeCS csLeafA []),
   .cs (.addMetaCS "k" (.str "w")),
   .cs (.removeEdgeCS ⟨.enode "#x", .enode "#y", "dataflow"⟩)]

/-- On a resolving query the persistent recursion of `applySetByPath` and
the in-place walk of `setNodeByPath` replace the same stored node. -/
theorem setPath_mode_eq : ∀ (q : List String) (g value : GNode),
    resolvesB g q = true →
    applySetByPath false g q value = applySetByPath true g q value := by
  intro q
  induction q with
  | nil => intro g value h; simp [resolvesB] at h
  | cons p rest ih =>
    intro g value h
    cases rest with
    | nil =>
      simp only [resolvesB] at h
      cases hidx : (nodes g).findIdx? (nodeEqualStr p) with
      | none => rw [hidx] at h; simp at h
      | some idx =>
        simp only [applySetByPath, applySetByPathP, setNodeByPathIP, hidx]
    | cons p' rest' =>
      simp only [resolvesB] at h
      cases hidx : (nodes g).findIdx? (nodeEqualStr p) with
      | none => simp only [hidx] at h; exact absurd h (by decide)
      | some idx =>
        simp only [hidx] at h
        cases hget : (nodes g).get? idx with
        | none => simp only [hget] at h; exact absurd h (by decide)
        | some child =>
          simp only [hget, Bool.and_eq_true] at h
          obtain ⟨hch, hres⟩ := h
          have hrec := ih child value hres
          simp only [applySetByPath] at hrec
          simp only [applySetByPath, applySetByPathP, setNodeByPathIP,
            hidx, hget, hch, if_true]
          rw [hrec]
          cases setNodeByPathIP child (p' :: rest') value with
          | error e => rfl
          | ok c' => rfl

/-- A single mode-agnostic change-set produces the same result in both
modes (applying to the `undefined` running value is mode-independent). -/
theorem applyCS_mode_eq (og : Option GNode) (v : CSVal)
    (h : (match og with | some g => safeStep g v | none => true) = true) :
    applyCS false og v = applyCS true og v := by
  cases og with
  | none => rfl
  | some g =>
    cases v with
    | notChangeSet printed => rfl
    | cs c =>
      cases c with
      | setNodeCS q value =>
        simp only [safeStep] at h
        exact setPath_mode_eq q g value h
      | insertNodeCS value path =>
        simp only [safeStep, Bool.and_eq_true, beq_iff_eq,
          List.isEmpty_iff] at h
        obtain ⟨⟨hp, hpath⟩, hch⟩ := h
        subst hpath
        cases g with
        | mk i nm ps a ch es co mt pa =>
          simp only [GNode.path?] at hp
          subst hp
          cases ch with
          | none => simp [hasChildren, GNode.children] at hch
          | some cs =>
            simp only [applyCS, applyChangeSetInplace, insertNodeInGraph,
              pushNodeAt, relativeTo, List.length_nil, ne_eq,
              not_true_eq_false, if_false]
            rfl
      | updateNodeCS q value => rfl
      | insertEdgeCS value => rfl
      | insertComponentCS value => rfl
      | updateComponentCS q value => rfl
      | updateEdgeCS q value => rfl
      | removeNodeCS nid => rfl
      | removeComponentCS cid => rfl
      | removeEdgeCS edge => rfl
      | setMetaCS value => rfl
      | addMetaCS key value => rfl
      | removeMetaCS key => rfl
      | unrecognized => rfl

/-- The reduce preserves mode-equivalence along a safe sequence. -/
theorem applyChangeSetsGo_mode_eq : ∀ (l : List CSVal) (og : Option GNode),
    safeSeq og l = true →
    applyChangeSetsGo false og l = applyChangeSetsGo true og l := by
  intro l
  induction l with
  | nil => intro og _; rfl
  | cons v rest ih =>
    intro og h
    simp only [safeSeq, Bool.and_eq_true] at h
    obtain ⟨h1, h2⟩ := h
    have hstep := applyCS_mode_eq og v h1
    simp only [applyChangeSetsGo]
    rw [← hstep]
    cases hres : applyCS false og v with
    | error e => rfl
    | ok og' =>
      rw [hres] at h2
      exact ih og' h2

/-- C1: the literal claim fails.  Inserting a node into the nested
compound `#c` (a change-set `addNodeByPath` produces on any in-place
graph) raises `Cannot insert deep without modifications` in persistent
mode but succeeds in in-place mode, so the two modes do not yield
structurally equal results for every change-set sequence. -/
theorem claim_C1_counterexample :
    applyChangeSets false csRoot [.cs (.insertNodeCS csNew ["#c"])] ≠
      applyChangeSets true csRoot [.cs (.insertNodeCS csNew ["#c"])] := by
  intro h
  have h2 := congrArg (fun r : Except String (Option GNode) =>
    (Except.toOption r).isSome) h
  revert h2
  decide

/-- C1 (amended): for change-set sequences that are mode-agnostic along
the persistent execution — `setPath` queries resolve, and node inserts
target the root itself — the persistent and the in-place execution of
`applyChangeSets` yield structurally equal results (the memo cache and
the `inplace` flag are not part of the compared structure). -/
theorem claim_C1_applyChangeSets_mode_equivalence (g : GNode) (l : List CSVal)
    (h : safeSeq (some g) l = true) :
    applyChangeSets false g l = applyChangeSets true g l :=
  applyChangeSetsGo_mode_eq l (some g) h

/-- Witness for the amended C1: a four-step safe sequence on a nested
graph. -/
theorem claim_C1_witness :
    safeSeq (some csRoot) csSeq = true ∧
    applyChangeSets false csRoot csSeq = applyChangeSets true csRoot csSeq :=
  ⟨by decide, claim_C1_applyChangeSets_mode_equivalence csRoot csSeq (by decide)⟩

/-- C9: the literal claim fails.  `empty()` produces
`{type: 'changeSet', opertaion: 'none'}` — the `type` marker passes
`isChangeSet`, no dispatch arm matches the undefined `operation`, and
`applyChangeSetInplace` silently returns the unchanged graph instead of
raising an error. -/
theorem claim_C9_counterexample :
    applyChangeSetInplace true csRoot (.cs .unrecognized) =
      .ok (some csRoot) := rfl

/-- C9 (amended): `applyChangeSet`/`applyChangeSetInplace` raises the
malformed-change-set error synchronously exactly for values failing
`isChangeSet` (no `type: 'changeSet'` marker), and the functional result
then carries no modification; a marker-bearing value with an unrecognized
operation is instead silently ignored, returning the graph unchanged. -/
theorem claim_C9_malformed_changeSet_error (inplace : Bool) (g : GNode)
    (printed : String) :
    applyChangeSetInplace inplace g (.notChangeSet printed) =
      .error ("Cannot apply non-ChangeSet " ++ printed) ∧
    applyChangeSetInplace inplace g (.cs .unrecognized) = .ok (some g) :=
  ⟨rfl, rfl⟩

mutual

/-- Rewriting paths leaves a node unchanged when its paths are already the
id chains. -/
theorem rePathNode_ok (basePath : List String) (n : GNode)
    (h : pathsOkNode basePath n = true) : rePathNode basePath n = n := by
  cases n with
  | mk i nm ps a ch es co mt pa =>
    cases ch with
    | none =>
      unfold pathsOkNode at h
      rw [beq_iff_eq] at h
      unfold rePathNode
      rw [h]
    | some cs =>
      unfold pathsOkNode at h
      simp only [Bool.and_eq_true, beq_iff_eq] at h
      obtain ⟨hpa, hcs⟩ := h
      unfold rePathNode
      rw [hpa, rePathChildren_ok (basePath ++ [i]) cs hcs]

theorem rePathChildren_ok (basePath : List String) (cs : List GNode)
    (h : pathsOkChildren basePath cs = true) :
    rePathChildren basePath cs = cs := by
  cases cs with
  | nil => rfl
  | cons c cs' =>
    unfold pathsOkChildren at h
    simp only [Bool.and_eq_true] at h
    obtain ⟨hc, hcs'⟩ := h
    unfold rePathChildren
    rw [rePathNode_ok basePath c hc, rePathChildren_ok basePath cs' hcs']

end

/-- C8: the literal claim fails.  A valid document without `path` fields
(the document format carries no paths) comes back from
`toJSON(fromJSON(d))` with a `path` on the root and on every node, so the
roundtrip is not structurally equal to `d`; likewise a missing root
`nodes` field is materialized as `[]`.  (The memo cache is a
non-enumerable property which the clone drops, so no cache field appears;
the discrepancy is the added normalization fields.) -/
theorem claim_C8_counterexample : toJSON (fromJSON jsonDoc0) ≠ jsonDoc0 := by
  intro h
  have h2 := congrArg GNode.path? h
  revert h2
  decide

/-- C8 (amended): `toJSON` is the structural identity (`cloneDeep`), and
`toJSON(fromJSON(d))` is structurally equal to `d` exactly on normalized
documents: those whose root carries a `path` and a `nodes` field and
whose every descendant already carries the id-chain path `fromJSON`
would assign.  On any other document the roundtrip adds those fields. -/
theorem claim_C8_roundtrip (d : GNode) (h : normalizedB d = true) :
    toJSON (fromJSON d) = d ∧ ∀ g : GNode, toJSON g = g := by
  refine ⟨?_, fun _ => rfl⟩
  cases d with
  | mk i nm ps a ch es co mt pa =>
    cases ch with
    | none => simp [normalizedB] at h
    | some cs =>
      cases pa with
      | none => simp [normalizedB] at h
      | some p =>
        unfold normalizedB at h
        show mergeDefaults (rePath (.mk i nm ps a (some cs) es co mt (some p))) = _
        unfold rePath
        simp only [Option.getD]
        rw [rePathChildren_ok p cs h]
        rfl

/-- Witness for the amended C8: the nested graph `csRoot` is normalized
and survives the roundtrip unchanged. -/
theorem claim_C8_witness :
    normalizedB csRoot = true ∧
    (toJSON (fromJSON csRoot) = csRoot ∧ ∀ g : GNode, toJSON g = g) :=
  ⟨by decide, claim_C8_roundtrip csRoot (by decide)⟩

/-! ## Scope locality of edges under wellformedness

Everything an incident-edge query can see lives in some node's own edge
list; invariant (e) confines a dataflow edge to the scope whose owner or
direct children it references.  These lemmas push the per-scope invariant
through the whole tree and are the backbone of the scoped-equals-deep
equivalence (claim C6). -/

theorem mem_nodesDeepList_of_mem {cs : List GNode} {m x : GNode}
    (hm : m ∈ cs) (hx : x ∈ nodesDeepInternal m) : x ∈ nodesDeepList cs := by
  induction cs with
  | nil => cases hm
  | cons c cs' ih =>
    simp only [nodesDeepList, List.mem_append]
    rcases List.mem_cons.mp hm with h | h
    · subst h
      exact Or.inl hx
    · exact Or.inr (ih h)

mutual

theorem nodesDeepInternal_trans {n m c' : GNode}
    (hm : m ∈ nodesDeepInternal n) (hc' : c' ∈ nodes m) :
    c' ∈ nodesDeepInternal n := by
  cases n with
  | mk i nm ps a ch es co mt pa =>
    cases ch with
    | none => simp [nodesDeepInternal] at hm
    | some cs =>
      simp only [nodesDeepInternal, List.mem_append] at hm ⊢
      rcases hm with hm | hm
      · exact Or.inr (mem_nodesDeepList_of_mem hm
          (mem_nodesDeepInternal_of_child hc'))
      · exact Or.inr (nodesDeepList_trans hm hc')

theorem nodesDeepList_trans {cs : List GNode} {m c' : GNode}
    (hm : m ∈ nodesDeepList cs) (hc' : c' ∈ nodes m) :
    c' ∈ nodesDeepList cs := by
  cases cs with
  | nil => simp [nodesDeepList] at hm
  | cons c0 rest =>
    simp only [nodesDeepList, List.mem_append] at hm ⊢
    rcases hm with hm | hm
    · exact Or.inl (nodesDeepInternal_trans hm hc')
    · exact Or.inr (nodesDeepList_trans hm hc')

end

mutual

/-- The per-scope edge invariant holds at every scope of the tree. -/
theorem wfEdgesAux_deep {g : GNode} (h : wfEdgesAux g = true) :
    ∀ m ∈ nodesDeepInternal g, wfEdgesAux m = true := by
  cases g with
  | mk i nm ps a ch es co mt pa =>
    cases ch with
    | none =>
      intro m hm
      simp [nodesDeepInternal] at hm
    | some cs =>
      intro m hm
      unfold wfEdgesAux at h
      simp only [Bool.and_eq_true] at h
      simp only [nodesDeepInternal] at hm
      exact wfEdgesList_deep h.2 m hm

theorem wfEdgesList_deep {cs : List GNode} (h : wfEdgesList cs = true) :
    ∀ m ∈ cs ++ nodesDeepList cs, wfEdgesAux m = true := by
  cases cs with
  | nil =>
    intro m hm
    simp [nodesDeepList] at hm
  | cons c0 rest =>
    intro m hm
    unfold wfEdgesList at h
    simp only [Bool.and_eq_true] at h
    simp only [nodesDeepList, List.cons_append, List.mem_cons,
      List.mem_append] at hm
    rcases hm with hm | hm | hm | hm
    · rw [hm]
      exact h.1
    · exact wfEdgesList_deep h.2 m (by simp [hm])
    · exact wfEdgesAux_deep h.1 m hm
    · exact wfEdgesList_deep h.2 m (by simp [hm])

end

mutual

/-- Every edge of the deep enumeration lives in somebody's own edge
list. -/
theorem edgesDeep_mem {n : GNode} {e : Edge} (he : e ∈ edgesDeep n) :
    e ∈ GNode.edges n ∨ ∃ m ∈ nodesDeepInternal n, e ∈ GNode.edges m := by
  cases n with
  | mk i nm ps a ch es co mt pa =>
    cases ch with
    | none =>
      exact Or.inl (by simpa [edgesDeep, GNode.edges] using he)
    | some cs =>
      simp only [edgesDeep, List.mem_append] at he
      rcases he with he | he
      · exact Or.inl (by simpa [GNode.edges] using he)
      · rcases edgesDeepList_mem he with ⟨m, hm, hem⟩
        exact Or.inr ⟨m, by simpa [nodesDeepInternal] using hm, hem⟩

theorem edgesDeepList_mem {cs : List GNode} {e : Edge}
    (he : e ∈ edgesDeepList cs) :
    ∃ m ∈ cs ++ nodesDeepList cs, e ∈ GNode.edges m := by
  cases cs with
  | nil => simp [edgesDeepList] at he
  | cons c0 rest =>
    simp only [edgesDeepList, List.mem_append] at he
    rcases he with he | he
    · rcases edgesDeep_mem he with hc0 | ⟨m, hm, hem⟩
      · exact ⟨c0, by simp, hc0⟩
      · refine ⟨m, ?_, hem⟩
        simp only [List.cons_append, List.mem_cons, List.mem_append,
          nodesDeepList]
        exact Or.inr (Or.inr (Or.inl hm))
    · rcases edgesDeepList_mem he with ⟨m, hm, hem⟩
      refine ⟨m, ?_, hem⟩
      simp only [List.mem_append, List.mem_cons] at hm
      simp only [List.cons_append, List.mem_cons, List.mem_append,
        nodesDeepList]
      rcases hm with hm | hm
      · exact Or.inr (Or.inl hm)
      · exact Or.inr (Or.inr (Or.inr hm))

end

/-- Members of the whole tree with equal ids are the same member. -/
theorem nodesDeep_id_inj {g : GNode}
    (hnd : ((nodesDeep g).map GNode.id).Nodup) {x y : GNode}
    (hx : x ∈ nodesDeep g) (hy : y ∈ nodesDeep g)
    (hid : GNode.id x = GNode.id y) : x = y :=
  List.inj_on_of_nodup_map hnd hx hy hid

theorem mem_nodesDeep_of_internal {g : GNode} {m : GNode}
    (hm : m ∈ nodesDeepInternal g) : m ∈ nodesDeep g := by
  simp only [nodesDeep, List.mem_append]
  exact Or.inl hm

/-- Under unique ids, no node of a deeper scope has the id of a direct
child of the root: the child would occur twice in the enumeration. -/
theorem no_second_occurrence {g : GNode}
    (hnd : ((nodesDeep g).map GNode.id).Nodup) {c : GNode} (hc : c ∈ nodes g)
    {m m' : GNode} (hm : m ∈ nodesDeepInternal g) (hm' : m' ∈ nodes m)
    (hid : GNode.id m' = GNode.id c) : False := by
  cases g with
  | mk i nm ps a ch es co mt pa =>
    cases ch with
    | none => simp [nodesDeepInternal] at hm
    | some cs =>
      have hc' : c ∈ cs := by simpa [nodes, GNode.children] using hc
      have hdeep : m' ∈ nodesDeepList cs := by
        simp only [nodesDeepInternal, List.mem_append] at hm
        rcases hm with hm | hm
        · exact mem_nodesDeepList_of_mem hm (mem_nodesDeepInternal_of_child hm')
        · exact nodesDeepList_trans hm hm'
      have hnd2 : ((cs ++ nodesDeepList cs).map GNode.id).Nodup := by
        have heq : (nodesDeep (GNode.mk i nm ps a (some cs) es co mt pa)).map
            GNode.id = (cs ++ nodesDeepList cs).map GNode.id ++ [i] := by
          simp [nodesDeep, nodesDeepInternal, GNode.id]
        rw [heq] at hnd
        exact (List.nodup_append.mp hnd).1
      rw [List.map_append] at hnd2
      have hdisj := (List.nodup_append.mp hnd2).2.2
      exact hdisj (List.mem_map_of_mem GNode.id hc')
        (hid ▸ List.mem_map_of_mem GNode.id hdeep)

/-- Invariant (e) for a deep-scope dataflow edge ending at a direct child
of the root: the scope must be that child itself, and the edge ends at
one of its output (boundary) ports. -/
theorem edge_locality_in {g : GNode} (hwf : wfGraph g = true)
    {c : GNode} (hc : c ∈ nodes g) {m : GNode} (hm : m ∈ nodesDeepInternal g)
    {e : Edge} (he : e ∈ GNode.edges m) (hlayer : e.layer = "dataflow")
    (hbp : isBetweenPorts e = true) {tn tp : String}
    (het : e.eto = .eport tn tp) (htn : tn = GNode.id c) :
    m = c ∧ portKindIs c tp "output" = true := by
  have hnd := wfIds_nodup (wfGraph_ids hwf)
  have hwfm := wfEdgesAux_deep (wfGraph_edges hwf) m hm
  have hwfe := wfEdges_root hwfm e he
  obtain ⟨fn, fp, hef⟩ : ∃ fn fp, e.efrom = .eport fn fp := by
    unfold isBetweenPorts at hbp
    cases hef : e.efrom with
    | enode _ => rw [hef] at hbp; cases hbp
    | eport fn fp => exact ⟨fn, fp, rfl⟩
  unfold wfEdgeAt at hwfe
  rw [if_pos (by simp [hlayer]), hef, het] at hwfe
  simp only [Bool.and_eq_true, Bool.or_eq_true, List.any_eq_true] at hwfe
  rcases hwfe.2 with ⟨hroot, hkind⟩ | ⟨m', hm', hmEq⟩
  · simp only [beq_iff_eq] at hroot
    have hmc : m = c := by
      apply nodesDeep_id_inj hnd (mem_nodesDeep_of_internal hm)
        (mem_nodesDeep_of_child hc)
      rw [← hroot, htn]
    subst hmc
    exact ⟨rfl, hkind⟩
  · simp only [Bool.and_eq_true, beq_iff_eq] at hmEq
    exact absurd (hmEq.1.trans htn) (fun hEq =>
      no_second_occurrence hnd hc hm hm' hEq)

/-- Invariant (e) for a deep-scope dataflow edge starting at a direct
child of the root: the scope is that child, starting at an input
(boundary) port. -/
theorem edge_locality_out {g : GNode} (hwf : wfGraph g = true)
    {c : GNode} (hc : c ∈ nodes g) {m : GNode} (hm : m ∈ nodesDeepInternal g)
    {e : Edge} (he : e ∈ GNode.edges m) (hlayer : e.layer = "dataflow")
    (hbp : isBetweenPorts e = true) {fn fp : String}
    (hef : e.efrom = .eport fn fp) (hfn : fn = GNode.id c) :
    m = c ∧ portKindIs c fp "input" = true := by
  have hnd := wfIds_nodup (wfGraph_ids hwf)
  have hwfm := wfEdgesAux_deep (wfGraph_edges hwf) m hm
  have hwfe := wfEdges_root hwfm e he
  obtain ⟨tn, tp, het⟩ : ∃ tn tp, e.eto = .eport tn tp := by
    unfold isBetweenPorts at hbp
    cases hef' : e.efrom with
    | enode _ => rw [hef'] at hbp; cases hbp
    | eport _ _ =>
      cases het : e.eto with
      | enode _ => rw [hef', het] at hbp; cases hbp
      | eport tn tp => exact ⟨tn, tp, rfl⟩
  unfold wfEdgeAt at hwfe
  rw [if_pos (by simp [hlayer]), hef, het] at hwfe
  simp only [Bool.and_eq_true, Bool.or_eq_true, List.any_eq_true] at hwfe
  rcases hwfe.1 with ⟨hroot, hkind⟩ | ⟨m', hm', hmEq⟩
  · simp only [beq_iff_eq] at hroot
    have hmc : m = c := by
      apply nodesDeep_id_inj hnd (mem_nodesDeep_of_internal hm)
        (mem_nodesDeep_of_child hc)
      rw [← hroot, hfn]
    subst hmc
    exact ⟨rfl, hkind⟩
  · simp only [Bool.and_eq_true, beq_iff_eq] at hmEq
    exact absurd (hmEq.1.trans hfn) (fun hEq =>
      no_second_occurrence hnd hc hm hm' hEq)

/-- Resolving a node by a port location only uses the node id. -/
theorem nodeL_byPort {g : GNode}
    (hnd : ((nodesDeep g).map GNode.id).Nodup) {n : GNode}
    (hn : n ∈ nodesDeep g) (pname : String) :
    nodeL (.byPort (GNode.id n) pname) g = .ok n := by
  unfold nodeL nodeBy
  have : (nodesDeep g).filter (nodeMatches g (.byPort (GNode.id n) pname))
      = [n] := by
    simpa [nodeMatches] using filter_id_singleton hnd hn
  rw [this]
  rfl

/-- The deep enumeration of edges splits into the root's own list and the
lists of the subtrees. -/
theorem edgesDeep_decomp (g : GNode) :
    edgesDeep g = GNode.edges g ++ edgesDeepList (nodes g) := by
  cases g with
  | mk i nm ps a ch es co mt pa =>
    cases ch with
    | none => simp [edgesDeep, GNode.edges, nodes, GNode.children, edgesDeepList]
    | some cs => simp [edgesDeep, GNode.edges, nodes, GNode.children]

theorem nodesDeepInternal_decomp (g : GNode) :
    nodesDeepInternal g = nodes g ++ nodesDeepList (nodes g) := by
  cases g with
  | mk i nm ps a ch es co mt pa =>
    cases ch with
    | none =>
      simp [nodesDeepInternal, nodes, GNode.children, nodesDeepList]
    | some cs => simp [nodesDeepInternal, nodes, GNode.children]

/-- The plain predicate that `inIncidents` computes for a direct child on
the default configuration. -/
def childInPred (cid : String) (e : Edge) : Bool :=
  pointsToB (.byId cid) e && e.layer == "dataflow" && isBetweenPorts e

/-- Under wellformedness, the in-filter on a direct child settles without
throwing on every root-scope edge: a matching edge ends at the child's
input port. -/
theorem inFilterFn_child (g : GNode) (hwf : wfGraph g = true)
    {cid : String} (hcid : cid ∈ childIds g) (e : Edge)
    (he : e ∈ GNode.edges g) :
    inFilterFn (.byId cid) g ["dataflow"] false e
      = .ok (childInPred cid e) := by
  have hnd := wfIds_nodup (wfGraph_ids hwf)
  have hwfe := wfEdges_root (wfGraph_edges hwf) e he
  unfold inFilterFn childInPred
  by_cases hpt : pointsToB (.byId cid) e = true
  swap
  · rw [if_neg]
    · simp only [Bool.not_eq_true] at hpt
      rw [hpt]
      rfl
    · simp only [Bool.and_eq_true, not_and]
      intro hcontr
      exact absurd hcontr.1 hpt
  by_cases hlayer : e.layer = "dataflow"
  swap
  · have hany : (["dataflow"].any (fun l => l == e.layer)) = false := by
      simp only [List.any_cons, List.any_nil, Bool.or_false, beq_iff_eq]
      exact decide_eq_false (fun hEq => hlayer hEq.symm)
    rw [if_neg (by simp [hany])]
    have : (e.layer == "dataflow") = false := by
      simp [hlayer]
    simp [this]
  by_cases hbp : isBetweenPorts e = true
  swap
  · rw [if_neg]
    · simp only [Bool.not_eq_true] at hbp
      simp [hbp]
    · simp only [Bool.not_eq_true] at hbp
      simp [hbp, hlayer]
  rw [if_pos (by simp [hpt, hbp, hlayer])]
  rw [if_neg (by simp [hlayer, hasPortT])]
  obtain ⟨fn, fp, tn, tp, hef, het⟩ :
      ∃ fn fp tn tp, e.efrom = .eport fn fp ∧ e.eto = .eport tn tp := by
    unfold isBetweenPorts at hbp
    cases hef : e.efrom with
    | enode _ => rw [hef] at hbp; cases hbp
    | eport fn fp =>
      cases het : e.eto with
      | enode _ => rw [hef, het] at hbp; cases hbp
      | eport tn tp => exact ⟨fn, fp, tn, tp, rfl, rfl⟩
  have htn : tn = cid := by
    unfold pointsToB at hpt
    rw [het] at hpt
    simpa using hpt
  unfold wfEdgeAt at hwfe
  rw [if_pos (by simp [hlayer]), hef, het] at hwfe
  simp only [Bool.and_eq_true, Bool.or_eq_true, List.any_eq_true] at hwfe
  have htoWf := hwfe.2
  have htn_ne : (tn == GNode.id g) = false := by
    rw [htn]
    simp only [beq_eq_false_iff_ne, ne_eq]
    exact childId_ne_root hnd hcid
  rcases htoWf with ⟨hroot, _⟩ | ⟨c', hc', hcEq⟩
  · rw [htn_ne] at hroot; cases hroot
  · simp only [Bool.and_eq_true, beq_iff_eq] at hcEq
    obtain ⟨hcid', hpk⟩ := hcEq
    unfold portKindIs at hpk
    cases hfind : (GNode.ports c').find? (fun p => p.port == tp) with
    | none => rw [hfind] at hpk; cases hpk
    | some p =>
      rw [hfind] at hpk
      simp only [beq_iff_eq] at hpk
      have hnodeL : nodeL (.byPort tn tp) g = .ok c' := by
        unfold nodeL nodeBy
        have hfe : (nodesDeep g).filter (nodeMatches g (.byPort tn tp)) = [c'] := by
          have := filter_id_singleton hnd (mem_nodesDeep_of_child hc')
          simpa [nodeMatches, hcid'] using this
        rw [hfe]
        rfl
      have hresolve : portOfEnd e.eto g = .ok p := by
        simp only [het, portOfEnd, portT, hnodeL, nodePort, hfind]
      simp only [hresolve, hpk]
      simp [hpt, hlayer, hbp]

/-- Under wellformedness, the in-filter on a direct child returns `false`
for every edge stored in a deeper scope: a deep edge can only match by
ending at the child's own output boundary port, which the kind check
rejects. -/
theorem inFilterFn_deep_scope (g : GNode) (hwf : wfGraph g = true)
    {c : GNode} (hc : c ∈ nodes g) {e : Edge}
    (hdeep : e ∈ edgesDeepList (nodes g)) :
    inFilterFn (.byId (GNode.id c)) g ["dataflow"] false e = .ok false := by
  have hnd := wfIds_nodup (wfGraph_ids hwf)
  rcases edgesDeepList_mem hdeep with ⟨m, hm, hem⟩
  rw [← nodesDeepInternal_decomp] at hm
  unfold inFilterFn
  by_cases hpt : pointsToB (.byId (GNode.id c)) e = true
  swap
  · rw [if_neg]
    simp only [Bool.and_eq_true, not_and]
    intro hcontr
    exact absurd hcontr.1 hpt
  by_cases hlayer : e.layer = "dataflow"
  swap
  · have hany : (["dataflow"].any (fun l => l == e.layer)) = false := by
      simp only [List.any_cons, List.any_nil, Bool.or_false, beq_iff_eq]
      exact decide_eq_false (fun hEq => hlayer hEq.symm)
    rw [if_neg (by simp [hany])]
  by_cases hbp : isBetweenPorts e = true
  swap
  · rw [if_neg]
    simp only [Bool.not_eq_true] at hbp
    simp [hbp, hlayer]
  rw [if_pos (by simp [hpt, hbp, hlayer])]
  rw [if_neg (by simp [hlayer, hasPortT])]
  obtain ⟨tn, tp, het⟩ : ∃ tn tp, e.eto = .eport tn tp := by
    unfold isBetweenPorts at hbp
    cases hef : e.efrom with
    | enode _ => rw [hef] at hbp; cases hbp
    | eport _ _ =>
      cases het : e.eto with
      | enode _ => rw [hef, het] at hbp; cases hbp
      | eport tn tp => exact ⟨tn, tp, rfl⟩
  have htn : tn = GNode.id c := by
    unfold pointsToB at hpt
    rw [het] at hpt
    simpa using hpt
  obtain ⟨hmc, hpk⟩ := edge_locality_in hwf hc hm hem hlayer hbp het htn
  unfold portKindIs at hpk
  cases hfind : (GNode.ports c).find? (fun p => p.port == tp) with
  | none => rw [hfind] at hpk; cases hpk
  | some p =>
    rw [hfind] at hpk
    simp only [beq_iff_eq] at hpk
    have hnodeL : nodeL (.byPort tn tp) g = .ok c := by
      rw [htn]
      exact nodeL_byPort hnd (mem_nodesDeep_of_child hc) tp
    have hresolve : portOfEnd e.eto g = .ok p := by
      simp only [het, portOfEnd, portT, hnodeL, nodePort, hfind]
    simp only [hresolve, hpk]
    rfl

/-- Under wellformedness, the out-filter on a direct child returns `false`
for every edge stored in a deeper scope. -/
theorem outFilterFn_deep_scope (g : GNode) (hwf : wfGraph g = true)
    {c : GNode} (hc : c ∈ nodes g) {e : Edge}
    (hdeep : e ∈ edgesDeepList (nodes g)) :
    outFilterFn (.byId (GNode.id c)) g ["dataflow"] false e = .ok false := by
  have hnd := wfIds_nodup (wfGraph_ids hwf)
  rcases edgesDeepList_mem hdeep with ⟨m, hm, hem⟩
  rw [← nodesDeepInternal_decomp] at hm
  unfold outFilterFn
  by_cases hfr : isFromB (.byId (GNode.id c)) e = true
  swap
  · rw [if_neg]
    simp only [Bool.and_eq_true, not_and]
    intro hcontr
    exact absurd hcontr.1 hfr
  by_cases hlayer : e.layer = "dataflow"
  swap
  · have hany : (["dataflow"].any (fun l => l == e.layer)) = false := by
      simp only [List.any_cons, List.any_nil, Bool.or_false, beq_iff_eq]
      exact decide_eq_false (fun hEq => hlayer hEq.symm)
    rw [if_neg (by simp [hany])]
  by_cases hbp : isBetweenPorts e = true
  swap
  · rw [if_neg]
    simp only [Bool.not_eq_true] at hbp
    simp [hbp, hlayer]
  rw [if_pos (by simp [hfr, hbp, hlayer])]
  rw [if_neg (by simp [hlayer, hasPortT])]
  obtain ⟨fn, fp, hef⟩ : ∃ fn fp, e.efrom = .eport fn fp := by
    unfold isBetweenPorts at hbp
    cases hef : e.efrom with
    | enode _ => rw [hef] at hbp; cases hbp
    | eport fn fp => exact ⟨fn, fp, rfl⟩
  have hfn : fn = GNode.id c := by
    unfold isFromB at hfr
    rw [hef] at hfr
    simpa using hfr
  obtain ⟨hmc, hpk⟩ := edge_locality_out hwf hc hm hem hlayer hbp hef hfn
  unfold portKindIs at hpk
  cases hfind : (GNode.ports c).find? (fun p => p.port == fp) with
  | none => rw [hfind] at hpk; cases hpk
  | some p =>
    rw [hfind] at hpk
    simp only [beq_iff_eq] at hpk
    have hnodeL : nodeL (.byPort fn fp) g = .ok c := by
      rw [hfn]
      exact nodeL_byPort hnd (mem_nodesDeep_of_child hc) fp
    have hresolve : portOfEnd e.efrom g = .ok p := by
      simp only [hef, portOfEnd, portT, hnodeL, nodePort, hfind]
    simp only [hresolve, hpk]
    rfl

/-- A throwing filter distributes over an append of succeeding halves. -/
theorem filterE_append {α} {f : α → Except String Bool} {l1 l2 : List α}
    {r1 r2 : List α} (h1 : filterE f l1 = .ok r1)
    (h2 : filterE f l2 = .ok r2) :
    filterE f (l1 ++ l2) = .ok (r1 ++ r2) := by
  induction l1 generalizing r1 with
  | nil =>
    unfold filterE at h1
    injection h1 with h1
    subst h1
    simpa using h2
  | cons x xs ih =>
    simp only [List.cons_append, filterE] at h1 ⊢
    cases hfx : f x with
    | error err =>
      simp only [hfx] at h1
      exact Except.noConfusion h1
    | ok b =>
      simp only [hfx] at h1 ⊢
      cases hrest : filterE f xs with
      | error err =>
        simp only [hrest] at h1
        exact Except.noConfusion h1
      | ok r =>
        simp only [hrest] at h1
        simp only [List.append_eq]
        rw [ih hrest]
        injection h1 with h1
        subst h1
        cases b <;> simp

/-- A throwing filter that rejects every element returns the empty
list. -/
theorem filterE_nilres {α} {f : α → Except String Bool} {l : List α}
    (h : ∀ x ∈ l, f x = .ok false) : filterE f l = .ok [] := by
  have h2 : filterE f l = .ok (l.filter (fun _ => false)) :=
    filterE_eq_filter (fun x hx => h x hx)
  simpa using h2

/-- Under wellformedness, the ingoing-incident query of a direct child on
the default configuration scans exactly the compound's own edge list. -/
theorem inIncidents_child (g : GNode) (hwf : wfGraph g = true)
    {c : GNode} (hc : c ∈ nodes g) :
    inIncidents (.byId (GNode.id c)) g ["dataflow"] false
      = .ok ((GNode.edges g).filter (childInPred (GNode.id c))) := by
  have hnd := wfIds_nodup (wfGraph_ids hwf)
  obtain ⟨gp, hgp⟩ := wfPaths_rootPath (wfGraph_paths hwf)
  have hnodeL := nodeL_byId hnd (mem_nodesDeep_of_child hc)
  have hpar := parentL_child hgp hnd (wfGraph_paths hwf) hc
  have hfil : filterE (inFilterFn (.byId (GNode.id c)) g ["dataflow"] false)
      (edgesOf g) = .ok ((GNode.edges g).filter (childInPred (GNode.id c))) := by
    apply filterE_eq_filter
    intro e he
    exact inFilterFn_child g hwf (child_id_mem hc) e he
  unfold inIncidents
  rw [if_pos (by decide)]
  simp only [hnodeL, hasPortT, Bool.false_eq_true, if_false, hpar,
    Option.getD_some]
  exact hfil

/-- The full deep scan with the in-filter of a direct child returns the
same list as the scoped query: every deep-scope edge is rejected. -/
theorem inIncidents_deep_eq (g : GNode) (hwf : wfGraph g = true)
    {c : GNode} (hc : c ∈ nodes g) :
    filterE (inFilterFn (.byId (GNode.id c)) g ["dataflow"] false)
        (edgesDeep g)
      = .ok ((GNode.edges g).filter (childInPred (GNode.id c))) := by
  rw [edgesDeep_decomp]
  have h1 : filterE (inFilterFn (.byId (GNode.id c)) g ["dataflow"] false)
      (GNode.edges g) = .ok ((GNode.edges g).filter (childInPred (GNode.id c))) :=
    filterE_eq_filter (fun e he => inFilterFn_child g hwf (child_id_mem hc) e he)
  have h2 : filterE (inFilterFn (.byId (GNode.id c)) g ["dataflow"] false)
      (edgesDeepList (nodes g)) = .ok [] :=
    filterE_nilres (fun e he => inFilterFn_deep_scope g hwf hc he)
  simpa using filterE_append h1 h2

/-- Every stored port carries its owner's id in its `node` field. -/
theorem wfPorts_owner {n : GNode} (h : wfEdgesAux n = true) :
    ∀ p ∈ GNode.ports n, p.node = some (GNode.id n) := by
  intro p hp
  cases n with
  | mk i nm ps a ch es co mt pa =>
    cases ch with
    | none =>
      unfold wfEdgesAux at h
      simp only [Bool.and_eq_true, List.all_eq_true] at h
      have := h.2 p (by simpa [GNode.ports] using hp)
      simpa [GNode.id] using this
    | some cs =>
      unfold wfEdgesAux at h
      simp only [Bool.and_eq_true, List.all_eq_true] at h
      have := h.1.2 p (by simpa [GNode.ports] using hp)
      simpa [GNode.id] using this

/-- No node of a deeper scope carries the id of a direct child. -/
theorem child_not_deep {g : GNode}
    (hnd : ((nodesDeep g).map GNode.id).Nodup) {c : GNode} (hc : c ∈ nodes g) :
    ∀ m ∈ nodesDeepList (nodes g), GNode.id m ≠ GNode.id c := by
  intro m hm hid
  cases g with
  | mk i nm ps a ch es co mt pa =>
    cases ch with
    | none => simp [nodes, GNode.children, nodesDeepList] at hm
    | some cs =>
      have hc' : c ∈ cs := by simpa [nodes, GNode.children] using hc
      have hm' : m ∈ nodesDeepList cs := by
        simpa [nodes, GNode.children] using hm
      have hnd2 : ((cs ++ nodesDeepList cs).map GNode.id).Nodup := by
        have heq : (nodesDeep (GNode.mk i nm ps a (some cs) es co mt pa)).map
            GNode.id = (cs ++ nodesDeepList cs).map GNode.id ++ [i] := by
          simp [nodesDeep, nodesDeepInternal, GNode.id]
        rw [heq] at hnd
        exact (List.nodup_append.mp hnd).1
      rw [List.map_append] at hnd2
      exact (List.nodup_append.mp hnd2).2.2
        (List.mem_map_of_mem GNode.id hc')
        (hid ▸ List.mem_map_of_mem GNode.id hm')

/-- `hasPort` is true for a port location naming an existing stored
port. -/
theorem hasPortT_byPort {g : GNode}
    (hnd : ((nodesDeep g).map GNode.id).Nodup) {c : GNode}
    (hc : c ∈ nodesDeep g) {pname : String} {p : Port}
    (hfind : (GNode.ports c).find? (fun q => q.port == pname) = some p) :
    hasPortT (.byPort (GNode.id c) pname) g = true := by
  unfold hasPortT
  have hn : nodeBy (nodeMatches g (.byPort (GNode.id c) pname)) g = some c := by
    unfold nodeBy
    have : (nodesDeep g).filter (nodeMatches g (.byPort (GNode.id c) pname))
        = [c] := by
      simpa [nodeMatches] using filter_id_singleton hnd hc
    rw [this]
    rfl
  simp only [hn]
  unfold nodeHasPort
  rw [hfind]
  rfl

/-- Resolving a port location returns the stored port. -/
theorem portT_byPort {g : GNode}
    (hnd : ((nodesDeep g).map GNode.id).Nodup) {c : GNode}
    (hc : c ∈ nodesDeep g) {pname : String} {p : Port}
    (hfind : (GNode.ports c).find? (fun q => q.port == pname) = some p) :
    portT (.byPort (GNode.id c) pname) g = .ok p := by
  simp only [portT, nodeL_byPort hnd hc pname, nodePort, hfind]

/-- The plain predicates the incident queries compute for a port
location. -/
def portInPred (cid pname : String) (e : Edge) : Bool :=
  pointsToB (.byPort cid pname) e && e.layer == "dataflow" && isBetweenPorts e

def portOutPred (cid pname : String) (e : Edge) : Bool :=
  isFromB (.byPort cid pname) e && e.layer == "dataflow" && isBetweenPorts e

/-- For a port location the in-filter never resolves anything: it settles
to the plain predicate on every edge. -/
theorem inFilterFn_hasPort {t : Target} {g : GNode}
    (h : hasPortT t g = true) (e : Edge) :
    inFilterFn t g ["dataflow"] false e
      = .ok (pointsToB t e && e.layer == "dataflow" && isBetweenPorts e) := by
  unfold inFilterFn
  by_cases hpt : pointsToB t e = true
  swap
  · rw [if_neg]
    · simp only [Bool.not_eq_true] at hpt
      rw [hpt]
      rfl
    · simp only [Bool.and_eq_true, not_and]
      intro hcontr
      exact absurd hcontr.1 hpt
  by_cases hlayer : e.layer = "dataflow"
  swap
  · have hany : (["dataflow"].any (fun l => l == e.layer)) = false := by
      simp only [List.any_cons, List.any_nil, Bool.or_false, beq_iff_eq]
      exact decide_eq_false (fun hEq => hlayer hEq.symm)
    rw [if_neg (by simp [hany])]
    have : (e.layer == "dataflow") = false := by
      simp [hlayer]
    simp [this]
  by_cases hbp : isBetweenPorts e = true
  swap
  · rw [if_neg]
    · simp only [Bool.not_eq_true] at hbp
      simp [hbp]
    · simp only [Bool.not_eq_true] at hbp
      simp [hbp, hlayer]
  rw [if_pos (by simp [hpt, hbp, hlayer])]
  rw [if_pos (by simp [h])]
  simp [hpt, hlayer, hbp]

/-- For a port location the out-filter settles to the plain predicate. -/
theorem outFilterFn_hasPort {t : Target} {g : GNode}
    (h : hasPortT t g = true) (e : Edge) :
    outFilterFn t g ["dataflow"] false e
      = .ok (isFromB t e && e.layer == "dataflow" && isBetweenPorts e) := by
  unfold outFilterFn
  by_cases hfr : isFromB t e = true
  swap
  · rw [if_neg]
    · simp only [Bool.not_eq_true] at hfr
      rw [hfr]
      rfl
    · simp only [Bool.and_eq_true, not_and]
      intro hcontr
      exact absurd hcontr.1 hfr
  by_cases hlayer : e.layer = "dataflow"
  swap
  · have hany : (["dataflow"].any (fun l => l == e.layer)) = false := by
      simp only [List.any_cons, List.any_nil, Bool.or_false, beq_iff_eq]
      exact decide_eq_false (fun hEq => hlayer hEq.symm)
    rw [if_neg (by simp [hany])]
    have : (e.layer == "dataflow") = false := by
      simp [hlayer]
    simp [this]
  by_cases hbp : isBetweenPorts e = true
  swap
  · rw [if_neg]
    · simp only [Bool.not_eq_true] at hbp
      simp [hbp]
    · simp only [Bool.not_eq_true] at hbp
      simp [hbp, hlayer]
  rw [if_pos (by simp [hfr, hbp, hlayer])]
  rw [if_pos (by simp [h])]
  simp [hfr, hlayer, hbp]

/-- A plain filter over the deep edge enumeration vanishes when it
vanishes on every scope's own list. -/
theorem filter_edgesDeepList_nil {P : Edge → Bool} {cs : List GNode}
    (h : ∀ m ∈ cs ++ nodesDeepList cs, (GNode.edges m).filter P = []) :
    (edgesDeepList cs).filter P = [] := by
  rw [List.filter_eq_nil_iff]
  intro e he
  rcases edgesDeepList_mem he with ⟨m, hm, hem⟩
  have h2 := h m hm
  rw [List.filter_eq_nil_iff] at h2
  exact h2 e hem

/-- When a filter is rejected by every scope except one distinguished
direct child, the deep enumeration filters to that child's own list. -/
theorem filter_deepList_single {P : Edge → Bool} {c : GNode} :
    ∀ (cs : List GNode), c ∈ cs → (cs.map GNode.id).Nodup →
    (∀ m, (m ∈ cs ∨ m ∈ nodesDeepList cs) → GNode.id m ≠ GNode.id c →
      (GNode.edges m).filter P = []) →
    (∀ m ∈ nodesDeepList cs, GNode.id m ≠ GNode.id c) →
    (edgesDeepList cs).filter P = (GNode.edges c).filter P := by
  intro cs
  induction cs with
  | nil => intro hc; cases hc
  | cons c0 rest ih =>
    intro hc hnodup hother hdeep
    simp only [edgesDeepList, List.filter_append]
    simp only [List.map_cons, List.nodup_cons] at hnodup
    have hsubdeep : ∀ x ∈ nodesDeepInternal c0, x ∈ nodesDeepList (c0 :: rest) :=
      fun x hx => mem_nodesDeepList_of_mem (List.mem_cons_self c0 rest) hx
    have hrestdeep : ∀ x ∈ nodesDeepList rest, x ∈ nodesDeepList (c0 :: rest) := by
      intro x hx
      simp only [nodesDeepList, List.mem_append]
      exact Or.inr hx
    by_cases hc0 : c0 = c
    · subst hc0
      have h1 : (edgesDeep c0).filter P = (GNode.edges c0).filter P := by
        rw [edgesDeep_decomp, List.filter_append]
        have hnil : (edgesDeepList (nodes c0)).filter P = [] := by
          apply filter_edgesDeepList_nil
          intro m hm
          rw [← nodesDeepInternal_decomp] at hm
          exact hother m (Or.inr (hsubdeep m hm)) (hdeep m (hsubdeep m hm))
        rw [hnil, List.append_nil]
      have h2 : (edgesDeepList rest).filter P = [] := by
        apply filter_edgesDeepList_nil
        intro m hm
        rcases List.mem_append.mp hm with hm | hm
        · refine hother m (Or.inl (List.mem_cons_of_mem _ hm)) ?_
          intro hid
          exact hnodup.1 (hid ▸ List.mem_map_of_mem GNode.id hm)
        · exact hother m (Or.inr (hrestdeep m hm)) (hdeep m (hrestdeep m hm))
      rw [h1, h2, List.append_nil]
    · have hcr : c ∈ rest := by
        rcases List.mem_cons.mp hc with h | h
        · exact absurd h.symm hc0
        · exact h
      have hid0 : GNode.id c0 ≠ GNode.id c := by
        intro hid
        exact hnodup.1 (hid ▸ List.mem_map_of_mem GNode.id hcr)
      have h1 : (edgesDeep c0).filter P = [] := by
        rw [edgesDeep_decomp, List.filter_append]
        have ha : (GNode.edges c0).filter P = [] :=
          hother c0 (Or.inl (List.mem_cons_self _ _)) hid0
        have hb : (edgesDeepList (nodes c0)).filter P = [] := by
          apply filter_edgesDeepList_nil
          intro m hm
          rw [← nodesDeepInternal_decomp] at hm
          exact hother m (Or.inr (hsubdeep m hm)) (hdeep m (hsubdeep m hm))
        rw [ha, hb]
        rfl
      have h2 : (edgesDeepList rest).filter P = (GNode.edges c).filter P := by
        apply ih hcr hnodup.2
        · intro m hm hne
          rcases hm with hm | hm
          · exact hother m (Or.inl (List.mem_cons_of_mem _ hm)) hne
          · exact hother m (Or.inr (hrestdeep m hm)) hne
        · intro m hm
          exact hdeep m (hrestdeep m hm)
      rw [h1, h2]
      rfl

/-- The to-end of an edge matching a port location. -/
theorem pointsToB_byPort_eq {cid pname : String} {e : Edge}
    (h : pointsToB (.byPort cid pname) e = true) :
    e.eto = .eport cid pname := by
  unfold pointsToB at h
  cases het : e.eto with
  | enode n => rw [het] at h; cases h
  | eport n p =>
    rw [het] at h
    simp only [Bool.and_eq_true, beq_iff_eq] at h
    rw [h.1, h.2]

/-- The from-end of an edge matching a port location. -/
theorem isFromB_byPort_eq {cid pname : String} {e : Edge}
    (h : isFromB (.byPort cid pname) e = true) :
    e.efrom = .eport cid pname := by
  unfold isFromB at h
  cases hef : e.efrom with
  | enode n => rw [hef] at h; cases h
  | eport n p =>
    rw [hef] at h
    simp only [Bool.and_eq_true, beq_iff_eq] at h
    rw [h.1, h.2]

/-- A deep scope other than the child itself holds no edge matching one
of the child's ports as target. -/
theorem portIn_scope_nil {g : GNode} (hwf : wfGraph g = true)
    {c : GNode} (hc : c ∈ nodes g) {pname : String} {m : GNode}
    (hm : m ∈ nodesDeepInternal g) (hne : GNode.id m ≠ GNode.id c) :
    (GNode.edges m).filter (portInPred (GNode.id c) pname) = [] := by
  rw [List.filter_eq_nil_iff]
  intro e hem hP
  unfold portInPred at hP
  simp only [Bool.and_eq_true, beq_iff_eq] at hP
  obtain ⟨⟨hpt, hlayer⟩, hbp⟩ := hP
  have het := pointsToB_byPort_eq hpt
  obtain ⟨hmc, _⟩ := edge_locality_in hwf hc hm hem hlayer hbp het rfl
  exact hne (by rw [hmc])

/-- No deep scope at all holds an edge matching one of the child's input
ports as target: inside scopes such an edge would need the port to be an
output boundary port. -/
theorem portIn_deep_nil_input {g : GNode} (hwf : wfGraph g = true)
    {c : GNode} (hc : c ∈ nodes g) {pname : String} {p : Port}
    (hfind : (GNode.ports c).find? (fun q => q.port == pname) = some p)
    (hkind : p.kind = "input") {m : GNode}
    (hm : m ∈ nodesDeepInternal g) :
    (GNode.edges m).filter (portInPred (GNode.id c) pname) = [] := by
  rw [List.filter_eq_nil_iff]
  intro e hem hP
  unfold portInPred at hP
  simp only [Bool.and_eq_true, beq_iff_eq] at hP
  obtain ⟨⟨hpt, hlayer⟩, hbp⟩ := hP
  have het := pointsToB_byPort_eq hpt
  obtain ⟨_, hpk⟩ := edge_locality_in hwf hc hm hem hlayer hbp het rfl
  unfold portKindIs at hpk
  rw [hfind] at hpk
  simp only [beq_iff_eq] at hpk
  rw [hkind] at hpk
  exact absurd hpk (by decide)

/-- The root scope holds no edge matching one of the child's output ports
as target: root-scope edges only end at child input ports or root output
ports. -/
theorem portIn_root_nil_output {g : GNode} (hwf : wfGraph g = true)
    {c : GNode} (hc : c ∈ nodes g) {pname : String} {p : Port}
    (hfind : (GNode.ports c).find? (fun q => q.port == pname) = some p)
    (hkind : p.kind = "output") :
    (GNode.edges g).filter (portInPred (GNode.id c) pname) = [] := by
  have hnd := wfIds_nodup (wfGraph_ids hwf)
  rw [List.filter_eq_nil_iff]
  intro e hem hP
  unfold portInPred at hP
  simp only [Bool.and_eq_true, beq_iff_eq] at hP
  obtain ⟨⟨hpt, hlayer⟩, hbp⟩ := hP
  have het := pointsToB_byPort_eq hpt
  obtain ⟨fn, fp, hef⟩ : ∃ fn fp, e.efrom = .eport fn fp := by
    unfold isBetweenPorts at hbp
    cases hef : e.efrom with
    | enode _ => rw [hef] at hbp; cases hbp
    | eport fn fp => exact ⟨fn, fp, rfl⟩
  have hwfe := wfEdges_root (wfGraph_edges hwf) e hem
  unfold wfEdgeAt at hwfe
  rw [if_pos (by simp [hlayer]), hef, het] at hwfe
  simp only [Bool.and_eq_true, Bool.or_eq_true, List.any_eq_true] at hwfe
  rcases hwfe.2 with ⟨hroot, _⟩ | ⟨c', hc', hcEq⟩
  · simp only [beq_iff_eq] at hroot
    exact childId_ne_root hnd (child_id_mem hc) hroot
  · simp only [Bool.and_eq_true, beq_iff_eq] at hcEq
    obtain ⟨hcid', hpk⟩ := hcEq
    have hc'c : c' = c :=
      nodesDeep_id_inj hnd (mem_nodesDeep_of_child hc')
        (mem_nodesDeep_of_child hc) hcid'
    subst hc'c
    unfold portKindIs at hpk
    rw [hfind] at hpk
    simp only [beq_iff_eq] at hpk
    rw [hkind] at hpk
    exact absurd hpk (by decide)

/-- A deep scope other than the child itself holds no edge matching one
of the child's ports as source. -/
theorem portOut_scope_nil {g : GNode} (hwf : wfGraph g = true)
    {c : GNode} (hc : c ∈ nodes g) {pname : String} {m : GNode}
    (hm : m ∈ nodesDeepInternal g) (hne : GNode.id m ≠ GNode.id c) :
    (GNode.edges m).filter (portOutPred (GNode.id c) pname) = [] := by
  rw [List.filter_eq_nil_iff]
  intro e hem hP
  unfold portOutPred at hP
  simp only [Bool.and_eq_true, beq_iff_eq] at hP
  obtain ⟨⟨hfr, hlayer⟩, hbp⟩ := hP
  have hef := isFromB_byPort_eq hfr
  obtain ⟨hmc, _⟩ := edge_locality_out hwf hc hm hem hlayer hbp hef rfl
  exact hne (by rw [hmc])

/-- No deep scope holds an edge starting at one of the child's output
ports: inside scopes such an edge would need the port to be an input
boundary port. -/
theorem portOut_deep_nil_output {g : GNode} (hwf : wfGraph g = true)
    {c : GNode} (hc : c ∈ nodes g) {pname : String} {p : Port}
    (hfind : (GNode.ports c).find? (fun q => q.port == pname) = some p)
    (hkind : p.kind = "output") {m : GNode}
    (hm : m ∈ nodesDeepInternal g) :
    (GNode.edges m).filter (portOutPred (GNode.id c) pname) = [] := by
  rw [List.filter_eq_nil_iff]
  intro e hem hP
  unfold portOutPred at hP
  simp only [Bool.and_eq_true, beq_iff_eq] at hP
  obtain ⟨⟨hfr, hlayer⟩, hbp⟩ := hP
  have hef := isFromB_byPort_eq hfr
  obtain ⟨_, hpk⟩ := edge_locality_out hwf hc hm hem hlayer hbp hef rfl
  unfold portKindIs at hpk
  rw [hfind] at hpk
  simp only [beq_iff_eq] at hpk
  rw [hkind] at hpk
  exact absurd hpk (by decide)

/-- The root scope holds no edge starting at one of the child's input
ports: root-scope edges only start at child output ports or root input
ports. -/
theorem portOut_root_nil_input {g : GNode} (hwf : wfGraph g = true)
    {c : GNode} (hc : c ∈ nodes g) {pname : String} {p : Port}
    (hfind : (GNode.ports c).find? (fun q => q.port == pname) = some p)
    (hkind : p.kind = "input") :
    (GNode.edges g).filter (portOutPred (GNode.id c) pname) = [] := by
  have hnd := wfIds_nodup (wfGraph_ids hwf)
  rw [List.filter_eq_nil_iff]
  intro e hem hP
  unfold portOutPred at hP
  simp only [Bool.and_eq_true, beq_iff_eq] at hP
  obtain ⟨⟨hfr, hlayer⟩, hbp⟩ := hP
  have hef := isFromB_byPort_eq hfr
  obtain ⟨tn, tp, het⟩ : ∃ tn tp, e.eto = .eport tn tp := by
    unfold isBetweenPorts at hbp
    cases hef' : e.efrom with
    | enode _ => rw [hef'] at hbp; cases hbp
    | eport _ _ =>
      cases het : e.eto with
      | enode _ => rw [hef', het] at hbp; cases hbp
      | eport tn tp => exact ⟨tn, tp, rfl⟩
  have hwfe := wfEdges_root (wfGraph_edges hwf) e hem
  unfold wfEdgeAt at hwfe
  rw [if_pos (by simp [hlayer]), hef, het] at hwfe
  simp only [Bool.and_eq_true, Bool.or_eq_true, List.any_eq_true] at hwfe
  rcases hwfe.1 with ⟨hroot, _⟩ | ⟨c', hc', hcEq⟩
  · simp only [beq_iff_eq] at hroot
    exact childId_ne_root hnd (child_id_mem hc) hroot
  · simp only [Bool.and_eq_true, beq_iff_eq] at hcEq
    obtain ⟨hcid', hpk⟩ := hcEq
    have hc'c : c' = c :=
      nodesDeep_id_inj hnd (mem_nodesDeep_of_child hc')
        (mem_nodesDeep_of_child hc) hcid'
    subst hc'c
    unfold portKindIs at hpk
    rw [hfind] at hpk
    simp only [beq_iff_eq] at hpk
    rw [hkind] at hpk
    exact absurd hpk (by decide)

/-- The full deep scan with the out-filter of a direct child returns the
same list as the scoped query. -/
theorem outIncidents_deep_eq (g : GNode) (hwf : wfGraph g = true)
    {c : GNode} (hc : c ∈ nodes g) :
    filterE (outFilterFn (.byId (GNode.id c)) g ["dataflow"] false)
        (edgesDeep g)
      = .ok ((GNode.edges g).filter (childOutPred (GNode.id c))) := by
  rw [edgesDeep_decomp]
  have h1 : filterE (outFilterFn (.byId (GNode.id c)) g ["dataflow"] false)
      (GNode.edges g) = .ok ((GNode.edges g).filter (childOutPred (GNode.id c))) :=
    filterE_eq_filter (fun e he => outFilterFn_child g hwf (child_id_mem hc) e he)
  have h2 : filterE (outFilterFn (.byId (GNode.id c)) g ["dataflow"] false)
      (edgesDeepList (nodes g)) = .ok [] :=
    filterE_nilres (fun e he => outFilterFn_deep_scope g hwf hc he)
  simpa using filterE_append h1 h2

/-- The ingoing query at an output boundary port scans the owning
compound's own edge list. -/
theorem inIncidents_port_output (g : GNode) (hwf : wfGraph g = true)
    {c : GNode} (hc : c ∈ nodes g) {pname : String} {p : Port}
    (hfind : (GNode.ports c).find? (fun q => q.port == pname) = some p)
    (hkind : p.kind = "output") :
    inIncidents (.byPort (GNode.id c) pname) g ["dataflow"] false
      = .ok ((GNode.edges c).filter (portInPred (GNode.id c) pname)) := by
  have hnd := wfIds_nodup (wfGraph_ids hwf)
  have hcd := mem_nodesDeep_of_child hc
  have hnodeL := nodeL_byPort hnd hcd pname
  have hhas := hasPortT_byPort hnd hcd hfind
  have hportT := portT_byPort hnd hcd hfind
  have hwfc : wfEdgesAux c = true :=
    wfEdgesAux_deep (wfGraph_edges hwf) c (mem_nodesDeepInternal_of_child hc)
  have howner : p.node = some (GNode.id c) :=
    wfPorts_owner hwfc p (List.mem_of_find?_eq_some hfind)
  unfold inIncidents
  rw [if_pos (by decide)]
  simp only [hnodeL]
  rw [if_pos hhas]
  simp only [hportT]
  rw [if_pos (show (Port.node p == some (GNode.id c)
    && Port.kind p == "output") = true by simp [howner, hkind])]
  exact filterE_eq_filter (fun e _ => inFilterFn_hasPort hhas e)

/-- The ingoing query at an input boundary port scans the parent's edge
list. -/
theorem inIncidents_port_input (g : GNode) (hwf : wfGraph g = true)
    {c : GNode} (hc : c ∈ nodes g) {pname : String} {p : Port}
    (hfind : (GNode.ports c).find? (fun q => q.port == pname) = some p)
    (hkind : p.kind = "input") :
    inIncidents (.byPort (GNode.id c) pname) g ["dataflow"] false
      = .ok ((GNode.edges g).filter (portInPred (GNode.id c) pname)) := by
  have hnd := wfIds_nodup (wfGraph_ids hwf)
  obtain ⟨gp, hgp⟩ := wfPaths_rootPath (wfGraph_paths hwf)
  have hcd := mem_nodesDeep_of_child hc
  have hnodeL := nodeL_byPort hnd hcd pname
  have hhas := hasPortT_byPort hnd hcd hfind
  have hportT := portT_byPort hnd hcd hfind
  have hpar := parentL_child hgp hnd (wfGraph_paths hwf) hc
  unfold inIncidents
  rw [if_pos (by decide)]
  simp only [hnodeL]
  rw [if_pos hhas]
  simp only [hportT]
  rw [if_neg (show ¬ ((Port.node p == some (GNode.id c)
    && Port.kind p == "output") = true) by simp [hkind])]
  simp only [hpar, Option.getD_some]
  exact filterE_eq_filter (fun e _ => inFilterFn_hasPort hhas e)

/-- The outgoing query at an input boundary port scans the owning
compound's own edge list. -/
theorem outIncidents_port_input (g : GNode) (hwf : wfGraph g = true)
    {c : GNode} (hc : c ∈ nodes g) {pname : String} {p : Port}
    (hfind : (GNode.ports c).find? (fun q => q.port == pname) = some p)
    (hkind : p.kind = "input") :
    outIncidents (.byPort (GNode.id c) pname) g ["dataflow"] false
      = .ok ((GNode.edges c).filter (portOutPred (GNode.id c) pname)) := by
  have hnd := wfIds_nodup (wfGraph_ids hwf)
  have hcd := mem_nodesDeep_of_child hc
  have hnodeL := nodeL_byPort hnd hcd pname
  have hhas := hasPortT_byPort hnd hcd hfind
  have hportT := portT_byPort hnd hcd hfind
  have hwfc : wfEdgesAux c = true :=
    wfEdgesAux_deep (wfGraph_edges hwf) c (mem_nodesDeepInternal_of_child hc)
  have howner : p.node = some (GNode.id c) :=
    wfPorts_owner hwfc p (List.mem_of_find?_eq_some hfind)
  unfold outIncidents
  rw [if_pos (by decide)]
  simp only [hnodeL]
  rw [if_pos hhas]
  simp only [hportT]
  rw [if_pos (show (Port.node p == some (GNode.id c)
    && Port.kind p == "input") = true by simp [howner, hkind])]
  exact filterE_eq_filter (fun e _ => outFilterFn_hasPort hhas e)

/-- The outgoing query at an output boundary port scans the parent's edge
list. -/
theorem outIncidents_port_output (g : GNode) (hwf : wfGraph g = true)
    {c : GNode} (hc : c ∈ nodes g) {pname : String} {p : Port}
    (hfind : (GNode.ports c).find? (fun q => q.port == pname) = some p)
    (hkind : p.kind = "output") :
    outIncidents (.byPort (GNode.id c) pname) g ["dataflow"] false
      = .ok ((GNode.edges g).filter (portOutPred (GNode.id c) pname)) := by
  have hnd := wfIds_nodup (wfGraph_ids hwf)
  obtain ⟨gp, hgp⟩ := wfPaths_rootPath (wfGraph_paths hwf)
  have hcd := mem_nodesDeep_of_child hc
  have hnodeL := nodeL_byPort hnd hcd pname
  have hhas := hasPortT_byPort hnd hcd hfind
  have hportT := portT_byPort hnd hcd hfind
  have hpar := parentL_child hgp hnd (wfGraph_paths hwf) hc
  unfold outIncidents
  rw [if_pos (by decide)]
  simp only [hnodeL]
  rw [if_pos hhas]
  simp only [hportT]
  rw [if_neg (show ¬ ((Port.node p == some (GNode.id c)
    && Port.kind p == "input") = true) by simp [hkind])]
  simp only [hpar, Option.getD_some]
  exact filterE_eq_filter (fun e _ => outFilterFn_hasPort hhas e)

/-- The deep scan agrees with the scoped query at an output boundary
port (ingoing direction). -/
theorem inIncidents_port_output_deep (g : GNode) (hwf : wfGraph g = true)
    {c : GNode} (hc : c ∈ nodes g) {pname : String} {p : Port}
    (hfind : (GNode.ports c).find? (fun q => q.port == pname) = some p)
    (hkind : p.kind = "output") :
    filterE (inFilterFn (.byPort (GNode.id c) pname) g ["dataflow"] false)
        (edgesDeep g)
      = .ok ((GNode.edges c).filter (portInPred (GNode.id c) pname)) := by
  have hnd := wfIds_nodup (wfGraph_ids hwf)
  have hhas := hasPortT_byPort hnd (mem_nodesDeep_of_child hc) hfind
  have htotal : filterE (inFilterFn (.byPort (GNode.id c) pname) g
      ["dataflow"] false) (edgesDeep g)
      = .ok ((edgesDeep g).filter (portInPred (GNode.id c) pname)) :=
    filterE_eq_filter (fun e _ => inFilterFn_hasPort hhas e)
  rw [htotal, edgesDeep_decomp, List.filter_append]
  rw [portIn_root_nil_output hwf hc hfind hkind]
  rw [filter_deepList_single (nodes g) hc (childIds_nodup hnd) ?other ?deep]
  · rfl
  case other =>
    intro m hm hne
    refine portIn_scope_nil hwf hc ?_ hne
    rw [nodesDeepInternal_decomp, List.mem_append]
    exact hm
  case deep =>
    exact child_not_deep hnd hc

/-- The deep scan agrees with the scoped query at an input boundary port
(ingoing direction). -/
theorem inIncidents_port_input_deep (g : GNode) (hwf : wfGraph g = true)
    {c : GNode} (hc : c ∈ nodes g) {pname : String} {p : Port}
    (hfind : (GNode.ports c).find? (fun q => q.port == pname) = some p)
    (hkind : p.kind = "input") :
    filterE (inFilterFn (.byPort (GNode.id c) pname) g ["dataflow"] false)
        (edgesDeep g)
      = .ok ((GNode.edges g).filter (portInPred (GNode.id c) pname)) := by
  have hnd := wfIds_nodup (wfGraph_ids hwf)
  have hhas := hasPortT_byPort hnd (mem_nodesDeep_of_child hc) hfind
  have htotal : filterE (inFilterFn (.byPort (GNode.id c) pname) g
      ["dataflow"] false) (edgesDeep g)
      = .ok ((edgesDeep g).filter (portInPred (GNode.id c) pname)) :=
    filterE_eq_filter (fun e _ => inFilterFn_hasPort hhas e)
  rw [htotal, edgesDeep_decomp, List.filter_append]
  have hnil : (edgesDeepList (nodes g)).filter
      (portInPred (GNode.id c) pname) = [] := by
    apply filter_edgesDeepList_nil
    intro m hm
    refine portIn_deep_nil_input hwf hc hfind hkind ?_
    rw [nodesDeepInternal_decomp, List.mem_append]
    exact List.mem_append.mp hm
  rw [hnil, List.append_nil]

/-- The deep scan agrees with the scoped query at an input boundary port
(outgoing direction). -/
theorem outIncidents_port_input_deep (g : GNode) (hwf : wfGraph g = true)
    {c : GNode} (hc : c ∈ nodes g) {pname : String} {p : Port}
    (hfind : (GNode.ports c).find? (fun q => q.port == pname) = some p)
    (hkind : p.kind = "input") :
    filterE (outFilterFn (.byPort (GNode.id c) pname) g ["dataflow"] false)
        (edgesDeep g)
      = .ok ((GNode.edges c).filter (portOutPred (GNode.id c) pname)) := by
  have hnd := wfIds_nodup (wfGraph_ids hwf)
  have hhas := hasPortT_byPort hnd (mem_nodesDeep_of_child hc) hfind
  have htotal : filterE (outFilterFn (.byPort (GNode.id c) pname) g
      ["dataflow"] false) (edgesDeep g)
      = .ok ((edgesDeep g).filter (portOutPred (GNode.id c) pname)) :=
    filterE_eq_filter (fun e _ => outFilterFn_hasPort hhas e)
  rw [htotal, edgesDeep_decomp, List.filter_append]
  rw [portOut_root_nil_input hwf hc hfind hkind]
  rw [filter_deepList_single (nodes g) hc (childIds_nodup hnd) ?other ?deep]
  · rfl
  case other =>
    intro m hm hne
    refine portOut_scope_nil hwf hc ?_ hne
    rw [nodesDeepInternal_decomp, List.mem_append]
    exact hm
  case deep =>
    exact child_not_deep hnd hc

/-- The deep scan agrees with the scoped query at an output boundary
port (outgoing direction). -/
theorem outIncidents_port_output_deep (g : GNode) (hwf : wfGraph g = true)
    {c : GNode} (hc : c ∈ nodes g) {pname : String} {p : Port}
    (hfind : (GNode.ports c).find? (fun q => q.port == pname) = some p)
    (hkind : p.kind = "output") :
    filterE (outFilterFn (.byPort (GNode.id c) pname) g ["dataflow"] false)
        (edgesDeep g)
      = .ok ((GNode.edges g).filter (portOutPred (GNode.id c) pname)) := by
  have hnd := wfIds_nodup (wfGraph_ids hwf)
  have hhas := hasPortT_byPort hnd (mem_nodesDeep_of_child hc) hfind
  have htotal : filterE (outFilterFn (.byPort (GNode.id c) pname) g
      ["dataflow"] false) (edgesDeep g)
      = .ok ((edgesDeep g).filter (portOutPred (GNode.id c) pname)) :=
    filterE_eq_filter (fun e _ => outFilterFn_hasPort hhas e)
  rw [htotal, edgesDeep_decomp, List.filter_append]
  have hnil : (edgesDeepList (nodes g)).filter
      (portOutPred (GNode.id c) pname) = [] := by
    apply filter_edgesDeepList_nil
    intro m hm
    refine portOut_deep_nil_output hwf hc hfind hkind ?_
    rw [nodesDeepInternal_decomp, List.mem_append]
    exact List.mem_append.mp hm
  rw [hnil, List.append_nil]

/-! ### Arbitrary-depth scoping

The lemmas above settle the queries for direct children of the root.  The
claim quantifies over every location, so the same facts are now proved
for a child `c` of an arbitrary compound `p` anywhere in the tree: the
nearest containing compound of a nested location is an inner compound,
and the scoped query must still agree with the full deep scan. -/

theorem not_self_mem_nodes (p : GNode) : p ∉ nodes p := by
  intro h
  cases p with
  | mk i nm ps a ch es co mt pa =>
    cases ch with
    | none => simp [nodes, GNode.children] at h
    | some cs =>
      simp only [nodes, GNode.children, Option.getD] at h
      have h1 := List.sizeOf_lt_of_mem h
      have h2 : sizeOf cs < sizeOf (GNode.mk i nm ps a (some cs) es co mt pa) := by
        simp
        omega
      omega

theorem mem_nodesDeep_trans {g p c : GNode} (hp : p ∈ nodesDeep g)
    (hc : c ∈ nodes p) : c ∈ nodesDeep g := by
  simp only [nodesDeep, List.mem_append, List.mem_singleton] at hp
  rcases hp with hp | hp
  · exact mem_nodesDeep_of_internal (nodesDeepInternal_trans hp hc)
  · subst hp
    exact mem_nodesDeep_of_child hc

theorem mem_internal_trans {g p c : GNode} (hp : p ∈ nodesDeep g)
    (hc : c ∈ nodes p) : c ∈ nodesDeepInternal g := by
  simp only [nodesDeep, List.mem_append, List.mem_singleton] at hp
  rcases hp with hp | hp
  · exact nodesDeepInternal_trans hp hc
  · subst hp
    exact mem_nodesDeepInternal_of_child hc

/-- The per-scope edge invariant at any node of the tree, root included. -/
theorem wfEdgesAux_at {g : GNode} (h : wfEdgesAux g = true) {m : GNode}
    (hm : m ∈ nodesDeep g) : wfEdgesAux m = true := by
  simp only [nodesDeep, List.mem_append, List.mem_singleton] at hm
  rcases hm with hm | hm
  · exact wfEdgesAux_deep h m hm
  · subst hm
    exact h

/-- A child never carries its own scope's id. -/
theorem scope_child_ne_id {g : GNode}
    (hnd : ((nodesDeep g).map GNode.id).Nodup) {p c : GNode}
    (hp : p ∈ nodesDeep g) (hc : c ∈ nodes p) :
    GNode.id c ≠ GNode.id p := by
  intro hEq
  have hcd := mem_nodesDeep_trans hp hc
  have hcp : c = p := nodesDeep_id_inj hnd hcd hp hEq
  exact not_self_mem_nodes p (hcp ▸ hc)

/-- A stored port has a single kind. -/
theorem portKind_unique {n : GNode} {pname : String}
    (h1 : portKindIs n pname "input" = true)
    (h2 : portKindIs n pname "output" = true) : False := by
  unfold portKindIs at h1 h2
  cases hfind : (GNode.ports n).find? (fun p => p.port == pname) with
  | none => rw [hfind] at h1; cases h1
  | some q =>
    rw [hfind] at h1 h2
    simp only [beq_iff_eq] at h1 h2
    rw [h1] at h2
    exact absurd h2 (by decide)

/-- In a duplicate-free list a predicate that holds only at one member
filters to that member. -/
theorem filter_eq_singleton_of_unique {α} {l : List α} (hnd : l.Nodup)
    {x : α} (hx : x ∈ l) {P : α → Bool} (hPx : P x = true)
    (huniq : ∀ y ∈ l, P y = true → y = x) : l.filter P = [x] := by
  induction l with
  | nil => cases hx
  | cons a as ih =>
    rw [List.nodup_cons] at hnd
    rcases List.mem_cons.mp hx with h | h
    · subst h
      rw [List.filter_cons, if_pos hPx]
      have hnil : as.filter P = [] := by
        rw [List.filter_eq_nil_iff]
        intro y hy hPy
        exact hnd.1 ((huniq y (List.mem_cons_of_mem _ hy) hPy) ▸ hy)
      rw [hnil]
    · have hPa : ¬ (P a = true) := by
        intro hPa
        have hax := huniq a (List.mem_cons_self a as) hPa
        exact hnd.1 (by rw [hax]; exact h)
      rw [List.filter_cons, if_neg hPa]
      exact ih hnd.2 h (fun y hy hPy => huniq y (List.mem_cons_of_mem _ hy) hPy)

mutual

/-- Invariant (c) below one scope, strengthened: every node of the
subtree stores the base path extended by an id chain ending in its own
id, and the invariant recurses at its stored path. -/
theorem wfPathsAux_scopes (gp : List String) (g : GNode)
    (h : wfPathsAux gp g = true) :
    ∀ m ∈ nodesDeepInternal g, ∃ pre,
      GNode.path? m = some (gp ++ pre ++ [GNode.id m])
        ∧ wfPathsAux (gp ++ pre ++ [GNode.id m]) m = true := by
  cases g with
  | mk i nm ps a ch es co mt pa =>
    cases ch with
    | none =>
      intro m hm
      simp [nodesDeepInternal] at hm
    | some cs =>
      intro m hm
      simp only [nodesDeepInternal] at hm
      unfold wfPathsAux at h
      exact wfPathsList_scopes gp cs h m hm

theorem wfPathsList_scopes (gp : List String) (cs : List GNode)
    (h : wfPathsList gp cs = true) :
    ∀ m ∈ cs ++ nodesDeepList cs, ∃ pre,
      GNode.path? m = some (gp ++ pre ++ [GNode.id m])
        ∧ wfPathsAux (gp ++ pre ++ [GNode.id m]) m = true := by
  cases cs with
  | nil =>
    intro m hm
    simp [nodesDeepList] at hm
  | cons c cs' =>
    intro m hm
    unfold wfPathsList at h
    simp only [Bool.and_eq_true, beq_iff_eq] at h
    obtain ⟨⟨hpath, haux⟩, htail⟩ := h
    simp only [nodesDeepList, List.cons_append, List.mem_cons,
      List.mem_append] at hm
    rcases hm with hm | hm
    · subst hm
      exact ⟨[], by simpa using hpath, by simpa using haux⟩
    · rcases hm with hm | hm | hm
      · exact wfPathsList_scopes gp cs' htail m (by simp [hm])
      · obtain ⟨pre, h1, h2⟩ := wfPathsAux_scopes (gp ++ [GNode.id c]) c haux m hm
        exact ⟨[GNode.id c] ++ pre,
          by simpa [List.append_assoc] using h1,
          by simpa [List.append_assoc] using h2⟩
      · exact wfPathsList_scopes gp cs' htail m (by simp [hm])

end

/-- Invariant (c) below one scope determines the children's paths. -/
theorem wfPathsAux_child {pp : List String} {p : GNode}
    (h : wfPathsAux pp p = true) {c : GNode} (hc : c ∈ nodes p) :
    GNode.path? c = some (pp ++ [GNode.id c]) := by
  cases p with
  | mk i nm ps a ch es co mt pa =>
    cases ch with
    | none => simp [nodes, GNode.children] at hc
    | some cs =>
      unfold wfPathsAux at h
      simp only [nodes, GNode.children, Option.getD] at hc
      exact (wfPathsList_deep pp cs h).1 c hc

/-- Every scope of the tree stores the root path extended by a (possibly
empty) relative path, and invariant (c) recurses at it. -/
theorem scope_relpath {g : GNode} {gp : List String}
    (hgp : GNode.path? g = some gp) (hpaths : wfPaths g = true)
    {p : GNode} (hp : p ∈ nodesDeep g) :
    ∃ relp, GNode.path? p = some (gp ++ relp)
      ∧ wfPathsAux (gp ++ relp) p = true := by
  have haux : wfPathsAux gp g = true := by
    unfold wfPaths at hpaths
    rw [hgp] at hpaths
    exact hpaths
  simp only [nodesDeep, List.mem_append, List.mem_singleton] at hp
  rcases hp with hp | hp
  · obtain ⟨pre, h1, h2⟩ := wfPathsAux_scopes gp g haux p hp
    exact ⟨pre ++ [GNode.id p],
      by simpa [List.append_assoc] using h1,
      by simpa [List.append_assoc] using h2⟩
  · subst hp
    exact ⟨[], by simpa using hgp, by simpa using haux⟩

/-- Under invariants (a) and (c) the stored path determines the node. -/
theorem path_inj {g : GNode} {gp : List String}
    (hgp : GNode.path? g = some gp) (hpaths : wfPaths g = true)
    (hnd : ((nodesDeep g).map GNode.id).Nodup) {m1 m2 : GNode}
    (h1 : m1 ∈ nodesDeep g) (h2 : m2 ∈ nodesDeep g)
    (heq : GNode.path? m1 = GNode.path? m2) : m1 = m2 := by
  have haux : wfPathsAux gp g = true := by
    unfold wfPaths at hpaths
    rw [hgp] at hpaths
    exact hpaths
  have hmem1 := h1
  have hmem2 := h2
  simp only [nodesDeep, List.mem_append, List.mem_singleton] at h1 h2
  rcases h1 with h1 | h1
  · rcases h2 with h2 | h2
    · obtain ⟨p1, hp1, _⟩ := wfPathsAux_scopes gp g haux m1 h1
      obtain ⟨p2, hp2, _⟩ := wfPathsAux_scopes gp g haux m2 h2
      rw [hp1, hp2] at heq
      have heq2 : (gp ++ p1) ++ [GNode.id m1] = (gp ++ p2) ++ [GNode.id m2] := by
        injection heq
      have hid : GNode.id m1 = GNode.id m2 := by
        have := (List.append_inj' heq2 rfl).2
        simpa using this
      exact nodesDeep_id_inj hnd hmem1 hmem2 hid
    · rw [h2] at heq
      obtain ⟨p1, hp1, _⟩ := wfPathsAux_scopes gp g haux m1 h1
      rw [hp1, hgp] at heq
      exfalso
      have hflat : gp ++ (p1 ++ [GNode.id m1]) = gp ++ [] := by
        injection heq with heq
        simpa [List.append_assoc] using heq
      have h0 := List.append_cancel_left hflat
      simp at h0
  · rw [h1] at heq
    rcases h2 with h2 | h2
    · obtain ⟨p2, hp2, _⟩ := wfPathsAux_scopes gp g haux m2 h2
      rw [hgp, hp2] at heq
      exfalso
      have hflat : gp ++ [] = gp ++ (p2 ++ [GNode.id m2]) := by
        injection heq with heq
        simpa [List.append_assoc] using heq
      have h0 := List.append_cancel_left hflat
      simp at h0
    · rw [h1, h2]

/-- Under invariants (a) and (c) every node has at most one parent
scope. -/
theorem parent_unique {g : GNode} {gp : List String}
    (hgp : GNode.path? g = some gp) (hpaths : wfPaths g = true)
    (hnd : ((nodesDeep g).map GNode.id).Nodup) {p m c : GNode}
    (hp : p ∈ nodesDeep g) (hm : m ∈ nodesDeep g)
    (hcp : c ∈ nodes p) (hcm : c ∈ nodes m) : p = m := by
  obtain ⟨relp, hpp, hauxp⟩ := scope_relpath hgp hpaths hp
  obtain ⟨relm, hpm, hauxm⟩ := scope_relpath hgp hpaths hm
  have h1 := wfPathsAux_child hauxp hcp
  have h2 := wfPathsAux_child hauxm hcm
  rw [h1] at h2
  have h3 : (gp ++ relp) ++ [GNode.id c] = (gp ++ relm) ++ [GNode.id c] := by
    injection h2
  have h4 := List.append_cancel_right h3
  apply path_inj hgp hpaths hnd hp hm
  rw [hpp, hpm, h4]

/-- Resolving the parent of any node returns its containing scope. -/
theorem parentL_scope {g : GNode} (hwf : wfGraph g = true) {p : GNode}
    (hp : p ∈ nodesDeep g) {c : GNode} (hc : c ∈ nodes p) :
    parentL (.byId (GNode.id c)) g = .ok (some p) := by
  have hnd := wfIds_nodup (wfGraph_ids hwf)
  have hpaths := wfGraph_paths hwf
  obtain ⟨gp, hgp⟩ := wfPaths_rootPath hpaths
  obtain ⟨relp, hpp, hauxp⟩ := scope_relpath hgp hpaths hp
  have hcp : GNode.path? c = some ((gp ++ relp) ++ [GNode.id c]) :=
    wfPathsAux_child hauxp hc
  have hcd : c ∈ nodesDeep g := mem_nodesDeep_trans hp hc
  have hne : ((some ((gp ++ relp) ++ [GNode.id c]) : Option (List String))
      == some gp) = false := by
    simp only [beq_eq_false_iff_ne, ne_eq, Option.some.injEq]
    intro hEq
    have hflat : gp ++ (relp ++ [GNode.id c]) = gp ++ [] := by
      simpa [List.append_assoc] using hEq
    have h0 := List.append_cancel_left hflat
    simp at h0
  have hrel : relativeTo ((gp ++ relp) ++ [GNode.id c]) gp
      = .ok (relp ++ [GNode.id c]) := by
    have hflat : (gp ++ relp) ++ [GNode.id c] = gp ++ (relp ++ [GNode.id c]) := by
      simp [List.append_assoc]
    rw [hflat]
    exact relativeTo_append gp (relp ++ [GNode.id c])
  have hpparent : pathParent (relp ++ [GNode.id c]) = relp := by
    simp [pathParent]
  have hfind : (nodesDeep g).filter (nodeMatches g (.byPath relp)) = [p] := by
    apply filter_eq_singleton_of_unique (List.Nodup.of_map _ hnd) hp
    · simp [nodeMatches, hgp, pathJoin, hpp]
    · intro y hy hPy
      simp only [nodeMatches, hgp, pathJoin, beq_iff_eq] at hPy
      apply path_inj hgp hpaths hnd hy hp
      rw [hpp]
      exact hPy
  have hbyPath : nodeL (.byPath relp) g = .ok p := by
    unfold nodeL nodeBy
    rw [hfind]
    rfl
  unfold parentL
  rw [nodeL_byId hnd hcd]
  simp only [hcp, hgp, hne, Bool.false_eq_true, if_false, hrel, hpparent,
    hbyPath]

/-- The Boolean value the in-filter of a node location computes on any
tree edge: the plain predicate refined by the resolved target port's
kind. -/
def inValB (c : GNode) (e : Edge) : Bool :=
  match e.eto with
  | .eport _ tp => childInPred (GNode.id c) e && portKindIs c tp "input"
  | .enode _ => false

/-- The Boolean value the out-filter of a node location computes on any
tree edge. -/
def outValB (c : GNode) (e : Edge) : Bool :=
  match e.efrom with
  | .eport _ fp => childOutPred (GNode.id c) e && portKindIs c fp "output"
  | .enode _ => false

/-- Under wellformedness the in-filter of any node location settles
without throwing on every edge of every scope, to `inValB`. -/
theorem inFilterFn_total (g : GNode) (hwf : wfGraph g = true)
    {c : GNode} (hcd : c ∈ nodesDeep g) {m : GNode} (hm : m ∈ nodesDeep g)
    {e : Edge} (he : e ∈ GNode.edges m) :
    inFilterFn (.byId (GNode.id c)) g ["dataflow"] false e
      = .ok (inValB c e) := by
  have hnd := wfIds_nodup (wfGraph_ids hwf)
  have hwfe := wfEdges_root (wfEdgesAux_at (wfGraph_edges hwf) hm) e he
  unfold inFilterFn
  by_cases hpt : pointsToB (.byId (GNode.id c)) e = true
  swap
  · have hptf : pointsToB (.byId (GNode.id c)) e = false := by
      simpa using hpt
    have hval : inValB c e = false := by
      unfold inValB
      cases het : e.eto with
      | enode n => simp [het]
      | eport tn tp =>
        simp only [het]
        unfold childInPred
        simp [hptf]
    rw [hval, if_neg]
    simp only [Bool.and_eq_true, not_and]
    intro hcontr
    exact absurd hcontr.1 hpt
  by_cases hlayer : e.layer = "dataflow"
  swap
  · have hany : (["dataflow"].any (fun l => l == e.layer)) = false := by
      simp only [List.any_cons, List.any_nil, Bool.or_false, beq_iff_eq]
      exact decide_eq_false (fun hEq => hlayer hEq.symm)
    have hlayerb : (e.layer == "dataflow") = false := by
      simp [hlayer]
    have hval : inValB c e = false := by
      unfold inValB
      cases het : e.eto with
      | enode n => simp [het]
      | eport tn tp =>
        simp only [het]
        unfold childInPred
        simp [hlayerb]
    rw [hval, if_neg (by simp [hany])]
  by_cases hbp : isBetweenPorts e = true
  swap
  · have hbpf : isBetweenPorts e = false := by
      simpa using hbp
    have hval : inValB c e = false := by
      unfold inValB
      cases het : e.eto with
      | enode n => simp [het]
      | eport tn tp =>
        simp only [het]
        unfold childInPred
        simp [hbpf]
    rw [hval, if_neg (by simp [hbpf, hlayer])]
  rw [if_pos (by simp [hpt, hbp, hlayer])]
  rw [if_neg (by simp [hlayer, hasPortT])]
  obtain ⟨fn, fp, tn, tp, hef, het⟩ :
      ∃ fn fp tn tp, e.efrom = .eport fn fp ∧ e.eto = .eport tn tp := by
    unfold isBetweenPorts at hbp
    cases hef : e.efrom with
    | enode _ => rw [hef] at hbp; cases hbp
    | eport fn fp =>
      cases het : e.eto with
      | enode _ => rw [hef, het] at hbp; cases hbp
      | eport tn tp => exact ⟨fn, fp, tn, tp, rfl, rfl⟩
  have htn : tn = GNode.id c := by
    unfold pointsToB at hpt
    rw [het] at hpt
    simpa using hpt
  unfold wfEdgeAt at hwfe
  rw [if_pos (by simp [hlayer]), hef, het] at hwfe
  simp only [Bool.and_eq_true, Bool.or_eq_true, List.any_eq_true] at hwfe
  obtain ⟨q, hfindq⟩ :
      ∃ q, (GNode.ports c).find? (fun r => r.port == tp) = some q := by
    rcases hwfe.2 with ⟨hroot, hpk⟩ | ⟨c', hc', hcEq⟩
    · simp only [beq_iff_eq] at hroot
      have hmc : m = c := nodesDeep_id_inj hnd hm hcd (by rw [← hroot]; exact htn)
      rw [hmc] at hpk
      unfold portKindIs at hpk
      cases hfind : (GNode.ports c).find? (fun r => r.port == tp) with
      | none => rw [hfind] at hpk; cases hpk
      | some q => exact ⟨q, rfl⟩
    · simp only [Bool.and_eq_true, beq_iff_eq] at hcEq
      obtain ⟨hcid', hpk⟩ := hcEq
      have hc'c : c' = c := nodesDeep_id_inj hnd (mem_nodesDeep_trans hm hc')
        hcd (by rw [hcid']; exact htn)
      rw [hc'c] at hpk
      unfold portKindIs at hpk
      cases hfind : (GNode.ports c).find? (fun r => r.port == tp) with
      | none => rw [hfind] at hpk; cases hpk
      | some q => exact ⟨q, rfl⟩
  have hnodeL2 : nodeL (.byPort tn tp) g = .ok c := by
    rw [htn]
    exact nodeL_byPort hnd hcd tp
  have hresolve : portOfEnd e.eto g = .ok q := by
    simp only [het, portOfEnd, portT, hnodeL2, nodePort, hfindq]
  have hval : inValB c e = (q.kind == "input") := by
    unfold inValB
    simp only [het]
    unfold childInPred portKindIs
    rw [hfindq]
    simp [hpt, hbp, hlayer]
  simp only [hresolve]
  rw [hval]

/-- Under wellformedness the out-filter of any node location settles
without throwing on every edge of every scope, to `outValB`. -/
theorem outFilterFn_total (g : GNode) (hwf : wfGraph g = true)
    {c : GNode} (hcd : c ∈ nodesDeep g) {m : GNode} (hm : m ∈ nodesDeep g)
    {e : Edge} (he : e ∈ GNode.edges m) :
    outFilterFn (.byId (GNode.id c)) g ["dataflow"] false e
      = .ok (outValB c e) := by
  have hnd := wfIds_nodup (wfGraph_ids hwf)
  have hwfe := wfEdges_root (wfEdgesAux_at (wfGraph_edges hwf) hm) e he
  unfold outFilterFn
  by_cases hfr : isFromB (.byId (GNode.id c)) e = true
  swap
  · have hfrf : isFromB (.byId (GNode.id c)) e = false := by
      simpa using hfr
    have hval : outValB c e = false := by
      unfold outValB
      cases hef : e.efrom with
      | enode n => simp [hef]
      | eport fn fp =>
        simp only [hef]
        unfold childOutPred
        simp [hfrf]
    rw [hval, if_neg]
    simp only [Bool.and_eq_true, not_and]
    intro hcontr
    exact absurd hcontr.1 hfr
  by_cases hlayer : e.layer = "dataflow"
  swap
  · have hany : (["dataflow"].any (fun l => l == e.layer)) = false := by
      simp only [List.any_cons, List.any_nil, Bool.or_false, beq_iff_eq]
      exact decide_eq_false (fun hEq => hlayer hEq.symm)
    have hlayerb : (e.layer == "dataflow") = false := by
      simp [hlayer]
    have hval : outValB c e = false := by
      unfold outValB
      cases hef : e.efrom with
      | enode n => simp [hef]
      | eport fn fp =>
        simp only [hef]
        unfold childOutPred
        simp [hlayerb]
    rw [hval, if_neg (by simp [hany])]
  by_cases hbp : isBetweenPorts e = true
  swap
  · have hbpf : isBetweenPorts e = false := by
      simpa using hbp
    have hval : outValB c e = false := by
      unfold outValB
      cases hef : e.efrom with
      | enode n => simp [hef]
      | eport fn fp =>
        simp only [hef]
        unfold childOutPred
        simp [hbpf]
    rw [hval, if_neg (by simp [hbpf, hlayer])]
  rw [if_pos (by simp [hfr, hbp, hlayer])]
  rw [if_neg (by simp [hlayer, hasPortT])]
  obtain ⟨fn, fp, tn, tp, hef, het⟩ :
      ∃ fn fp tn tp, e.efrom = .eport fn fp ∧ e.eto = .eport tn tp := by
    unfold isBetweenPorts at hbp
    cases hef : e.efrom with
    | enode _ => rw [hef] at hbp; cases hbp
    | eport fn fp =>
      cases het : e.eto with
      | enode _ => rw [hef, het] at hbp; cases hbp
      | eport tn tp => exact ⟨fn, fp, tn, tp, rfl, rfl⟩
  have hfn : fn = GNode.id c := by
    unfold isFromB at hfr
    rw [hef] at hfr
    simpa using hfr
  unfold wfEdgeAt at hwfe
  rw [if_pos (by simp [hlayer]), hef, het] at hwfe
  simp only [Bool.and_eq_true, Bool.or_eq_true, List.any_eq_true] at hwfe
  obtain ⟨q, hfindq⟩ :
      ∃ q, (GNode.ports c).find? (fun r => r.port == fp) = some q := by
    rcases hwfe.1 with ⟨hroot, hpk⟩ | ⟨c', hc', hcEq⟩
    · simp only [beq_iff_eq] at hroot
      have hmc : m = c := nodesDeep_id_inj hnd hm hcd (by rw [← hroot]; exact hfn)
      rw [hmc] at hpk
      unfold portKindIs at hpk
      cases hfind : (GNode.ports c).find? (fun r => r.port == fp) with
      | none => rw [hfind] at hpk; cases hpk
      | some q => exact ⟨q, rfl⟩
    · simp only [Bool.and_eq_true, beq_iff_eq] at hcEq
      obtain ⟨hcid', hpk⟩ := hcEq
      have hc'c : c' = c := nodesDeep_id_inj hnd (mem_nodesDeep_trans hm hc')
        hcd (by rw [hcid']; exact hfn)
      rw [hc'c] at hpk
      unfold portKindIs at hpk
      cases hfind : (GNode.ports c).find? (fun r => r.port == fp) with
      | none => rw [hfind] at hpk; cases hpk
      | some q => exact ⟨q, rfl⟩
  have hnodeL2 : nodeL (.byPort fn fp) g = .ok c := by
    rw [hfn]
    exact nodeL_byPort hnd hcd fp
  have hresolve : portOfEnd e.efrom g = .ok q := by
    simp only [hef, portOfEnd, portT, hnodeL2, nodePort, hfindq]
  have hval : outValB c e = (q.kind == "output") := by
    unfold outValB
    simp only [hef]
    unfold childOutPred portKindIs
    rw [hfindq]
    simp [hfr, hbp, hlayer]
  simp only [hresolve]
  rw [hval]

/-- On the parent scope's own edges the refined value agrees with the
plain predicate: a matching edge provably ends at the child's input
port. -/
theorem inValB_eq_on_scope {g : GNode} (hwf : wfGraph g = true)
    {p : GNode} (hp : p ∈ nodesDeep g) {c : GNode} (hc : c ∈ nodes p)
    {e : Edge} (he : e ∈ GNode.edges p) :
    inValB c e = childInPred (GNode.id c) e := by
  have hnd := wfIds_nodup (wfGraph_ids hwf)
  by_cases hP : childInPred (GNode.id c) e = true
  swap
  · have hPf : childInPred (GNode.id c) e = false := by
      simpa using hP
    rw [hPf]
    unfold inValB
    cases het : e.eto with
    | enode n => simp [het]
    | eport tn tp =>
      simp only [het]
      rw [hPf]
      simp
  · rw [hP]
    have hP' := hP
    unfold childInPred at hP'
    simp only [Bool.and_eq_true, beq_iff_eq] at hP'
    obtain ⟨⟨hpt, hlayer⟩, hbp⟩ := hP'
    obtain ⟨fn, fp, tn, tp, hef, het⟩ :
        ∃ fn fp tn tp, e.efrom = .eport fn fp ∧ e.eto = .eport tn tp := by
      unfold isBetweenPorts at hbp
      cases hef : e.efrom with
      | enode _ => rw [hef] at hbp; cases hbp
      | eport fn fp =>
        cases het : e.eto with
        | enode _ => rw [hef, het] at hbp; cases hbp
        | eport tn tp => exact ⟨fn, fp, tn, tp, rfl, rfl⟩
    have htn : tn = GNode.id c := by
      unfold pointsToB at hpt
      rw [het] at hpt
      simpa using hpt
    have hwfe := wfEdges_root (wfEdgesAux_at (wfGraph_edges hwf) hp) e he
    unfold wfEdgeAt at hwfe
    rw [if_pos (by simp [hlayer]), hef, het] at hwfe
    simp only [Bool.and_eq_true, Bool.or_eq_true, List.any_eq_true] at hwfe
    rcases hwfe.2 with ⟨hroot, _⟩ | ⟨c', hc', hcEq⟩
    · simp only [beq_iff_eq] at hroot
      exact absurd (show GNode.id c = GNode.id p by rw [← htn]; exact hroot)
        (scope_child_ne_id hnd hp hc)
    · simp only [Bool.and_eq_true, beq_iff_eq] at hcEq
      obtain ⟨hcid', hpk⟩ := hcEq
      have hc'c : c' = c := nodesDeep_id_inj hnd (mem_nodesDeep_trans hp hc')
        (mem_nodesDeep_trans hp hc) (by rw [hcid']; exact htn)
      rw [hc'c] at hpk
      unfold inValB
      simp only [het]
      simp [hP, hpk]

/-- On the parent scope's own edges the refined out-value agrees with the
plain predicate. -/
theorem outValB_eq_on_scope {g : GNode} (hwf : wfGraph g = true)
    {p : GNode} (hp : p ∈ nodesDeep g) {c : GNode} (hc : c ∈ nodes p)
    {e : Edge} (he : e ∈ GNode.edges p) :
    outValB c e = childOutPred (GNode.id c) e := by
  have hnd := wfIds_nodup (wfGraph_ids hwf)
  by_cases hP : childOutPred (GNode.id c) e = true
  swap
  · have hPf : childOutPred (GNode.id c) e = false := by
      simpa using hP
    rw [hPf]
    unfold outValB
    cases hef : e.efrom with
    | enode n => simp [hef]
    | eport fn fp =>
      simp only [hef]
      rw [hPf]
      simp
  · rw [hP]
    have hP' := hP
    unfold childOutPred at hP'
    simp only [Bool.and_eq_true, beq_iff_eq] at hP'
    obtain ⟨⟨hfr, hlayer⟩, hbp⟩ := hP'
    obtain ⟨fn, fp, tn, tp, hef, het⟩ :
        ∃ fn fp tn tp, e.efrom = .eport fn fp ∧ e.eto = .eport tn tp := by
      unfold isBetweenPorts at hbp
      cases hef : e.efrom with
      | enode _ => rw [hef] at hbp; cases hbp
      | eport fn fp =>
        cases het : e.eto with
        | enode _ => rw [hef, het] at hbp; cases hbp
        | eport tn tp => exact ⟨fn, fp, tn, tp, rfl, rfl⟩
    have hfn : fn = GNode.id c := by
      unfold isFromB at hfr
      rw [hef] at hfr
      simpa using hfr
    have hwfe := wfEdges_root (wfEdgesAux_at (wfGraph_edges hwf) hp) e he
    unfold wfEdgeAt at hwfe
    rw [if_pos (by simp [hlayer]), hef, het] at hwfe
    simp only [Bool.and_eq_true, Bool.or_eq_true, List.any_eq_true] at hwfe
    rcases hwfe.1 with ⟨hroot, _⟩ | ⟨c', hc', hcEq⟩
    · simp only [beq_iff_eq] at hroot
      exact absurd (show GNode.id c = GNode.id p by rw [← hfn]; exact hroot)
        (scope_child_ne_id hnd hp hc)
    · simp only [Bool.and_eq_true, beq_iff_eq] at hcEq
      obtain ⟨hcid', hpk⟩ := hcEq
      have hc'c : c' = c := nodesDeep_id_inj hnd (mem_nodesDeep_trans hp hc')
        (mem_nodesDeep_trans hp hc) (by rw [hcid']; exact hfn)
      rw [hc'c] at hpk
      unfold outValB
      simp only [hef]
      simp [hP, hpk]

/-- No scope other than the parent holds an edge the refined in-value
accepts. -/
theorem inValB_nil_scope {g : GNode} (hwf : wfGraph g = true)
    {p : GNode} (hp : p ∈ nodesDeep g) {c : GNode} (hc : c ∈ nodes p)
    {m : GNode} (hm : m ∈ nodesDeep g) (hne : GNode.id m ≠ GNode.id p) :
    (GNode.edges m).filter (inValB c) = [] := by
  have hnd := wfIds_nodup (wfGraph_ids hwf)
  have hpaths := wfGraph_paths hwf
  obtain ⟨gp, hgp⟩ := wfPaths_rootPath hpaths
  rw [List.filter_eq_nil_iff]
  intro e hem hval
  cases het : e.eto with
  | enode n =>
    simp only [inValB, het] at hval
    exact absurd hval (by decide)
  | eport tn tp =>
    simp only [inValB, het, Bool.and_eq_true] at hval
    obtain ⟨hP, hpk_in⟩ := hval
    have hP' := hP
    unfold childInPred at hP'
    simp only [Bool.and_eq_true, beq_iff_eq] at hP'
    obtain ⟨⟨hpt, hlayer⟩, hbp⟩ := hP'
    have htn : tn = GNode.id c := by
      unfold pointsToB at hpt
      rw [het] at hpt
      simpa using hpt
    obtain ⟨fn, fp, hef⟩ : ∃ fn fp, e.efrom = .eport fn fp := by
      unfold isBetweenPorts at hbp
      cases hef : e.efrom with
      | enode _ => rw [hef] at hbp; cases hbp
      | eport fn fp => exact ⟨fn, fp, rfl⟩
    have hwfe := wfEdges_root (wfEdgesAux_at (wfGraph_edges hwf) hm) e hem
    unfold wfEdgeAt at hwfe
    rw [if_pos (by simp [hlayer]), hef, het] at hwfe
    simp only [Bool.and_eq_true, Bool.or_eq_true, List.any_eq_true] at hwfe
    rcases hwfe.2 with ⟨hroot, hpkm⟩ | ⟨c', hc', hcEq⟩
    · simp only [beq_iff_eq] at hroot
      have hmc : m = c := nodesDeep_id_inj hnd hm (mem_nodesDeep_trans hp hc)
        (by rw [← hroot]; exact htn)
      rw [hmc] at hpkm
      exact portKind_unique hpk_in hpkm
    · simp only [Bool.and_eq_true, beq_iff_eq] at hcEq
      obtain ⟨hcid', _⟩ := hcEq
      have hc'c : c' = c := nodesDeep_id_inj hnd (mem_nodesDeep_trans hm hc')
        (mem_nodesDeep_trans hp hc) (by rw [hcid']; exact htn)
      have hpm : p = m := parent_unique hgp hpaths hnd hp hm hc (hc'c ▸ hc')
      exact hne (congrArg GNode.id hpm).symm

/-- No scope other than the parent holds an edge the refined out-value
accepts. -/
theorem outValB_nil_scope {g : GNode} (hwf : wfGraph g = true)
    {p : GNode} (hp : p ∈ nodesDeep g) {c : GNode} (hc : c ∈ nodes p)
    {m : GNode} (hm : m ∈ nodesDeep g) (hne : GNode.id m ≠ GNode.id p) :
    (GNode.edges m).filter (outValB c) = [] := by
  have hnd := wfIds_nodup (wfGraph_ids hwf)
  have hpaths := wfGraph_paths hwf
  obtain ⟨gp, hgp⟩ := wfPaths_rootPath hpaths
  rw [List.filter_eq_nil_iff]
  intro e hem hval
  cases hef : e.efrom with
  | enode n =>
    simp only [outValB, hef] at hval
    exact absurd hval (by decide)
  | eport fn fp =>
    simp only [outValB, hef, Bool.and_eq_true] at hval
    obtain ⟨hP, hpk_out⟩ := hval
    have hP' := hP
    unfold childOutPred at hP'
    simp only [Bool.and_eq_true, beq_iff_eq] at hP'
    obtain ⟨⟨hfr, hlayer⟩, hbp⟩ := hP'
    have hfn : fn = GNode.id c := by
      unfold isFromB at hfr
      rw [hef] at hfr
      simpa using hfr
    obtain ⟨tn, tp, het⟩ : ∃ tn tp, e.eto = .eport tn tp := by
      unfold isBetweenPorts at hbp
      rw [hef] at hbp
      cases het : e.eto with
      | enode _ => rw [het] at hbp; cases hbp
      | eport tn tp => exact ⟨tn, tp, rfl⟩
    have hwfe := wfEdges_root (wfEdgesAux_at (wfGraph_edges hwf) hm) e hem
    unfold wfEdgeAt at hwfe
    rw [if_pos (by simp [hlayer]), hef, het] at hwfe
    simp only [Bool.and_eq_true, Bool.or_eq_true, List.any_eq_true] at hwfe
    rcases hwfe.1 with ⟨hroot, hpkm⟩ | ⟨c', hc', hcEq⟩
    · simp only [beq_iff_eq] at hroot
      have hmc : m = c := nodesDeep_id_inj hnd hm (mem_nodesDeep_trans hp hc)
        (by rw [← hroot]; exact hfn)
      rw [hmc] at hpkm
      exact portKind_unique hpkm hpk_out
    · simp only [Bool.and_eq_true, beq_iff_eq] at hcEq
      obtain ⟨hcid', _⟩ := hcEq
      have hc'c : c' = c := nodesDeep_id_inj hnd (mem_nodesDeep_trans hm hc')
        (mem_nodesDeep_trans hp hc) (by rw [hcid']; exact hfn)
      have hpm : p = m := parent_unique hgp hpaths hnd hp hm hc (hc'c ▸ hc')
      exact hne (congrArg GNode.id hpm).symm

/-- No scope other than the parent holds an edge ending at an input
boundary port of the child. -/
theorem portInPred_nil_parent {g : GNode} (hwf : wfGraph g = true)
    {p : GNode} (hp : p ∈ nodesDeep g) {c : GNode} (hc : c ∈ nodes p)
    {pname : String} {q : Port}
    (hfind : (GNode.ports c).find? (fun r => r.port == pname) = some q)
    (hkind : q.kind = "input") {m : GNode} (hm : m ∈ nodesDeep g)
    (hne : GNode.id m ≠ GNode.id p) :
    (GNode.edges m).filter (portInPred (GNode.id c) pname) = [] := by
  have hnd := wfIds_nodup (wfGraph_ids hwf)
  have hpaths := wfGraph_paths hwf
  obtain ⟨gp, hgp⟩ := wfPaths_rootPath hpaths
  have hkc : portKindIs c pname "input" = true := by
    unfold portKindIs
    rw [hfind]
    simp [hkind]
  rw [List.filter_eq_nil_iff]
  intro e hem hP
  unfold portInPred at hP
  simp only [Bool.and_eq_true, beq_iff_eq] at hP
  obtain ⟨⟨hpt, hlayer⟩, hbp⟩ := hP
  have het := pointsToB_byPort_eq hpt
  obtain ⟨fn, fp, hef⟩ : ∃ fn fp, e.efrom = .eport fn fp := by
    unfold isBetweenPorts at hbp
    cases hef : e.efrom with
    | enode _ => rw [hef] at hbp; cases hbp
    | eport fn fp => exact ⟨fn, fp, rfl⟩
  have hwfe := wfEdges_root (wfEdgesAux_at (wfGraph_edges hwf) hm) e hem
  unfold wfEdgeAt at hwfe
  rw [if_pos (by simp [hlayer]), hef, het] at hwfe
  simp only [Bool.and_eq_true, Bool.or_eq_true, List.any_eq_true] at hwfe
  rcases hwfe.2 with ⟨hroot, hpkm⟩ | ⟨c', hc', hcEq⟩
  · simp only [beq_iff_eq] at hroot
    have hmc : m = c := nodesDeep_id_inj hnd hm (mem_nodesDeep_trans hp hc)
      hroot.symm
    rw [hmc] at hpkm
    exact portKind_unique hkc hpkm
  · simp only [Bool.and_eq_true, beq_iff_eq] at hcEq
    obtain ⟨hcid', _⟩ := hcEq
    have hc'c : c' = c := nodesDeep_id_inj hnd (mem_nodesDeep_trans hm hc')
      (mem_nodesDeep_trans hp hc) hcid'
    have hpm : p = m := parent_unique hgp hpaths hnd hp hm hc (hc'c ▸ hc')
    exact hne (congrArg GNode.id hpm).symm

/-- No scope other than the child itself holds an edge ending at an
output boundary port of the child. -/
theorem portInPred_nil_nonself {g : GNode} (hwf : wfGraph g = true)
    {p : GNode} (hp : p ∈ nodesDeep g) {c : GNode} (hc : c ∈ nodes p)
    {pname : String} {q : Port}
    (hfind : (GNode.ports c).find? (fun r => r.port == pname) = some q)
    (hkind : q.kind = "output") {m : GNode} (hm : m ∈ nodesDeep g)
    (hne : GNode.id m ≠ GNode.id c) :
    (GNode.edges m).filter (portInPred (GNode.id c) pname) = [] := by
  have hnd := wfIds_nodup (wfGraph_ids hwf)
  have hkc : portKindIs c pname "output" = true := by
    unfold portKindIs
    rw [hfind]
    simp [hkind]
  rw [List.filter_eq_nil_iff]
  intro e hem hP
  unfold portInPred at hP
  simp only [Bool.and_eq_true, beq_iff_eq] at hP
  obtain ⟨⟨hpt, hlayer⟩, hbp⟩ := hP
  have het := pointsToB_byPort_eq hpt
  obtain ⟨fn, fp, hef⟩ : ∃ fn fp, e.efrom = .eport fn fp := by
    unfold isBetweenPorts at hbp
    cases hef : e.efrom with
    | enode _ => rw [hef] at hbp; cases hbp
    | eport fn fp => exact ⟨fn, fp, rfl⟩
  have hwfe := wfEdges_root (wfEdgesAux_at (wfGraph_edges hwf) hm) e hem
  unfold wfEdgeAt at hwfe
  rw [if_pos (by simp [hlayer]), hef, het] at hwfe
  simp only [Bool.and_eq_true, Bool.or_eq_true, List.any_eq_true] at hwfe
  rcases hwfe.2 with ⟨hroot, hpkm⟩ | ⟨c', hc', hcEq⟩
  · simp only [beq_iff_eq] at hroot
    exact hne hroot.symm
  · simp only [Bool.and_eq_true, beq_iff_eq] at hcEq
    obtain ⟨hcid', hpkm⟩ := hcEq
    have hc'c : c' = c := nodesDeep_id_inj hnd (mem_nodesDeep_trans hm hc')
      (mem_nodesDeep_trans hp hc) hcid'
    rw [hc'c] at hpkm
    exact portKind_unique hpkm hkc

/-- No scope other than the parent holds an edge starting at an output
boundary port of the child. -/
theorem portOutPred_nil_parent {g : GNode} (hwf : wfGraph g = true)
    {p : GNode} (hp : p ∈ nodesDeep g) {c : GNode} (hc : c ∈ nodes p)
    {pname : String} {q : Port}
    (hfind : (GNode.ports c).find? (fun r => r.port == pname) = some q)
    (hkind : q.kind = "output") {m : GNode} (hm : m ∈ nodesDeep g)
    (hne : GNode.id m ≠ GNode.id p) :
    (GNode.edges m).filter (portOutPred (GNode.id c) pname) = [] := by
  have hnd := wfIds_nodup (wfGraph_ids hwf)
  have hpaths := wfGraph_paths hwf
  obtain ⟨gp, hgp⟩ := wfPaths_rootPath hpaths
  have hkc : portKindIs c pname "output" = true := by
    unfold portKindIs
    rw [hfind]
    simp [hkind]
  rw [List.filter_eq_nil_iff]
  intro e hem hP
  unfold portOutPred at hP
  simp only [Bool.and_eq_true, beq_iff_eq] at hP
  obtain ⟨⟨hfr, hlayer⟩, hbp⟩ := hP
  have hef := isFromB_byPort_eq hfr
  obtain ⟨tn, tp, het⟩ : ∃ tn tp, e.eto = .eport tn tp := by
    unfold isBetweenPorts at hbp
    rw [hef] at hbp
    cases het : e.eto with
    | enode _ => rw [het] at hbp; cases hbp
    | eport tn tp => exact ⟨tn, tp, rfl⟩
  have hwfe := wfEdges_root (wfEdgesAux_at (wfGraph_edges hwf) hm) e hem
  unfold wfEdgeAt at hwfe
  rw [if_pos (by simp [hlayer]), hef, het] at hwfe
  simp only [Bool.and_eq_true, Bool.or_eq_true, List.any_eq_true] at hwfe
  rcases hwfe.1 with ⟨hroot, hpkm⟩ | ⟨c', hc', hcEq⟩
  · simp only [beq_iff_eq] at hroot
    have hmc : m = c := nodesDeep_id_inj hnd hm (mem_nodesDeep_trans hp hc)
      hroot.symm
    rw [hmc] at hpkm
    exact portKind_unique hpkm hkc
  · simp only [Bool.and_eq_true, beq_iff_eq] at hcEq
    obtain ⟨hcid', _⟩ := hcEq
    have hc'c : c' = c := nodesDeep_id_inj hnd (mem_nodesDeep_trans hm hc')
      (mem_nodesDeep_trans hp hc) hcid'
    have hpm : p = m := parent_unique hgp hpaths hnd hp hm hc (hc'c ▸ hc')
    exact hne (congrArg GNode.id hpm).symm

/-- No scope other than the child itself holds an edge starting at an
input boundary port of the child. -/
theorem portOutPred_nil_nonself {g : GNode} (hwf : wfGraph g = true)
    {p : GNode} (hp : p ∈ nodesDeep g) {c : GNode} (hc : c ∈ nodes p)
    {pname : String} {q : Port}
    (hfind : (GNode.ports c).find? (fun r => r.port == pname) = some q)
    (hkind : q.kind = "input") {m : GNode} (hm : m ∈ nodesDeep g)
    (hne : GNode.id m ≠ GNode.id c) :
    (GNode.edges m).filter (portOutPred (GNode.id c) pname) = [] := by
  have hnd := wfIds_nodup (wfGraph_ids hwf)
  have hkc : portKindIs c pname "input" = true := by
    unfold portKindIs
    rw [hfind]
    simp [hkind]
  rw [List.filter_eq_nil_iff]
  intro e hem hP
  unfold portOutPred at hP
  simp only [Bool.and_eq_true, beq_iff_eq] at hP
  obtain ⟨⟨hfr, hlayer⟩, hbp⟩ := hP
  have hef := isFromB_byPort_eq hfr
  obtain ⟨tn, tp, het⟩ : ∃ tn tp, e.eto = .eport tn tp := by
    unfold isBetweenPorts at hbp
    rw [hef] at hbp
    cases het : e.eto with
    | enode _ => rw [het] at hbp; cases hbp
    | eport tn tp => exact ⟨tn, tp, rfl⟩
  have hwfe := wfEdges_root (wfEdgesAux_at (wfGraph_edges hwf) hm) e hem
  unfold wfEdgeAt at hwfe
  rw [if_pos (by simp [hlayer]), hef, het] at hwfe
  simp only [Bool.and_eq_true, Bool.or_eq_true, List.any_eq_true] at hwfe
  rcases hwfe.1 with ⟨hroot, hpkm⟩ | ⟨c', hc', hcEq⟩
  · simp only [beq_iff_eq] at hroot
    exact hne hroot.symm
  · simp only [Bool.and_eq_true, beq_iff_eq] at hcEq
    obtain ⟨hcid', hpkm⟩ := hcEq
    have hc'c : c' = c := nodesDeep_id_inj hnd (mem_nodesDeep_trans hm hc')
      (mem_nodesDeep_trans hp hc) hcid'
    rw [hc'c] at hpkm
    exact portKind_unique hkc hpkm

/-- A plain filter over a subtree's deep edge enumeration vanishes when
it vanishes on every scope of the subtree. -/
theorem filter_edgesDeep_nil {P : Edge → Bool} {n : GNode}
    (h : ∀ m ∈ nodesDeep n, (GNode.edges m).filter P = []) :
    (edgesDeep n).filter P = [] := by
  rw [edgesDeep_decomp, List.filter_append]
  rw [h n (self_mem_nodesDeep n)]
  have h2 : (edgesDeepList (nodes n)).filter P = [] := by
    apply filter_edgesDeepList_nil
    intro m hm
    rw [← nodesDeepInternal_decomp] at hm
    exact h m (mem_nodesDeep_of_internal hm)
  rw [h2]
  rfl

mutual

/-- When a filter is rejected at every scope whose id differs from a
distinguished scope `p` of the tree, filtering the deep edge enumeration
equals filtering `p`'s own list. -/
theorem filter_edgesDeep_scope {P : Edge → Bool} :
    ∀ (n : GNode) (p : GNode),
    ((nodesDeep n).map GNode.id).Nodup →
    p ∈ nodesDeep n →
    (∀ m ∈ nodesDeep n, GNode.id m ≠ GNode.id p →
      (GNode.edges m).filter P = []) →
    (edgesDeep n).filter P = (GNode.edges p).filter P := by
  intro n p hnd hp hnil
  cases n with
  | mk i nm ps a ch es co mt pa =>
    cases ch with
    | none =>
      have hp' : p = GNode.mk i nm ps a none es co mt pa := by
        simpa [nodesDeep, nodesDeepInternal] using hp
      rw [hp']
      rfl
    | some cs =>
      have hpmem := hp
      simp only [nodesDeep, nodesDeepInternal, List.mem_append,
        List.mem_singleton] at hp
      rcases hp with hpi | hpr
      · -- p lives strictly below the root of this subtree
        have hpi' : p ∈ nodesDeepInternal (GNode.mk i nm ps a (some cs) es co mt pa) := by
          simp only [nodesDeepInternal]
          exact List.mem_append.mpr hpi
        have hne_root : GNode.id (GNode.mk i nm ps a (some cs) es co mt pa)
            ≠ GNode.id p :=
          (child_id_ne_root hnd hpi').symm
        have hroot_nil : es.filter P = [] :=
          hnil _ (self_mem_nodesDeep _) hne_root
        have hnd2 : ((cs ++ nodesDeepList cs).map GNode.id).Nodup := by
          have heq : (nodesDeep (GNode.mk i nm ps a (some cs) es co mt pa)).map
              GNode.id = (cs ++ nodesDeepList cs).map GNode.id ++ [i] := by
            simp [nodesDeep, nodesDeepInternal, GNode.id]
          rw [heq] at hnd
          exact (List.nodup_append.mp hnd).1
        have hmain := filter_edgesDeepList_scope cs p hnd2
          (List.mem_append.mpr hpi)
          (fun m hm hne => hnil m (by
            simp only [nodesDeep, nodesDeepInternal, List.mem_append]
            exact Or.inl (List.mem_append.mp hm)) hne)
        show (es ++ edgesDeepList cs).filter P = (GNode.edges p).filter P
        rw [List.filter_append, hroot_nil, hmain]
        rfl
      · -- p is the root of this subtree
        rw [hpr]
        have hnil2 : (edgesDeepList cs).filter P = [] := by
          apply filter_edgesDeepList_nil
          intro m hm
          have hmi : m ∈ nodesDeepInternal (GNode.mk i nm ps a (some cs) es co mt pa) := by
            simp only [nodesDeepInternal]
            exact hm
          refine hnil m (mem_nodesDeep_of_internal hmi) ?_
          rw [hpr]
          exact child_id_ne_root hnd hmi
        show (es ++ edgesDeepList cs).filter P
          = (GNode.edges (GNode.mk i nm ps a (some cs) es co mt pa)).filter P
        rw [List.filter_append, hnil2]
        simp [GNode.edges]

theorem filter_edgesDeepList_scope {P : Edge → Bool} :
    ∀ (cs : List GNode) (p : GNode),
    ((cs ++ nodesDeepList cs).map GNode.id).Nodup →
    p ∈ cs ++ nodesDeepList cs →
    (∀ m ∈ cs ++ nodesDeepList cs, GNode.id m ≠ GNode.id p →
      (GNode.edges m).filter P = []) →
    (edgesDeepList cs).filter P = (GNode.edges p).filter P := by
  intro cs p hnd hp hnil
  cases cs with
  | nil => simp [nodesDeepList] at hp
  | cons c0 rest =>
    have hLcons : nodesDeepList (c0 :: rest)
        = nodesDeepInternal c0 ++ nodesDeepList rest := rfl
    -- unpack the local enumeration's id nodup
    simp only [hLcons, List.cons_append, List.map_cons, List.map_append,
      List.nodup_cons] at hnd
    obtain ⟨h0, htail⟩ := hnd
    rw [List.nodup_append] at htail
    obtain ⟨hR, hIL, hdRIL⟩ := htail
    rw [List.nodup_append] at hIL
    obtain ⟨hI, hL, hdIL⟩ := hIL
    -- memberships of the four segments
    have hmemE : ∀ m, m ∈ (c0 :: rest) ++ nodesDeepList (c0 :: rest)
        ↔ (m = c0 ∨ m ∈ rest ∨ m ∈ nodesDeepInternal c0
            ∨ m ∈ nodesDeepList rest) := by
      intro m
      simp only [hLcons, List.cons_append, List.mem_cons, List.mem_append]
    rw [hmemE] at hp
    have hnil' : ∀ m, (m = c0 ∨ m ∈ rest ∨ m ∈ nodesDeepInternal c0
        ∨ m ∈ nodesDeepList rest) → GNode.id m ≠ GNode.id p →
        (GNode.edges m).filter P = [] := by
      intro m hm hne
      exact hnil m ((hmemE m).mpr hm) hne
    show (edgesDeep c0 ++ edgesDeepList rest).filter P
      = (GNode.edges p).filter P
    rw [List.filter_append]
    by_cases hploc : p = c0 ∨ p ∈ nodesDeepInternal c0
    · -- p is in c0's subtree
      have hidp : GNode.id p ∈ (nodesDeepInternal c0).map GNode.id
          ∨ GNode.id p = GNode.id c0 := by
        rcases hploc with h | h
        · exact Or.inr (by rw [h])
        · exact Or.inl (List.mem_map_of_mem GNode.id h)
      have hnd0 : ((nodesDeep c0).map GNode.id).Nodup := by
        have : (nodesDeep c0).map GNode.id
            = (nodesDeepInternal c0).map GNode.id ++ [GNode.id c0] := by
          simp [nodesDeep]
        rw [this, List.nodup_append]
        refine ⟨hI, List.nodup_singleton _, ?_⟩
        intro x hx hx2
        rw [List.mem_singleton] at hx2
        subst hx2
        exact h0 (List.mem_append.mpr (Or.inr (List.mem_append.mpr (Or.inl hx))))
      have hp0 : p ∈ nodesDeep c0 := by
        simp only [nodesDeep, List.mem_append, List.mem_singleton]
        tauto
      have hmain : (edgesDeep c0).filter P = (GNode.edges p).filter P := by
        apply filter_edgesDeep_scope c0 p hnd0 hp0
        intro m hm hne
        simp only [nodesDeep, List.mem_append, List.mem_singleton] at hm
        rcases hm with hm | hm
        · exact hnil' m (Or.inr (Or.inr (Or.inl hm))) hne
        · exact hnil' m (Or.inl hm) hne
      have hrest_nil : (edgesDeepList rest).filter P = [] := by
        apply filter_edgesDeepList_nil
        intro m hm
        rcases List.mem_append.mp hm with hm | hm
        · refine hnil' m (Or.inr (Or.inl hm)) ?_
          intro hid
          rcases hidp with hidp | hidp
          · exact hdRIL (List.mem_map_of_mem GNode.id hm)
              (List.mem_append.mpr (Or.inl (hid ▸ hidp)))
          · exact h0 (by
              rw [← hid] at hidp
              exact List.mem_append.mpr (Or.inl (hidp ▸ List.mem_map_of_mem GNode.id hm)))
        · refine hnil' m (Or.inr (Or.inr (Or.inr hm))) ?_
          intro hid
          rcases hidp with hidp | hidp
          · exact hdIL (hid ▸ hidp) (List.mem_map_of_mem GNode.id hm)
          · exact h0 (by
              rw [← hid] at hidp
              exact List.mem_append.mpr (Or.inr (List.mem_append.mpr
                (Or.inr (hidp ▸ List.mem_map_of_mem GNode.id hm)))))
      rw [hmain, hrest_nil]
      simp
    · -- p is in the rest
      push_neg at hploc
      obtain ⟨hpne, hpnotI⟩ := hploc
      have hpR : p ∈ rest ∨ p ∈ nodesDeepList rest := by
        rcases hp with h | h | h | h
        · exact absurd h hpne
        · exact Or.inl h
        · exact absurd h hpnotI
        · exact Or.inr h
      have hidpR : GNode.id p ∈ (rest.map GNode.id)
          ∨ GNode.id p ∈ (nodesDeepList rest).map GNode.id := by
        rcases hpR with h | h
        · exact Or.inl (List.mem_map_of_mem GNode.id h)
        · exact Or.inr (List.mem_map_of_mem GNode.id h)
      have hleft_nil : (edgesDeep c0).filter P = [] := by
        apply filter_edgesDeep_nil
        intro m hm
        simp only [nodesDeep, List.mem_append, List.mem_singleton] at hm
        rcases hm with hm | hm
        · refine hnil' m (Or.inr (Or.inr (Or.inl hm))) ?_
          intro hid
          rcases hidpR with hidp | hidp
          · exact hdRIL hidp (List.mem_append.mpr
              (Or.inl (hid ▸ List.mem_map_of_mem GNode.id hm)))
          · exact hdIL (hid ▸ List.mem_map_of_mem GNode.id hm) hidp
        · subst hm
          refine hnil' m (Or.inl rfl) ?_
          intro hid
          apply h0
          rcases hidpR with hidp | hidp
          · exact List.mem_append.mpr (Or.inl (hid ▸ hidp))
          · exact List.mem_append.mpr (Or.inr (List.mem_append.mpr
              (Or.inr (hid ▸ hidp))))
      have hndR : ((rest ++ nodesDeepList rest).map GNode.id).Nodup := by
        rw [List.map_append, List.nodup_append]
        refine ⟨hR, hL, ?_⟩
        intro x hx hx2
        exact hdRIL hx (List.mem_append.mpr (Or.inr hx2))
      have hmain := filter_edgesDeepList_scope rest p hndR
        (List.mem_append.mpr hpR)
        (fun m hm hne => by
          rcases List.mem_append.mp hm with hm | hm
          · exact hnil' m (Or.inr (Or.inl hm)) hne
          · exact hnil' m (Or.inr (Or.inr (Or.inr hm))) hne)
      rw [hleft_nil, hmain]
      simp

end

/-- The ingoing query of any node location scans exactly the containing
scope's own edge list. -/
theorem inIncidents_scope (g : GNode) (hwf : wfGraph g = true)
    {p : GNode} (hp : p ∈ nodesDeep g) {c : GNode} (hc : c ∈ nodes p) :
    inIncidents (.byId (GNode.id c)) g ["dataflow"] false
      = .ok ((GNode.edges p).filter (childInPred (GNode.id c))) := by
  have hnd := wfIds_nodup (wfGraph_ids hwf)
  have hcd := mem_nodesDeep_trans hp hc
  have hnodeL := nodeL_byId hnd hcd
  have hpar := parentL_scope hwf hp hc
  have hfil : filterE (inFilterFn (.byId (GNode.id c)) g ["dataflow"] false)
      (edgesOf p) = .ok ((GNode.edges p).filter (childInPred (GNode.id c))) := by
    have h1 : filterE (inFilterFn (.byId (GNode.id c)) g ["dataflow"] false)
        (edgesOf p) = .ok ((GNode.edges p).filter (inValB c)) :=
      filterE_eq_filter (fun e he => inFilterFn_total g hwf hcd hp he)
    rw [h1]
    congr 1
    exact List.filter_congr (fun e he => inValB_eq_on_scope hwf hp hc he)
  unfold inIncidents
  rw [if_pos (by decide)]
  simp only [hnodeL, hasPortT, Bool.false_eq_true, if_false, hpar,
    Option.getD_some]
  exact hfil

/-- The outgoing query of any node location scans exactly the containing
scope's own edge list. -/
theorem outIncidents_scope (g : GNode) (hwf : wfGraph g = true)
    {p : GNode} (hp : p ∈ nodesDeep g) {c : GNode} (hc : c ∈ nodes p) :
    outIncidents (.byId (GNode.id c)) g ["dataflow"] false
      = .ok ((GNode.edges p).filter (childOutPred (GNode.id c))) := by
  have hnd := wfIds_nodup (wfGraph_ids hwf)
  have hcd := mem_nodesDeep_trans hp hc
  have hnodeL := nodeL_byId hnd hcd
  have hpar := parentL_scope hwf hp hc
  have hfil : filterE (outFilterFn (.byId (GNode.id c)) g ["dataflow"] false)
      (edgesOf p) = .ok ((GNode.edges p).filter (childOutPred (GNode.id c))) := by
    have h1 : filterE (outFilterFn (.byId (GNode.id c)) g ["dataflow"] false)
        (edgesOf p) = .ok ((GNode.edges p).filter (outValB c)) :=
      filterE_eq_filter (fun e he => outFilterFn_total g hwf hcd hp he)
    rw [h1]
    congr 1
    exact List.filter_congr (fun e he => outValB_eq_on_scope hwf hp hc he)
  unfold outIncidents
  rw [if_pos (by decide)]
  simp only [hnodeL, hasPortT, Bool.false_eq_true, if_false, hpar,
    Option.getD_some]
  exact hfil

/-- The deep scan with the in-filter of any node location returns the
containing scope's matches: every other scope's edges are rejected. -/
theorem inIncidents_scope_deep (g : GNode) (hwf : wfGraph g = true)
    {p : GNode} (hp : p ∈ nodesDeep g) {c : GNode} (hc : c ∈ nodes p) :
    filterE (inFilterFn (.byId (GNode.id c)) g ["dataflow"] false)
        (edgesDeep g)
      = .ok ((GNode.edges p).filter (childInPred (GNode.id c))) := by
  have hnd := wfIds_nodup (wfGraph_ids hwf)
  have hcd := mem_nodesDeep_trans hp hc
  have htotal : filterE (inFilterFn (.byId (GNode.id c)) g ["dataflow"] false)
      (edgesDeep g) = .ok ((edgesDeep g).filter (inValB c)) :=
    filterE_eq_filter (fun e he => by
      rcases edgesDeep_mem he with h | ⟨m, hm, hem⟩
      · exact inFilterFn_total g hwf hcd (self_mem_nodesDeep g) h
      · exact inFilterFn_total g hwf hcd (mem_nodesDeep_of_internal hm) hem)
  rw [htotal]
  congr 1
  rw [filter_edgesDeep_scope g p hnd hp
    (fun m hm hne => inValB_nil_scope hwf hp hc hm hne)]
  exact List.filter_congr (fun e he => inValB_eq_on_scope hwf hp hc he)

/-- The deep scan with the out-filter of any node location returns the
containing scope's matches. -/
theorem outIncidents_scope_deep (g : GNode) (hwf : wfGraph g = true)
    {p : GNode} (hp : p ∈ nodesDeep g) {c : GNode} (hc : c ∈ nodes p) :
    filterE (outFilterFn (.byId (GNode.id c)) g ["dataflow"] false)
        (edgesDeep g)
      = .ok ((GNode.edges p).filter (childOutPred (GNode.id c))) := by
  have hnd := wfIds_nodup (wfGraph_ids hwf)
  have hcd := mem_nodesDeep_trans hp hc
  have htotal : filterE (outFilterFn (.byId (GNode.id c)) g ["dataflow"] false)
      (edgesDeep g) = .ok ((edgesDeep g).filter (outValB c)) :=
    filterE_eq_filter (fun e he => by
      rcases edgesDeep_mem he with h | ⟨m, hm, hem⟩
      · exact outFilterFn_total g hwf hcd (self_mem_nodesDeep g) h
      · exact outFilterFn_total g hwf hcd (mem_nodesDeep_of_internal hm) hem)
  rw [htotal]
  congr 1
  rw [filter_edgesDeep_scope g p hnd hp
    (fun m hm hne => outValB_nil_scope hwf hp hc hm hne)]
  exact List.filter_congr (fun e he => outValB_eq_on_scope hwf hp hc he)

/-- The ingoing query at an output boundary port of any node scans the
owning node's own edge list. -/
theorem inIncidents_scope_port_output (g : GNode) (hwf : wfGraph g = true)
    {p : GNode} (hp : p ∈ nodesDeep g) {c : GNode} (hc : c ∈ nodes p)
    {pname : String} {q : Port}
    (hfind : (GNode.ports c).find? (fun r => r.port == pname) = some q)
    (hkind : q.kind = "output") :
    inIncidents (.byPort (GNode.id c) pname) g ["dataflow"] false
      = .ok ((GNode.edges c).filter (portInPred (GNode.id c) pname)) := by
  have hnd := wfIds_nodup (wfGraph_ids hwf)
  have hcd := mem_nodesDeep_trans hp hc
  have hnodeL := nodeL_byPort hnd hcd pname
  have hhas := hasPortT_byPort hnd hcd hfind
  have hportT := portT_byPort hnd hcd hfind
  have hwfc : wfEdgesAux c = true := wfEdgesAux_at (wfGraph_edges hwf) hcd
  have howner : q.node = some (GNode.id c) :=
    wfPorts_owner hwfc q (List.mem_of_find?_eq_some hfind)
  unfold inIncidents
  rw [if_pos (by decide)]
  simp only [hnodeL]
  rw [if_pos hhas]
  simp only [hportT]
  rw [if_pos (show (Port.node q == some (GNode.id c)
    && Port.kind q == "output") = true by simp [howner, hkind])]
  exact filterE_eq_filter (fun e _ => inFilterFn_hasPort hhas e)

/-- The ingoing query at an input boundary port of any node scans the
containing scope's edge list. -/
theorem inIncidents_scope_port_input (g : GNode) (hwf : wfGraph g = true)
    {p : GNode} (hp : p ∈ nodesDeep g) {c : GNode} (hc : c ∈ nodes p)
    {pname : String} {q : Port}
    (hfind : (GNode.ports c).find? (fun r => r.port == pname) = some q)
    (hkind : q.kind = "input") :
    inIncidents (.byPort (GNode.id c) pname) g ["dataflow"] false
      = .ok ((GNode.edges p).filter (portInPred (GNode.id c) pname)) := by
  have hnd := wfIds_nodup (wfGraph_ids hwf)
  have hcd := mem_nodesDeep_trans hp hc
  have hnodeL := nodeL_byPort hnd hcd pname
  have hhas := hasPortT_byPort hnd hcd hfind
  have hportT := portT_byPort hnd hcd hfind
  have hpar := parentL_scope hwf hp hc
  unfold inIncidents
  rw [if_pos (by decide)]
  simp only [hnodeL]
  rw [if_pos hhas]
  simp only [hportT]
  rw [if_neg (show ¬ ((Port.node q == some (GNode.id c)
    && Port.kind q == "output") = true) by simp [hkind])]
  simp only [hpar, Option.getD_some]
  exact filterE_eq_filter (fun e _ => inFilterFn_hasPort hhas e)

/-- The outgoing query at an input boundary port of any node scans the
owning node's own edge list. -/
theorem outIncidents_scope_port_input (g : GNode) (hwf : wfGraph g = true)
    {p : GNode} (hp : p ∈ nodesDeep g) {c : GNode} (hc : c ∈ nodes p)
    {pname : String} {q : Port}
    (hfind : (GNode.ports c).find? (fun r => r.port == pname) = some q)
    (hkind : q.kind = "input") :
    outIncidents (.byPort (GNode.id c) pname) g ["dataflow"] false
      = .ok ((GNode.edges c).filter (portOutPred (GNode.id c) pname)) := by
  have hnd := wfIds_nodup (wfGraph_ids hwf)
  have hcd := mem_nodesDeep_trans hp hc
  have hnodeL := nodeL_byPort hnd hcd pname
  have hhas := hasPortT_byPort hnd hcd hfind
  have hportT := portT_byPort hnd hcd hfind
  have hwfc : wfEdgesAux c = true := wfEdgesAux_at (wfGraph_edges hwf) hcd
  have howner : q.node = some (GNode.id c) :=
    wfPorts_owner hwfc q (List.mem_of_find?_eq_some hfind)
  unfold outIncidents
  rw [if_pos (by decide)]
  simp only [hnodeL]
  rw [if_pos hhas]
  simp only [hportT]
  rw [if_pos (show (Port.node q == some (GNode.id c)
    && Port.kind q == "input") = true by simp [howner, hkind])]
  exact filterE_eq_filter (fun e _ => outFilterFn_hasPort hhas e)

/-- The outgoing query at an output boundary port of any node scans the
containing scope's edge list. -/
theorem outIncidents_scope_port_output (g : GNode) (hwf : wfGraph g = true)
    {p : GNode} (hp : p ∈ nodesDeep g) {c : GNode} (hc : c ∈ nodes p)
    {pname : String} {q : Port}
    (hfind : (GNode.ports c).find? (fun r => r.port == pname) = some q)
    (hkind : q.kind = "output") :
    outIncidents (.byPort (GNode.id c) pname) g ["dataflow"] false
      = .ok ((GNode.edges p).filter (portOutPred (GNode.id c) pname)) := by
  have hnd := wfIds_nodup (wfGraph_ids hwf)
  have hcd := mem_nodesDeep_trans hp hc
  have hnodeL := nodeL_byPort hnd hcd pname
  have hhas := hasPortT_byPort hnd hcd hfind
  have hportT := portT_byPort hnd hcd hfind
  have hpar := parentL_scope hwf hp hc
  unfold outIncidents
  rw [if_pos (by decide)]
  simp only [hnodeL]
  rw [if_pos hhas]
  simp only [hportT]
  rw [if_neg (show ¬ ((Port.node q == some (GNode.id c)
    && Port.kind q == "input") = true) by simp [hkind])]
  simp only [hpar, Option.getD_some]
  exact filterE_eq_filter (fun e _ => outFilterFn_hasPort hhas e)

/-- The deep scan agrees with the scoped query at an output boundary port
of any node (ingoing direction). -/
theorem inIncidents_scope_port_output_deep (g : GNode)
    (hwf : wfGraph g = true) {p : GNode} (hp : p ∈ nodesDeep g)
    {c : GNode} (hc : c ∈ nodes p) {pname : String} {q : Port}
    (hfind : (GNode.ports c).find? (fun r => r.port == pname) = some q)
    (hkind : q.kind = "output") :
    filterE (inFilterFn (.byPort (GNode.id c) pname) g ["dataflow"] false)
        (edgesDeep g)
      = .ok ((GNode.edges c).filter (portInPred (GNode.id c) pname)) := by
  have hnd := wfIds_nodup (wfGraph_ids hwf)
  have hcd := mem_nodesDeep_trans hp hc
  have hhas := hasPortT_byPort hnd hcd hfind
  have htotal : filterE (inFilterFn (.byPort (GNode.id c) pname) g
      ["dataflow"] false) (edgesDeep g)
      = .ok ((edgesDeep g).filter (portInPred (GNode.id c) pname)) :=
    filterE_eq_filter (fun e _ => inFilterFn_hasPort hhas e)
  rw [htotal]
  congr 1
  exact filter_edgesDeep_scope g c hnd hcd
    (fun m hm hne => portInPred_nil_nonself hwf hp hc hfind hkind hm hne)

/-- The deep scan agrees with the scoped query at an input boundary port
of any node (ingoing direction). -/
theorem inIncidents_scope_port_input_deep (g : GNode)
    (hwf : wfGraph g = true) {p : GNode} (hp : p ∈ nodesDeep g)
    {c : GNode} (hc : c ∈ nodes p) {pname : String} {q : Port}
    (hfind : (GNode.ports c).find? (fun r => r.port == pname) = some q)
    (hkind : q.kind = "input") :
    filterE (inFilterFn (.byPort (GNode.id c) pname) g ["dataflow"] false)
        (edgesDeep g)
      = .ok ((GNode.edges p).filter (portInPred (GNode.id c) pname)) := by
  have hnd := wfIds_nodup (wfGraph_ids hwf)
  have hcd := mem_nodesDeep_trans hp hc
  have hhas := hasPortT_byPort hnd hcd hfind
  have htotal : filterE (inFilterFn (.byPort (GNode.id c) pname) g
      ["dataflow"] false) (edgesDeep g)
      = .ok ((edgesDeep g).filter (portInPred (GNode.id c) pname)) :=
    filterE_eq_filter (fun e _ => inFilterFn_hasPort hhas e)
  rw [htotal]
  congr 1
  exact filter_edgesDeep_scope g p hnd hp
    (fun m hm hne => portInPred_nil_parent hwf hp hc hfind hkind hm hne)

/-- The deep scan agrees with the scoped query at an input boundary port
of any node (outgoing direction). -/
theorem outIncidents_scope_port_input_deep (g : GNode)
    (hwf : wfGraph g = true) {p : GNode} (hp : p ∈ nodesDeep g)
    {c : GNode} (hc : c ∈ nodes p) {pname : String} {q : Port}
    (hfind : (GNode.ports c).find? (fun r => r.port == pname) = some q)
    (hkind : q.kind = "input") :
    filterE (outFilterFn (.byPort (GNode.id c) pname) g ["dataflow"] false)
        (edgesDeep g)
      = .ok ((GNode.edges c).filter (portOutPred (GNode.id c) pname)) := by
  have hnd := wfIds_nodup (wfGraph_ids hwf)
  have hcd := mem_nodesDeep_trans hp hc
  have hhas := hasPortT_byPort hnd hcd hfind
  have htotal : filterE (outFilterFn (.byPort (GNode.id c) pname) g
      ["dataflow"] false) (edgesDeep g)
      = .ok ((edgesDeep g).filter (portOutPred (GNode.id c) pname)) :=
    filterE_eq_filter (fun e _ => outFilterFn_hasPort hhas e)
  rw [htotal]
  congr 1
  exact filter_edgesDeep_scope g c hnd hcd
    (fun m hm hne => portOutPred_nil_nonself hwf hp hc hfind hkind hm hne)

/-- The deep scan agrees with the scoped query at an output boundary port
of any node (outgoing direction). -/
theorem outIncidents_scope_port_output_deep (g : GNode)
    (hwf : wfGraph g = true) {p : GNode} (hp : p ∈ nodesDeep g)
    {c : GNode} (hc : c ∈ nodes p) {pname : String} {q : Port}
    (hfind : (GNode.ports c).find? (fun r => r.port == pname) = some q)
    (hkind : q.kind = "output") :
    filterE (outFilterFn (.byPort (GNode.id c) pname) g ["dataflow"] false)
        (edgesDeep g)
      = .ok ((GNode.edges p).filter (portOutPred (GNode.id c) pname)) := by
  have hnd := wfIds_nodup (wfGraph_ids hwf)
  have hcd := mem_nodesDeep_trans hp hc
  have hhas := hasPortT_byPort hnd hcd hfind
  have htotal : filterE (outFilterFn (.byPort (GNode.id c) pname) g
      ["dataflow"] false) (edgesDeep g)
      = .ok ((edgesDeep g).filter (portOutPred (GNode.id c) pname)) :=
    filterE_eq_filter (fun e _ => outFilterFn_hasPort hhas e)
  rw [htotal]
  congr 1
  exact filter_edgesDeep_scope g p hnd hp
    (fun m hm hne => portOutPred_nil_parent hwf hp hc hfind hkind hm hne)

/-- C6: under the wellformedness invariants, incident-edge resolution on
the default configuration (layers exactly `['dataflow']`, no
`goIntoCompounds`) consults only the edge list of the nearest containing
compound of the location, at every depth of the tree — the containing
scope's list for a node location or an inner boundary port, the node's
own list for the port the boundary exposes inward — and that scoped list
equals what the full deep scan with the same filter would return; on any
other configuration both queries literally perform the deep scan. -/
theorem claim_C6_incident_scoping (g : GNode) (hwf : wfGraph g = true)
    {p : GNode} (hp : p ∈ nodesDeep g) {c : GNode} (hc : c ∈ nodes p) :
    (inIncidents (.byId (GNode.id c)) g ["dataflow"] false
        = .ok ((GNode.edges p).filter (childInPred (GNode.id c)))
      ∧ filterE (inFilterFn (.byId (GNode.id c)) g ["dataflow"] false)
          (edgesDeep g)
        = .ok ((GNode.edges p).filter (childInPred (GNode.id c))))
    ∧ (outIncidents (.byId (GNode.id c)) g ["dataflow"] false
        = .ok ((GNode.edges p).filter (childOutPred (GNode.id c)))
      ∧ filterE (outFilterFn (.byId (GNode.id c)) g ["dataflow"] false)
          (edgesDeep g)
        = .ok ((GNode.edges p).filter (childOutPred (GNode.id c))))
    ∧ (∀ (pname : String) (q : Port),
        (GNode.ports c).find? (fun r => r.port == pname) = some q →
        (q.kind = "output" →
          inIncidents (.byPort (GNode.id c) pname) g ["dataflow"] false
            = .ok ((GNode.edges c).filter (portInPred (GNode.id c) pname))
          ∧ filterE (inFilterFn (.byPort (GNode.id c) pname) g
              ["dataflow"] false) (edgesDeep g)
            = .ok ((GNode.edges c).filter (portInPred (GNode.id c) pname))
          ∧ outIncidents (.byPort (GNode.id c) pname) g ["dataflow"] false
            = .ok ((GNode.edges p).filter (portOutPred (GNode.id c) pname))
          ∧ filterE (outFilterFn (.byPort (GNode.id c) pname) g
              ["dataflow"] false) (edgesDeep g)
            = .ok ((GNode.edges p).filter (portOutPred (GNode.id c) pname)))
        ∧ (q.kind = "input" →
          inIncidents (.byPort (GNode.id c) pname) g ["dataflow"] false
            = .ok ((GNode.edges p).filter (portInPred (GNode.id c) pname))
          ∧ filterE (inFilterFn (.byPort (GNode.id c) pname) g
              ["dataflow"] false) (edgesDeep g)
            = .ok ((GNode.edges p).filter (portInPred (GNode.id c) pname))
          ∧ outIncidents (.byPort (GNode.id c) pname) g ["dataflow"] false
            = .ok ((GNode.edges c).filter (portOutPred (GNode.id c) pname))
          ∧ filterE (outFilterFn (.byPort (GNode.id c) pname) g
              ["dataflow"] false) (edgesDeep g)
            = .ok ((GNode.edges c).filter (portOutPred (GNode.id c) pname))))
    ∧ (∀ (t : Target) (layers : List String) (gic : Bool),
        (layers.length == 1 && layers.head? == some "dataflow" && !gic)
          = false →
        inIncidents t g layers gic
          = filterE (inFilterFn t g layers gic) (edgesDeep g)
        ∧ outIncidents t g layers gic
          = filterE (outFilterFn t g layers gic) (edgesDeep g)) := by
  refine ⟨⟨inIncidents_scope g hwf hp hc, inIncidents_scope_deep g hwf hp hc⟩,
    ⟨outIncidents_scope g hwf hp hc, outIncidents_scope_deep g hwf hp hc⟩,
    ?_, ?_⟩
  · intro pname q hfind
    constructor
    · intro hkind
      exact ⟨inIncidents_scope_port_output g hwf hp hc hfind hkind,
        inIncidents_scope_port_output_deep g hwf hp hc hfind hkind,
        outIncidents_scope_port_output g hwf hp hc hfind hkind,
        outIncidents_scope_port_output_deep g hwf hp hc hfind hkind⟩
    · intro hkind
      exact ⟨inIncidents_scope_port_input g hwf hp hc hfind hkind,
        inIncidents_scope_port_input_deep g hwf hp hc hfind hkind,
        outIncidents_scope_port_input g hwf hp hc hfind hkind,
        outIncidents_scope_port_input_deep g hwf hp hc hfind hkind⟩
  · intro t layers gic hcfg
    constructor
    · unfold inIncidents
      rw [if_neg (by simp [hcfg])]
    · unfold outIncidents
      rw [if_neg (by simp [hcfg])]

/-! ## In-place compoundify (`rewrite/inplaceCompoundify.js`)

The rebuild phase of `compoundify(parentLoc, subset, graph)`, modelled at
the parent scope: the parent's dataflow edges are partitioned by the
subset into inner, incoming, outgoing and untouched edges (the source
classifies each edge once through an `if`/`else if` chain, which these
four disjoint filters reproduce); the subset's nodes move into a fresh
compound whose boundary ports are named `port + node` after the crossing
edge ends; crossing edges are split at those ports.  Note the source
first restricts to `layer === 'dataflow'` and reassembles `parent.edges`
from that restriction, so edges of every other layer are dropped.  The
`type` payload of edges (used only to type the new boundary ports via
`uniqify`) and the port `node` field attached by normalization are not
part of the edge/port model; the new ports carry type `"generic"` and no
owner. -/

/-- The node an edge endpoint references (`e.from.node` / `e.to.node`,
both endpoint forms). -/
def endNode : EdgeEnd → String
  | .eport n _ => n
  | .enode n => n

/-- `subset.some((n) => Graph.isFrom(n, graph, e))`. -/
def isFromSub (subset : List String) (e : Edge) : Bool :=
  subset.any (fun s => isFromB (.byId s) e)

/-- `subset.some((n) => Graph.pointsTo(n, graph, e))`. -/
def pointsToSub (subset : List String) (e : Edge) : Bool :=
  subset.any (fun s => pointsToB (.byId s) e)

/-- `e.to.port + e.to.node` (a node-form endpoint has no `port` property;
JavaScript renders it as the string `undefined`). -/
def toPortName (e : Edge) : String :=
  match e.eto with
  | .eport n p => p ++ n
  | .enode n => "undefined" ++ n

/-- `e.from.port + e.from.node`. -/
def fromPortName (e : Edge) : String :=
  match e.efrom with
  | .eport n p => p ++ n
  | .enode n => "undefined" ++ n

/-- The rebuild phase of the in-place `compoundify` at the parent scope
(`inplaceCompoundify.js` lines 47-91), run after the loop check has
accepted the subset. -/
def compoundifyInplaceParent (subset : List String) (compId : String)
    (parent : GNode) : GNode :=
  match parent with
  | .mk i nm ps a ch es co mt pa =>
    let dfE := es.filter (fun e => e.layer == "dataflow")
    let innerE := dfE.filter (fun e => isFromSub subset e && pointsToSub subset e)
    let outE := dfE.filter (fun e => isFromSub subset e && !(pointsToSub subset e))
    let inE := dfE.filter (fun e => !(isFromSub subset e) && pointsToSub subset e)
    let rest := dfE.filter (fun e =>
      !(isFromSub subset e) && !(pointsToSub subset e))
    let cs := ch.getD []
    let innerNodes := cs.filter (fun n => subset.contains (GNode.id n))
    let restNodes := cs.filter (fun n => !(subset.contains (GNode.id n)))
    let inputPorts := inE.map (fun e =>
      (⟨toPortName e, "input", "generic", none⟩ : Port))
    let outputPorts := outE.map (fun e =>
      (⟨fromPortName e, "output", "generic", none⟩ : Port))
    let compEdges := innerE
      ++ inE.map (fun e =>
          (⟨.eport compId (toPortName e), e.eto, "dataflow"⟩ : Edge))
      ++ outE.map (fun e =>
          (⟨e.efrom, .eport compId (fromPortName e), "dataflow"⟩ : Edge))
    let comp := GNode.mk compId none (inputPorts ++ outputPorts) false
      (some innerNodes) compEdges [] [] (some ((pa.getD []) ++ [compId]))
    let parentEdges := rest
      ++ inE.map (fun e =>
          (⟨e.efrom, .eport compId (toPortName e), "dataflow"⟩ : Edge))
      ++ outE.map (fun e =>
          (⟨.eport compId (fromPortName e), e.eto, "dataflow"⟩ : Edge))
    .mk i nm ps a (some (restNodes ++ [rePath comp])) parentEdges co mt pa

/-- `rePath` preserves every node id. -/
theorem rePathNode_id (basePath : List String) (n : GNode) :
    GNode.id (rePathNode basePath n) = GNode.id n := by
  cases n with
  | mk i nm ps a ch es co mt pa =>
    cases ch with
    | none => rfl
    | some cs => rfl

theorem rePathChildren_ids (basePath : List String) (cs : List GNode) :
    (rePathChildren basePath cs).map GNode.id = cs.map GNode.id := by
  induction cs with
  | nil => rfl
  | cons c cs' ih =>
    simp only [rePathChildren, List.map_cons, rePathNode_id, ih]

theorem rePath_id (g : GNode) : GNode.id (rePath g) = GNode.id g := by
  cases g with
  | mk i nm ps a ch es co mt pa =>
    cases ch with
    | none => rfl
    | some cs => rfl

/-- `rePath` preserves the edge list of the node itself. -/
theorem rePath_edges (g : GNode) : GNode.edges (rePath g) = GNode.edges g := by
  cases g with
  | mk i nm ps a ch es co mt pa =>
    cases ch with
    | none => rfl
    | some cs => rfl

/-- `rePath` preserves the ids of the direct children. -/
theorem rePath_child_ids (g : GNode) :
    (nodes (rePath g)).map GNode.id = (nodes g).map GNode.id := by
  cases g with
  | mk i nm ps a ch es co mt pa =>
    cases ch with
    | none => rfl
    | some cs =>
      simp only [rePath, nodes, GNode.children, Option.getD]
      exact rePathChildren_ids _ cs

theorem isFromB_byId_endNode (s : String) (e : Edge) :
    isFromB (.byId s) e = (endNode e.efrom == s) := by
  unfold isFromB endNode
  cases e.efrom <;> rfl

theorem pointsToB_byId_endNode (s : String) (e : Edge) :
    pointsToB (.byId s) e = (endNode e.eto == s) := by
  unfold pointsToB endNode
  cases e.eto <;> rfl

theorem isFromSub_endNode {subset : List String} {e : Edge} :
    isFromSub subset e = false → endNode e.efrom ∉ subset := by
  intro h hmem
  unfold isFromSub at h
  rw [List.any_eq_false] at h
  have := h (endNode e.efrom) hmem
  rw [isFromB_byId_endNode] at this
  simp at this

theorem pointsToSub_endNode {subset : List String} {e : Edge} :
    pointsToSub subset e = false → endNode e.eto ∉ subset := by
  intro h hmem
  unfold pointsToSub at h
  rw [List.any_eq_false] at h
  have := h (endNode e.eto) hmem
  rw [pointsToB_byId_endNode] at this
  simp at this

theorem isFromSub_endNode_mem {subset : List String} {e : Edge} :
    isFromSub subset e = true → endNode e.efrom ∈ subset := by
  intro h
  unfold isFromSub at h
  rw [List.any_eq_true] at h
  obtain ⟨s, hs, hEq⟩ := h
  rw [isFromB_byId_endNode] at hEq
  rw [beq_iff_eq] at hEq
  rwa [hEq]

theorem pointsToSub_endNode_mem {subset : List String} {e : Edge} :
    pointsToSub subset e = true → endNode e.eto ∈ subset := by
  intro h
  unfold pointsToSub at h
  rw [List.any_eq_true] at h
  obtain ⟨s, hs, hEq⟩ := h
  rw [pointsToB_byId_endNode] at hEq
  rw [beq_iff_eq] at hEq
  rwa [hEq]

/-- C4 (amended to the dataflow layer): the rebuild of the in-place
`compoundify` moves exactly the subset's nodes into a fresh compound;
every original dataflow edge between two subset members becomes an edge
inside the compound; no edge of the resulting parent scope references a
subset member (crossing edges are re-attached to the fresh boundary
ports, whose owner is the compound, and edges inside the compound only
reference subset members or the boundary); untouched dataflow edges and
all non-subset nodes stay at the parent level.  The unrestricted claim
fails: the source reassembles `parent.edges` from the dataflow
restriction, so non-dataflow edges are dropped even when they do not
touch the subset. -/
theorem claim_C4_compoundify_boundary (parent : GNode) (subset : List String)
    (compId : String) (hfresh : compId ∉ subset) :
    ∃ comp,
      nodes (compoundifyInplaceParent subset compId parent)
        = (nodes parent).filter (fun n => !(subset.contains (GNode.id n)))
            ++ [comp]
      ∧ GNode.id comp = compId
      ∧ (nodes comp).map GNode.id
          = ((nodes parent).filter
              (fun n => subset.contains (GNode.id n))).map GNode.id
      ∧ (∀ e ∈ GNode.edges parent, e.layer = "dataflow" →
          isFromSub subset e = true → pointsToSub subset e = true →
          e ∈ GNode.edges comp)
      ∧ (∀ e ∈ GNode.edges (compoundifyInplaceParent subset compId parent),
          endNode e.efrom ∉ subset ∧ endNode e.eto ∉ subset)
      ∧ (∀ e ∈ GNode.edges comp,
          (endNode e.efrom ∈ subset ∨ endNode e.efrom = compId) ∧
          (endNode e.eto ∈ subset ∨ endNode e.eto = compId))
      ∧ (∀ e ∈ GNode.edges parent, e.layer = "dataflow" →
          isFromSub subset e = false → pointsToSub subset e = false →
          e ∈ GNode.edges (compoundifyInplaceParent subset compId parent)) := by
  cases parent with
  | mk i nm ps a ch es co mt pa =>
    refine ⟨_, rfl, rePath_id _, ?_, ?_, ?_, ?_, ?_⟩
    · rw [rePath_child_ids]
      rfl
    · intro e he hlayer hfr hpt
      rw [rePath_edges]
      show e ∈ _ ++ _ ++ _
      simp only [List.mem_append]
      left
      left
      rw [List.mem_filter, List.mem_filter]
      refine ⟨⟨he, by simp [hlayer]⟩, by simp [hfr, hpt]⟩
    · intro e he
      show endNode e.efrom ∉ subset ∧ endNode e.eto ∉ subset
      have he' : e ∈ _ ++ _ ++ _ := he
      simp only [List.mem_append] at he'
      rcases he' with (hrest | hin) | hout
      · rw [List.mem_filter] at hrest
        have hcond := hrest.2
        simp only [Bool.and_eq_true, Bool.not_eq_true'] at hcond
        exact ⟨isFromSub_endNode hcond.1, pointsToSub_endNode hcond.2⟩
      · rw [List.mem_map] at hin
        obtain ⟨e0, he0, hEq⟩ := hin
        rw [List.mem_filter] at he0
        have hcond := he0.2
        simp only [Bool.and_eq_true, Bool.not_eq_true'] at hcond
        subst hEq
        exact ⟨isFromSub_endNode hcond.1, fun hm => hfresh (by simpa [endNode] using hm)⟩
      · rw [List.mem_map] at hout
        obtain ⟨e0, he0, hEq⟩ := hout
        rw [List.mem_filter] at he0
        have hcond := he0.2
        simp only [Bool.and_eq_true, Bool.not_eq_true'] at hcond
        subst hEq
        exact ⟨fun hm => hfresh (by simpa [endNode] using hm),
          pointsToSub_endNode hcond.2⟩
    · intro e he
      rw [rePath_edges] at he
      have he' : e ∈ _ ++ _ ++ _ := he
      simp only [List.mem_append] at he'
      rcases he' with (hinner | hin) | hout
      · rw [List.mem_filter] at hinner
        have hcond := hinner.2
        simp only [Bool.and_eq_true] at hcond
        exact ⟨Or.inl (isFromSub_endNode_mem hcond.1),
          Or.inl (pointsToSub_endNode_mem hcond.2)⟩
      · rw [List.mem_map] at hin
        obtain ⟨e0, he0, hEq⟩ := hin
        rw [List.mem_filter] at he0
        have hcond := he0.2
        simp only [Bool.and_eq_true] at hcond
        subst hEq
        exact ⟨Or.inr rfl, Or.inl (pointsToSub_endNode_mem hcond.2)⟩
      · rw [List.mem_map] at hout
        obtain ⟨e0, he0, hEq⟩ := hout
        rw [List.mem_filter] at he0
        have hcond := he0.2
        simp only [Bool.and_eq_true] at hcond
        subst hEq
        exact ⟨Or.inl (isFromSub_endNode_mem hcond.1), Or.inr rfl⟩
    · intro e he hlayer hfr hpt
      show e ∈ _ ++ _ ++ _
      simp only [List.mem_append]
      left
      left
      rw [List.mem_filter, List.mem_filter]
      refine ⟨⟨he, by simp [hlayer]⟩, by simp [hfr, hpt]⟩

/-- Nodes for the C4 counterexample: a parent with two atomic children
and one non-dataflow edge that never touches the subset. -/
def cpN1 : GNode := .mk "#n1" (some "n1")
  [⟨"out", "output", "generic", some "#n1"⟩] true none [] [] []
  (some ["#p", "#n1"])

def cpN2 : GNode := .mk "#n2" (some "n2")
  [⟨"o2", "output", "generic", some "#n2"⟩,
   ⟨"i2", "input", "generic", some "#n2"⟩] true none [] [] []
  (some ["#p", "#n2"])

def cpEdgeCtl : Edge := ⟨.eport "#n2" "o2", .eport "#n2" "i2", "control"⟩

def cpParent : GNode := .mk "#p" none [] false (some [cpN1, cpN2])
  [cpEdgeCtl] [] [] (some ["#p"])

/-- C4: the literal claim fails.  A non-dataflow edge that is not
incident to the subset does not remain at the parent level: the rebuild
drops it. -/
theorem claim_C4_counterexample :
    cpEdgeCtl ∈ GNode.edges cpParent ∧
    endNode cpEdgeCtl.efrom ∉ ["#n1"] ∧ endNode cpEdgeCtl.eto ∉ ["#n1"] ∧
    cpEdgeCtl ∉ GNode.edges (compoundifyInplaceParent ["#n1"] "#c0" cpParent) := by
  decide

/-- Witness for the amended C4 at a concrete parent and subset. -/
theorem claim_C4_witness :
    ("#c0" : String) ∉ ["#n1"] ∧
    ∃ comp,
      nodes (compoundifyInplaceParent ["#n1"] "#c0" cpParent)
        = (nodes cpParent).filter
            (fun n => !(["#n1"].contains (GNode.id n))) ++ [comp]
      ∧ GNode.id comp = "#c0" := by
  have h := claim_C4_compoundify_boundary cpParent ["#n1"] "#c0" (by decide)
  obtain ⟨comp, h1, h2, _⟩ := h
  exact ⟨by decide, comp, h1, h2⟩

/-! ## `includePredecessor` (`rewrite/compound.js`)

The source's guard against predecessors with further successors is
commented out (lines 41-44).  When such further successors exist the
`additionalPorts` list is non-empty and the compound pipeline reaches
`Graph.addEdge({from: predecessor(p, graph), to: '@' + p.name})` — `p` is
a successor port object, which has no `name` property, so the target
selector is the literal string `'@undefined'`, and the edge creation
fails to resolve that boundary port.  The model threads the compound
state through the pipeline; `Graph.addEdge` and the `Compound` port
helpers are out-of-scope modules, modelled from the spec: an `'@name'`
boundary selector resolves against the compound's own port list (by port
name) and edge creation fails when it does not resolve; edges between
two non-boundary endpoints are added unchecked (fewer modelled checks
only make the error conclusion weaker, never wrong).  `mergeNodes`, which
renames the freshly inserted copy of the predecessor back to its original
id, is the identity here because the model inserts the node with its id
unchanged. -/

/-- The name under which an edge end is addressed as a port
(`end.port`); a node-form end has no `port` property. -/
def endPortName : EdgeEnd → String
  | .eport _ p => p
  | .enode _ => "undefined"

/-- Locate the node an edge end designates. -/
def locOfEnd : EdgeEnd → Target
  | .eport n p => .byPort n p
  | .enode n => .byId n

/-- `Node.outputPorts(node)` (default `ignoreCompounds`): all ports of a
non-atomic node, only the output ports of an atomic one. -/
def outputPortsOf (n : GNode) : List Port :=
  if GNode.atomic n then (GNode.ports n).filter (fun p => p.kind == "output")
  else GNode.ports n

/-- `(predecessorPort, compoundPort)` pairs: each output port of the
predecessor paired with each of its successors. -/
def collectSuccs (g : GNode) (nid : String) :
    List Port → Except String (List (Port × EdgeEnd))
  | [] => .ok []
  | p :: rest =>
    match successorsL (.byPort nid p.port) g ["dataflow"] false with
    | .error e => .error e
    | .ok ss =>
      match collectSuccs g nid rest with
      | .error e => .error e
      | .ok acc => .ok (ss.map (fun s => (p, s)) ++ acc)

/-- `uniqBy((pair) => pair.compoundPort, ...)`: first occurrence per
compound port. -/
def uniqByEnd (l : List (Port × EdgeEnd)) : List (Port × EdgeEnd) :=
  l.foldl (fun acc x =>
    if acc.any (fun y => y.2 == x.2) then acc else acc ++ [x]) []

/-- Attach each affected pair's outgoing edges
(`outIncidents(p.compoundPort, graph)`). -/
def collectOutE (g : GNode) :
    List (Port × EdgeEnd) → Except String (List (Port × EdgeEnd × List Edge))
  | [] => .ok []
  | x :: rest =>
    match outIncidents (locOfEnd x.2) g ["dataflow"] false with
    | .error e => .error e
    | .ok es =>
      match collectOutE g rest with
      | .error e => .error e
      | .ok acc => .ok ((x.1, x.2, es) :: acc)

/-- `Graph.addNode` of the predecessor into the compound (the id rename
by `mergeNodes` is the identity here). -/
def addChildC (n : GNode) (comp : GNode) : GNode :=
  match comp with
  | .mk i nm ps a ch es co mt pa =>
    .mk i nm ps a (some ((ch.getD []) ++ [n])) es co mt pa

/-- `Compound.removePort` for each affected boundary port. -/
def removeBoundaryPorts (names : List String) (comp : GNode) : GNode :=
  match comp with
  | .mk i nm ps a ch es co mt pa =>
    .mk i nm (ps.filter (fun q => !(names.contains q.port))) a ch es co mt pa

/-- `Compound.addInputPort` / `addOutputPort`: append a boundary port. -/
def addBoundaryPort (pname kind : String) (comp : GNode) : GNode :=
  match comp with
  | .mk i nm ps a ch es co mt pa =>
    .mk i nm (ps ++ [⟨pname, kind, "generic", none⟩]) a ch es co mt pa

def foldInputPorts (ends : List EdgeEnd) (comp : GNode) : GNode :=
  ends.foldl (fun c x => addBoundaryPort (endPortName x) "input" c) comp

def foldOutputPorts (ends : List EdgeEnd) (comp : GNode) : GNode :=
  ends.foldl (fun c x => addBoundaryPort (endPortName x) "output" c) comp

/-- An unchecked edge between resolved endpoints. -/
def addCompEdge (fromE toE : EdgeEnd) (comp : GNode) : GNode :=
  match comp with
  | .mk i nm ps a ch es co mt pa =>
    .mk i nm ps a ch (es ++ [⟨fromE, toE, "dataflow"⟩]) co mt pa

/-- `Graph.addEdge({from: '@' + name, to: ...})`: the boundary selector
must resolve against the compound's ports. -/
def addBoundaryFromEdge (pname : String) (toE : EdgeEnd) (comp : GNode) :
    Except String GNode :=
  if (GNode.ports comp).any (fun q => q.port == pname) then
    .ok (addCompEdge (.eport (GNode.id comp) pname) toE comp)
  else
    .error ("Cannot create edge to unknown port @" ++ pname)

/-- `Graph.addEdge({from: ..., to: '@' + name})`. -/
def addBoundaryToEdge (fromE : EdgeEnd) (pname : String) (comp : GNode) :
    Except String GNode :=
  if (GNode.ports comp).any (fun q => q.port == pname) then
    .ok (addCompEdge fromE (.eport (GNode.id comp) pname) comp)
  else
    .error ("Cannot create edge to unknown port @" ++ pname)

/-- The `preInPorts` edges inside the compound:
`{from: '@' + edge.to.port, to: predNode.id + '@' + edge.to.port}`. -/
def foldStep6 (predId : String) : List EdgeEnd → GNode →
    Except String GNode
  | [], comp => .ok comp
  | x :: rest, comp =>
    match addBoundaryFromEdge (endPortName x)
        (.eport predId (endPortName x)) comp with
    | .error e => .error e
    | .ok comp' => foldStep6 predId rest comp'

/-- The `postInPorts` edges: from each predecessor port to the targets of
the removed boundary port's outgoing edges (non-boundary endpoints, added
unchecked). -/
def foldStep7 (predId : String)
    (post : List (Port × EdgeEnd × List Edge)) (comp : GNode) : GNode :=
  post.foldl (fun c x =>
    x.2.2.foldl (fun c' e => addCompEdge (.eport predId x.1.port) e.eto c') c)
    comp

/-- The `additionalPorts` edges:
`{from: predecessor(p, graph), to: '@' + p.name}` — a successor port
object has no `name` property, so the boundary selector is always the
literal `'@undefined'`. -/
def foldStep8 (g : GNode) : List EdgeEnd → GNode → Except String GNode
  | [], comp => .ok comp
  | p :: rest, comp =>
    match predecessorsL (locOfEnd p) g ["dataflow"] false with
    | .error e => .error e
    | .ok pr =>
      match addBoundaryToEdge (pr.head?.getD (.enode "undefined"))
          "undefined" comp with
      | .error e => .error e
      | .ok comp' => foldStep8 g rest comp'

/-- Replace the compound by its rebuilt version and drop the moved
predecessor at the root level (`Graph.removeNode` /
`Graph.replaceNode`). -/
def replaceAtRoot (predId compNodeId : String) (newCompound : GNode)
    (g : GNode) : GNode :=
  match g with
  | .mk i nm ps a ch es co mt pa =>
    .mk i nm ps a
      (ch.map (fun cs => (cs.filter (fun n => !(GNode.id n == predId))).map
        (fun n => if GNode.id n == compNodeId then newCompound else n)))
      es co mt pa

/-- The parent-level reconnects:
`{from: edge.from, to: compound.id + '@' + edge.to.port}`. -/
def foldParentEdges (compNodeId : String) (newCompound : GNode) :
    List Edge → GNode → Except String GNode
  | [], g => .ok g
  | e :: rest, g =>
    if (GNode.ports newCompound).any
        (fun q => q.port == endPortName e.eto) then
      match g with
      | .mk i nm ps a ch es co mt pa =>
        foldParentEdges compNodeId newCompound rest
          (.mk i nm ps a ch
            (es ++ [⟨e.efrom, .eport compNodeId (endPortName e.eto),
              "dataflow"⟩]) co mt pa)
    else
      .error ("Cannot create edge to unknown port @" ++ endPortName e.eto)

/-- `includePredecessor(port, graph)` from `rewrite/compound.js`. -/
def includePredecessor (port : Target) (g : GNode) : Except String GNode :=
  match predecessorsL port g ["dataflow"] false with
  | .error e => .error e
  | .ok preds =>
    match preds.head? with
    | none => .error "TypeError: cannot read property of undefined"
    | some pred =>
      match nodeL port g with
      | .error e => .error e
      | .ok portNode =>
        match nodeL (locOfEnd pred) g with
        | .error e => .error e
        | .ok predNode =>
          match inIncidents (.byId (endNode pred)) g ["dataflow"] false with
          | .error e => .error e
          | .ok preIn =>
            match collectSuccs g (GNode.id predNode)
                (outputPortsOf predNode) with
            | .error e => .error e
            | .ok pairs =>
              match collectOutE g (uniqByEnd pairs) with
              | .error e => .error e
              | .ok post =>
                match successorsL (.byId (endNode pred)) g
                    ["dataflow"] false with
                | .error e => .error e
                | .ok succs =>
                  let additional := succs.filter
                    (fun s => endNode s != GNode.id portNode)
                  let c2 := removeBoundaryPorts
                    ((uniqByEnd pairs).map (fun x => endPortName x.2))
                    (addChildC predNode portNode)
                  let c4 := foldOutputPorts additional
                    (foldInputPorts (preIn.map Edge.eto) c2)
                  match foldStep6 (GNode.id predNode)
                      (preIn.map Edge.eto) c4 with
                  | .error e => .error e
                  | .ok c5 =>
                    match foldStep8 g additional
                        (foldStep7 (GNode.id predNode) post c5) with
                    | .error e => .error e
                    | .ok newCompound =>
                      foldParentEdges (GNode.id portNode) newCompound preIn
                        (replaceAtRoot (GNode.id predNode)
                          (GNode.id portNode) newCompound g)

/-- All port names stored anywhere in the graph. -/
def portNames (g : GNode) : List String :=
  ((nodesDeep g).map (fun n => (GNode.ports n).map Port.port)).join

/-- All port names referenced by edge endpoints anywhere in the graph. -/
def endNames (g : GNode) : List String :=
  ((edgesDeep g).map (fun e =>
    (match e.efrom with | .eport _ p => [p] | .enode _ => []) ++
    (match e.eto with | .eport _ p => [p] | .enode _ => []))).join

/-- No port of the graph — stored or referenced — is literally named
`"undefined"`. -/
def cleanOfUndefined (g : GNode) : Bool :=
  !((portNames g).contains "undefined") && !((endNames g).contains "undefined")

/-- Every edge of the graph has explicit port-form endpoints. -/
def allPortEnds (g : GNode) : Bool :=
  (edgesDeep g).all isBetweenPorts

theorem nodeL_mem {t : Target} {g n : GNode} (h : nodeL t g = .ok n) :
    n ∈ nodesDeep g := by
  unfold nodeL nodeBy at h
  cases hl : (nodesDeep g).filter (nodeMatches g t) with
  | nil => rw [hl] at h; simp [List.head?] at h
  | cons x xs =>
    rw [hl] at h
    simp only [List.head?] at h
    injection h with h
    subst h
    exact List.mem_of_mem_filter (hl ▸ List.mem_cons_self x xs)

theorem filterE_mem {α} {f : α → Except String Bool} {l r : List α}
    (h : filterE f l = .ok r) : ∀ x ∈ r, x ∈ l := by
  induction l generalizing r with
  | nil =>
    unfold filterE at h
    injection h with h
    subst h
    intro x hx
    cases hx
  | cons y ys ih =>
    unfold filterE at h
    cases hfy : f y with
    | error e => rw [hfy] at h; cases h
    | ok b =>
      rw [hfy] at h
      cases hrest : filterE f ys with
      | error e => rw [hrest] at h; cases h
      | ok r' =>
        rw [hrest] at h
        injection h with h
        subst h
        intro x hx
        cases b with
        | true =>
          simp only [if_true] at hx
          rcases List.mem_cons.mp hx with hx | hx
          · exact hx ▸ List.mem_cons_self y ys
          · exact List.mem_cons_of_mem y (ih hrest x hx)
        | false =>
          simp only [Bool.false_eq_true, if_false] at hx
          exact List.mem_cons_of_mem y (ih hrest x hx)

theorem edges_sub_edgesDeep {m : GNode} {e : Edge}
    (he : e ∈ GNode.edges m) : e ∈ edgesDeep m := by
  rw [edgesDeep_decomp, List.mem_append]
  exact Or.inl he

theorem edgesDeep_sub_list {cs : List GNode} {m : GNode} {e : Edge}
    (hm : m ∈ cs) (he : e ∈ edgesDeep m) : e ∈ edgesDeepList cs := by
  induction cs with
  | nil => cases hm
  | cons c0 rest ih =>
    simp only [edgesDeepList, List.mem_append]
    rcases List.mem_cons.mp hm with h | h
    · exact Or.inl (h ▸ he)
    · exact Or.inr (ih h)

mutual

theorem scopeEdges_internal {n m : GNode} {e : Edge}
    (hm : m ∈ nodesDeepInternal n) (he : e ∈ GNode.edges m) :
    e ∈ edgesDeep n := by
  cases n with
  | mk i nm ps a ch es co mt pa =>
    cases ch with
    | none => simp [nodesDeepInternal] at hm
    | some cs =>
      simp only [nodesDeepInternal, List.mem_append] at hm
      simp only [edgesDeep, List.mem_append]
      rcases hm with hm | hm
      · exact Or.inr (edgesDeep_sub_list hm (edges_sub_edgesDeep he))
      · exact Or.inr (scopeEdges_list hm he)

theorem scopeEdges_list {cs : List GNode} {m : GNode} {e : Edge}
    (hm : m ∈ nodesDeepList cs) (he : e ∈ GNode.edges m) :
    e ∈ edgesDeepList cs := by
  cases cs with
  | nil => simp [nodesDeepList] at hm
  | cons c0 rest =>
    simp only [nodesDeepList, List.mem_append] at hm
    simp only [edgesDeepList, List.mem_append]
    rcases hm with hm | hm
    · exact Or.inl (scopeEdges_internal hm he)
    · exact Or.inr (scopeEdges_list hm he)

end

theorem edges_member_deep {g m : GNode} {e : Edge}
    (hm : m ∈ nodesDeep g) (he : e ∈ GNode.edges m) : e ∈ edgesDeep g := by
  simp only [nodesDeep, List.mem_append, List.mem_singleton] at hm
  rcases hm with hm | hm
  · exact scopeEdges_internal hm he
  · exact hm ▸ edges_sub_edgesDeep he

theorem parentL_mem {t : Target} {g m : GNode}
    (h : parentL t g = .ok (some m)) : m ∈ nodesDeep g := by
  unfold parentL at h
  cases hnl : nodeL t g with
  | error e => simp only [hnl] at h; exact Except.noConfusion h
  | ok n =>
    simp only [hnl] at h
    by_cases heq : (GNode.path? n == GNode.path? g) = true
    · rw [if_pos heq] at h
      injection h with h
      exact Option.noConfusion h
    · rw [if_neg heq] at h
      cases hnp : GNode.path? n with
      | none =>
        simp only [hnp] at h
        exact Except.noConfusion h
      | some np =>
        simp only [hnp] at h
        cases hgp : GNode.path? g with
        | none => simp only [hgp] at h; exact Except.noConfusion h
        | some gp =>
          simp only [hgp] at h
          cases hrel : relativeTo np gp with
          | error e => simp only [hrel] at h; exact Except.noConfusion h
          | ok rel =>
            simp only [hrel] at h
            cases hnl2 : nodeL (.byPath (pathParent rel)) g with
            | error e => simp only [hnl2] at h; exact Except.noConfusion h
            | ok m' =>
              simp only [hnl2] at h
              injection h with h
              injection h with h
              exact h ▸ nodeL_mem hnl2

/-- Every edge an ingoing-incidents query returns is an edge of the
graph. -/
theorem inIncidents_sub {t : Target} {g : GNode} {layers : List String}
    {gic : Bool} {es : List Edge}
    (h : inIncidents t g layers gic = .ok es) : ∀ e ∈ es, e ∈ edgesDeep g := by
  unfold inIncidents at h
  by_cases hcfg : (layers.length == 1 && layers.head? == some "dataflow"
      && !gic) = true
  · rw [if_pos hcfg] at h
    cases hnl : nodeL t g with
    | error e => simp only [hnl] at h; exact Except.noConfusion h
    | ok n =>
      simp only [hnl] at h
      by_cases hhp : hasPortT t g = true
      · rw [if_pos hhp] at h
        cases hpt : portT t g with
        | error e => simp only [hpt] at h; exact Except.noConfusion h
        | ok p =>
          simp only [hpt] at h
          by_cases hfast : (Port.node p == some (GNode.id n)
              && Port.kind p == "output") = true
          · rw [if_pos hfast] at h
            intro e he
            exact edges_member_deep (nodeL_mem hnl) (filterE_mem h e he)
          · rw [if_neg hfast] at h
            cases hpar : parentL (.byId (GNode.id n)) g with
            | error e => simp only [hpar] at h; exact Except.noConfusion h
            | ok par =>
              simp only [hpar] at h
              intro e he
              cases par with
              | none =>
                exact edges_member_deep (self_mem_nodesDeep g)
                  (filterE_mem h e he)
              | some m =>
                exact edges_member_deep (parentL_mem hpar)
                  (filterE_mem h e he)
      · rw [if_neg hhp] at h
        cases hpar : parentL (.byId (GNode.id n)) g with
        | error e => simp only [hpar] at h; exact Except.noConfusion h
        | ok par =>
          simp only [hpar] at h
          intro e he
          cases par with
          | none =>
            exact edges_member_deep (self_mem_nodesDeep g)
              (filterE_mem h e he)
          | some m =>
            exact edges_member_deep (parentL_mem hpar) (filterE_mem h e he)
  · rw [if_neg hcfg] at h
    intro e he
    exact filterE_mem h e he

/-- Every edge an outgoing-incidents query returns is an edge of the
graph. -/
theorem outIncidents_sub {t : Target} {g : GNode} {layers : List String}
    {gic : Bool} {es : List Edge}
    (h : outIncidents t g layers gic = .ok es) : ∀ e ∈ es, e ∈ edgesDeep g := by
  unfold outIncidents at h
  by_cases hcfg : (layers.length == 1 && layers.head? == some "dataflow"
      && !gic) = true
  · rw [if_pos hcfg] at h
    cases hnl : nodeL t g with
    | error e => simp only [hnl] at h; exact Except.noConfusion h
    | ok n =>
      simp only [hnl] at h
      by_cases hhp : hasPortT t g = true
      · rw [if_pos hhp] at h
        cases hpt : portT t g with
        | error e => simp only [hpt] at h; exact Except.noConfusion h
        | ok p =>
          simp only [hpt] at h
          by_cases hfast : (Port.node p == some (GNode.id n)
              && Port.kind p == "input") = true
          · rw [if_pos hfast] at h
            intro e he
            exact edges_member_deep (nodeL_mem hnl) (filterE_mem h e he)
          · rw [if_neg hfast] at h
            cases hpar : parentL (.byId (GNode.id n)) g with
            | error e => simp only [hpar] at h; exact Except.noConfusion h
            | ok par =>
              simp only [hpar] at h
              intro e he
              cases par with
              | none =>
                exact edges_member_deep (self_mem_nodesDeep g)
                  (filterE_mem h e he)
              | some m =>
                exact edges_member_deep (parentL_mem hpar)
                  (filterE_mem h e he)
      · rw [if_neg hhp] at h
        cases hpar : parentL (.byId (GNode.id n)) g with
        | error e => simp only [hpar] at h; exact Except.noConfusion h
        | ok par =>
          simp only [hpar] at h
          intro e he
          cases par with
          | none =>
            exact edges_member_deep (self_mem_nodesDeep g)
              (filterE_mem h e he)
          | some m =>
            exact edges_member_deep (parentL_mem hpar) (filterE_mem h e he)
  · rw [if_neg hcfg] at h
    intro e he
    exact filterE_mem h e he

/-- Every end a successors query returns is the to-end of a graph
edge. -/
theorem successorsL_sub {t : Target} {g : GNode} {ends : List EdgeEnd}
    (h : successorsL t g ["dataflow"] false = .ok ends) :
    ∀ x ∈ ends, ∃ e ∈ edgesDeep g, x = e.eto := by
  unfold successorsL at h
  cases hoi : outIncidents t g ["dataflow"] false with
  | error e => simp only [hoi] at h; exact Except.noConfusion h
  | ok es =>
    simp only [hoi] at h
    injection h with h
    subst h
    intro x hx
    rcases List.mem_map.mp hx with ⟨e, he, hEq⟩
    exact ⟨e, outIncidents_sub hoi e he, hEq.symm⟩

theorem port_mem_portNames {g n : GNode} {p : Port}
    (hn : n ∈ nodesDeep g) (hp : p ∈ GNode.ports n) :
    Port.port p ∈ portNames g := by
  unfold portNames
  rw [List.mem_join]
  exact ⟨(GNode.ports n).map Port.port,
    List.mem_map_of_mem _ hn, List.mem_map_of_mem _ hp⟩

theorem toName_mem_endNames {g : GNode} {e : Edge} {n pn : String}
    (he : e ∈ edgesDeep g) (het : e.eto = .eport n pn) :
    pn ∈ endNames g := by
  unfold endNames
  rw [List.mem_join]
  refine ⟨(match e.efrom with | .eport _ p => [p] | .enode _ => []) ++
    (match e.eto with | .eport _ p => [p] | .enode _ => []),
    List.mem_map_of_mem _ he, ?_⟩
  rw [het, List.mem_append]
  right
  simp

theorem addCompEdge_ports (fromE toE : EdgeEnd) (c : GNode) :
    GNode.ports (addCompEdge fromE toE c) = GNode.ports c := by
  cases c; rfl

theorem addBoundaryPort_ports (pname kind : String) (c : GNode) :
    GNode.ports (addBoundaryPort pname kind c)
      = GNode.ports c ++ [⟨pname, kind, "generic", none⟩] := by
  cases c; rfl

theorem removeBoundaryPorts_ports (names : List String) (c : GNode) :
    GNode.ports (removeBoundaryPorts names c)
      = (GNode.ports c).filter (fun q => !(names.contains q.port)) := by
  cases c; rfl

theorem addChildC_ports (n c : GNode) :
    GNode.ports (addChildC n c) = GNode.ports c := by
  cases c; rfl

theorem foldBoundary_ports (kind : String) :
    ∀ (ends : List EdgeEnd) (c : GNode),
    GNode.ports (ends.foldl (fun c' x => addBoundaryPort (endPortName x) kind c') c)
      = GNode.ports c
        ++ ends.map (fun x => (⟨endPortName x, kind, "generic", none⟩ : Port)) := by
  intro ends
  induction ends with
  | nil => intro c; simp
  | cons x rest ih =>
    intro c
    simp only [List.foldl_cons, List.map_cons]
    rw [ih, addBoundaryPort_ports, List.append_assoc]
    rfl

theorem foldStep7_ports (predId : String)
    (post : List (Port × EdgeEnd × List Edge)) (c : GNode) :
    GNode.ports (foldStep7 predId post c) = GNode.ports c := by
  unfold foldStep7
  induction post generalizing c with
  | nil => rfl
  | cons x rest ih =>
    simp only [List.foldl_cons]
    rw [ih]
    generalize c = c0
    induction x.2.2 generalizing c0 with
    | nil => rfl
    | cons e es ihe =>
      simp only [List.foldl_cons]
      rw [ihe, addCompEdge_ports]

theorem addBoundaryFromEdge_ports {pname : String} {toE : EdgeEnd}
    {c c' : GNode} (h : addBoundaryFromEdge pname toE c = .ok c') :
    GNode.ports c' = GNode.ports c := by
  unfold addBoundaryFromEdge at h
  by_cases hif : ((GNode.ports c).any (fun q => q.port == pname)) = true
  · rw [if_pos hif] at h
    injection h with h
    rw [← h, addCompEdge_ports]
  · rw [if_neg hif] at h
    exact Except.noConfusion h

theorem foldStep6_ports {ends : List EdgeEnd} {predId : String}
    {c c' : GNode} (h : foldStep6 predId ends c = .ok c') :
    GNode.ports c' = GNode.ports c := by
  induction ends generalizing c with
  | nil =>
    unfold foldStep6 at h
    injection h with h
    rw [h]
  | cons x rest ih =>
    unfold foldStep6 at h
    cases hab : addBoundaryFromEdge (endPortName x)
        (.eport predId (endPortName x)) c with
    | error e => simp only [hab] at h; exact Except.noConfusion h
    | ok c1 =>
      simp only [hab] at h
      rw [ih h, addBoundaryFromEdge_ports hab]

/-- The rebuilt compound never carries a port literally named
`"undefined"`: all its port names come from stored ports of the original
compound or from edge-end names of the graph. -/
theorem pipeline_ports_no_undefined {g : GNode}
    (hclean : cleanOfUndefined g = true) (hends : allPortEnds g = true)
    {portNode predNode : GNode} (hpn : portNode ∈ nodesDeep g)
    {preIn : List Edge} (hpreIn : ∀ e ∈ preIn, e ∈ edgesDeep g)
    {adds : List EdgeEnd} (hadds : ∀ x ∈ adds, ∃ e ∈ edgesDeep g, x = e.eto)
    (names : List String) :
    (GNode.ports (foldOutputPorts adds (foldInputPorts (preIn.map Edge.eto)
      (removeBoundaryPorts names (addChildC predNode portNode))))).any
      (fun q => q.port == "undefined") = false := by
  unfold cleanOfUndefined at hclean
  simp only [Bool.and_eq_true, Bool.not_eq_true'] at hclean
  have hc1 : "undefined" ∉ portNames g := by
    have h2 := hclean.1
    simp at h2
    exact h2
  have hc2 : "undefined" ∉ endNames g := by
    have h2 := hclean.2
    simp at h2
    exact h2
  unfold allPortEnds at hends
  rw [List.all_eq_true] at hends
  unfold foldOutputPorts foldInputPorts
  rw [List.any_eq_false]
  intro q hq
  rw [foldBoundary_ports, foldBoundary_ports, removeBoundaryPorts_ports,
    addChildC_ports] at hq
  simp only [beq_eq_false_iff_ne, ne_eq, beq_iff_eq]
  intro hundef
  simp only [List.append_assoc, List.mem_append] at hq
  rcases hq with hq | hq | hq
  · have hmem : q ∈ GNode.ports portNode := List.mem_of_mem_filter hq
    exact hc1 (hundef ▸ port_mem_portNames hpn hmem)
  · rcases List.mem_map.mp hq with ⟨x, hx, hEq⟩
    rcases List.mem_map.mp hx with ⟨e, he, hEq2⟩
    have hdeep := hpreIn e he
    have hbp := hends e hdeep
    obtain ⟨tn, tp, het⟩ : ∃ tn tp, e.eto = .eport tn tp := by
      unfold isBetweenPorts at hbp
      cases hef : e.efrom with
      | enode _ => rw [hef] at hbp; cases hbp
      | eport _ _ =>
        cases het : e.eto with
        | enode _ => rw [hef, het] at hbp; cases hbp
        | eport tn tp => exact ⟨tn, tp, rfl⟩
    have hqname : Port.port q = tp := by
      rw [← hEq]
      show endPortName x = tp
      rw [← hEq2, het]
      rfl
    exact hc2 (hundef ▸ hqname ▸ toName_mem_endNames hdeep het)
  · rcases List.mem_map.mp hq with ⟨x, hx, hEq⟩
    obtain ⟨e, hdeep, hEq2⟩ := hadds x hx
    have hbp := hends e hdeep
    obtain ⟨tn, tp, het⟩ : ∃ tn tp, e.eto = .eport tn tp := by
      unfold isBetweenPorts at hbp
      cases hef : e.efrom with
      | enode _ => rw [hef] at hbp; cases hbp
      | eport _ _ =>
        cases het : e.eto with
        | enode _ => rw [hef, het] at hbp; cases hbp
        | eport tn tp => exact ⟨tn, tp, rfl⟩
    have hqname : Port.port q = tp := by
      rw [← hEq]
      show endPortName x = tp
      rw [hEq2, het]
      rfl
    exact hc2 (hundef ▸ hqname ▸ toName_mem_endNames hdeep het)

/-- C7: although the explicit multi-successor guard in
`includePredecessor` is commented out, the function still fails with an
error whenever the feeding predecessor has a successor besides the
target compound: the `additionalPorts` list is then non-empty and the
pipeline builds an edge to the boundary selector `'@' + p.name`, which is
always `'@undefined'` because successor port objects have no `name`
property; that boundary port cannot resolve on the rebuilt compound as
long as no port of the graph is literally named `"undefined"`, so the
edge creation throws before any modified graph is returned. -/
theorem claim_C7_includePredecessor_fails (g : GNode) (port : Target)
    {preds : List EdgeEnd}
    (hpreds : predecessorsL port g ["dataflow"] false = .ok preds)
    {pred : EdgeEnd} (hhead : preds.head? = some pred)
    {portNode : GNode} (hportNode : nodeL port g = .ok portNode)
    {succs : List EdgeEnd}
    (hsuccs : successorsL (.byId (endNode pred)) g ["dataflow"] false
      = .ok succs)
    (hmulti : succs.filter (fun s => endNode s != GNode.id portNode) ≠ [])
    (hclean : cleanOfUndefined g = true) (hends : allPortEnds g = true) :
    ∃ e, includePredecessor port g = .error e := by
  unfold includePredecessor
  simp only [hpreds, hhead, hportNode]
  cases hpn : nodeL (locOfEnd pred) g with
  | error e => simp only [hpn]; exact ⟨e, rfl⟩
  | ok predNode =>
    simp only [hpn]
    cases hpi : inIncidents (.byId (endNode pred)) g ["dataflow"] false with
    | error e => simp only [hpi]; exact ⟨e, rfl⟩
    | ok preIn =>
      simp only [hpi]
      cases hcs : collectSuccs g (GNode.id predNode)
          (outputPortsOf predNode) with
      | error e => simp only [hcs]; exact ⟨e, rfl⟩
      | ok pairs =>
        simp only [hcs]
        cases hco : collectOutE g (uniqByEnd pairs) with
        | error e => simp only [hco]; exact ⟨e, rfl⟩
        | ok post =>
          simp only [hco, hsuccs]
          cases hf6 : foldStep6 (GNode.id predNode) (preIn.map Edge.eto)
              (foldOutputPorts
                (succs.filter (fun s => endNode s != GNode.id portNode))
                (foldInputPorts (preIn.map Edge.eto)
                  (removeBoundaryPorts
                    ((uniqByEnd pairs).map (fun x => endPortName x.2))
                    (addChildC predNode portNode)))) with
          | error e => simp only [hf6]; exact ⟨e, rfl⟩
          | ok c5 =>
            simp only [hf6]
            have hanyfalse : (GNode.ports
                (foldStep7 (GNode.id predNode) post c5)).any
                (fun q => q.port == "undefined") = false := by
              rw [foldStep7_ports, foldStep6_ports hf6]
              exact pipeline_ports_no_undefined hclean hends
                (nodeL_mem hportNode) (inIncidents_sub hpi)
                (fun x hx => successorsL_sub hsuccs x
                  (List.mem_of_mem_filter hx)) _
            obtain ⟨s0, rest, hadd⟩ := List.exists_cons_of_ne_nil hmulti
            rw [hadd]
            cases hpl : predecessorsL (locOfEnd s0) g ["dataflow"] false with
            | error e =>
              simp only [foldStep8, hpl]
              exact ⟨e, rfl⟩
            | ok pr =>
              simp only [foldStep8, hpl, addBoundaryToEdge, hanyfalse,
                Bool.false_eq_true, if_false]
              exact ⟨_, rfl⟩

/-- The multi-successor scenario of the rewrite test-suite: `a` feeds the
compound `c` and also the sibling `b`; `f` feeds `a`. -/
def ipA : GNode := .mk "#ia" (some "a")
  [⟨"outA", "output", "generic", some "#ia"⟩,
   ⟨"inA", "input", "generic", some "#ia"⟩] true none [] [] []
  (some ["#ia"])

def ipC : GNode := .mk "#ic" (some "c")
  [⟨"inC", "input", "generic", some "#ic"⟩,
   ⟨"outC", "output", "generic", some "#ic"⟩] false (some [])
  [⟨.eport "#ic" "inC", .eport "#ic" "outC", "dataflow"⟩] [] []
  (some ["#ic"])

def ipB : GNode := .mk "#ib" (some "b")
  [⟨"inB", "input", "generic", some "#ib"⟩] true none [] [] []
  (some ["#ib"])

def ipF : GNode := .mk "#if" (some "f")
  [⟨"outF", "output", "generic", some "#if"⟩] true none [] [] []
  (some ["#if"])

def ipRoot : GNode := .mk "#ir" none [] false (some [ipA, ipC, ipB, ipF])
  [⟨.eport "#ia" "outA", .eport "#ic" "inC", "dataflow"⟩,
   ⟨.eport "#ia" "outA", .eport "#ib" "inB", "dataflow"⟩,
   ⟨.eport "#if" "outF", .eport "#ia" "inA", "dataflow"⟩] [] [] (some [])

/-- Witness for C7: including the predecessor of `c@inC` fails because
`a` also feeds `b`. -/
theorem claim_C7_witness :
    ∃ e, includePredecessor (.byPort "#ic" "inC") ipRoot = .error e :=
  claim_C7_includePredecessor_fails ipRoot (.byPort "#ic" "inC")
    (show predecessorsL (.byPort "#ic" "inC") ipRoot ["dataflow"] false
      = .ok [.eport "#ia" "outA"] from rfl)
    (show ([EdgeEnd.eport "#ia" "outA"]).head? = some (.eport "#ia" "outA")
      by decide)
    (show nodeL (.byPort "#ic" "inC") ipRoot = .ok ipC from rfl)
    (show successorsL (.byId "#ia") ipRoot ["dataflow"] false
      = .ok [.eport "#ic" "inC", .eport "#ib" "inB"] from rfl)
    (by decide) (by decide) (by decide)

/-! ## The compoundify precondition check (`rewrite/compound.js`)

`compoundify` resolves the subset, requires a common parent, topologically
sorts that parent, computes the critical window and filters it with
`blocked`.  `blocked` walks successors/predecessors through
`findInSubset`, whose every recursive step receives a *port object* (an
edge end `{node, port}`) from `successors`/`predecessors`; `sameParent`
then takes `Path.parent(Node.path(portObject))`, and `Node.path` of a
port object is `undefined`, which `compoundPath.parent` rejects with
`Malformed compound path`.  A critical node is never in the subset, so
the membership shortcut cannot fire either: `blocked` can only return
`false` (no successors to walk) or throw — never `true`.  The
construction phase after the checks is outside this model. -/

/-- `Path.parent(Node.path(node))`: the parent of a stored path; a node
without a path raises the malformed-path error. -/
def pathParentOf (n : GNode) : Except String (List String) :=
  match GNode.path? n with
  | some p => .ok (pathParent p)
  | none => .error "Malformed compound path. It must either be a string or an array of node IDs. Compounds paths was: undefined"

/-- `sameParent(portObject, _)`: a port object has no `path`, so
`Path.parent(undefined)` always throws. -/
def findInSubsetEnd (x : EdgeEnd) : Except String Bool :=
  .error "Malformed compound path. It must either be a string or an array of node IDs. Compounds paths was: undefined"

/-- `Array.prototype.some` with a throwing predicate. -/
def someM (f : α → Except String Bool) : List α → Except String Bool
  | [] => .ok false
  | x :: xs =>
    match f x with
    | .error e => .error e
    | .ok true => .ok true
    | .ok false => someM f xs

/-- `findInSubset(node, subset, Graph.successors, graph)` at its entry
level (the recursive level is `findInSubsetEnd`). -/
def succInSubsetM (g : GNode) (subsetIds : List String) (obj0 : GNode)
    (node : GNode) : Except String Bool :=
  match pathParentOf node with
  | .error e => .error e
  | .ok p1 =>
    match pathParentOf obj0 with
    | .error e => .error e
    | .ok p2 =>
      if p1 != p2 then .ok false
      else if subsetIds.contains (GNode.id node) then .ok true
      else
        match successorsL (.byId (GNode.id node)) g ["dataflow"] false with
        | .error e => .error e
        | .ok ends => someM findInSubsetEnd ends

/-- `findInSubset(node, subset, Graph.predecessors, graph)`. -/
def predInSubsetM (g : GNode) (subsetIds : List String) (obj0 : GNode)
    (node : GNode) : Except String Bool :=
  match pathParentOf node with
  | .error e => .error e
  | .ok p1 =>
    match pathParentOf obj0 with
    | .error e => .error e
    | .ok p2 =>
      if p1 != p2 then .ok false
      else if subsetIds.contains (GNode.id node) then .ok true
      else
        match predecessorsL (.byId (GNode.id node)) g ["dataflow"] false with
        | .error e => .error e
        | .ok ends => someM findInSubsetEnd ends

/-- `blocked(nodes, graph)(node)`: successor test first, conjunction
short-circuits. -/
def blockedM (g : GNode) (subsetIds : List String) (obj0 : GNode)
    (node : GNode) : Except String Bool :=
  match succInSubsetM g subsetIds obj0 node with
  | .error e => .error e
  | .ok false => .ok false
  | .ok true => predInSubsetM g subsetIds obj0 node

/-- `criticalNodes(nodes, topo, graph)`: the topological window from the
first to the last subset member, without the subset itself (`findIndex`
misses are irrelevant here since the callers' subsets occur in `topo`). -/
def criticalNodes (subsetIds : List String) (topo : List GNode) : List GNode :=
  let firstIdx := topo.findIdx (fun t => subsetIds.contains (GNode.id t))
  let lastIdx := topo.length
    - topo.reverse.findIdx (fun t => subsetIds.contains (GNode.id t)) - 1
  ((topo.drop firstIdx).take (lastIdx + 1 - firstIdx)).filter
    (fun t => !(subsetIds.contains (GNode.id t)))

/-- Resolve each subset location. -/
def resolveAll : List String → GNode → Except String (List GNode)
  | [], _ => .ok []
  | s :: rest, g =>
    match nodeL (.byId s) g with
    | .error e => .error e
    | .ok n =>
      match resolveAll rest g with
      | .error e => .error e
      | .ok ns => .ok (n :: ns)

/-- `sameParents(nodeObjs)`. -/
def sameParentsB : List GNode → Except String Bool
  | [] => .ok true
  | o0 :: rest =>
    match pathParentOf o0 with
    | .error e => .error e
    | .ok p0 =>
      let go : List GNode → Except String Bool :=
        fun l => l.foldlM (fun acc n =>
          match pathParentOf n with
          | .error e => .error e
          | .ok p => .ok (acc && (p == p0))) true
      go rest

/-- The precondition phase of `compoundify(nodes, graph)` from
`rewrite/compound.js` (`.ok false` is the empty-subset early return,
`.ok true` means the checks passed and the construction phase would
run). -/
def compoundifyChecks (subsetIds : List String) (g : GNode) :
    Except String Bool :=
  match subsetIds with
  | [] => .ok false
  | s0 :: rest =>
    match nodeL (.byId s0) g with
    | .error e => .error e
    | .ok obj0 =>
      match resolveAll rest g with
      | .error e => .error e
      | .ok objsRest =>
        match sameParentsB (obj0 :: objsRest) with
        | .error e => .error e
        | .ok false =>
          .error "Cannot compoundify nodes, the have different parents."
        | .ok true =>
          match parentL (.byId (GNode.id obj0)) g with
          | .error e => .error e
          | .ok none => .error "TypeError: cannot read nodes of undefined"
          | .ok (some par) =>
            match topologicalSort par with
            | .error e => .error e
            | .ok topo =>
              match filterE (blockedM g (s0 :: rest) obj0)
                  (criticalNodes (s0 :: rest) topo) with
              | .error e => .error e
              | .ok blockedNodes =>
                if blockedNodes.length > 0 then
                  .error "Subset of nodes is not compoundably."
                else .ok true

theorem filterE_ok_forall {α} {f : α → Except String Bool} {l r : List α}
    (h : filterE f l = .ok r) : ∀ x ∈ l, ∃ b, f x = .ok b := by
  induction l generalizing r with
  | nil => intro x hx; cases hx
  | cons y ys ih =>
    unfold filterE at h
    cases hfy : f y with
    | error e => rw [hfy] at h; exact Except.noConfusion h
    | ok b =>
      rw [hfy] at h
      cases hrest : filterE f ys with
      | error e => rw [hrest] at h; exact Except.noConfusion h
      | ok r' =>
        intro x hx
        rcases List.mem_cons.mp hx with hx | hx
        · exact ⟨b, hx ▸ hfy⟩
        · exact ih hrest x hx

theorem filterE_ok_mem {α} {f : α → Except String Bool} {l r : List α}
    (h : filterE f l = .ok r) : ∀ x ∈ r, f x = .ok true ∧ x ∈ l := by
  induction l generalizing r with
  | nil =>
    unfold filterE at h
    injection h with h
    subst h
    intro x hx
    cases hx
  | cons y ys ih =>
    unfold filterE at h
    cases hfy : f y with
    | error e => rw [hfy] at h; exact Except.noConfusion h
    | ok b =>
      rw [hfy] at h
      cases hrest : filterE f ys with
      | error e => rw [hrest] at h; exact Except.noConfusion h
      | ok r' =>
        rw [hrest] at h
        injection h with h
        subst h
        intro x hx
        cases b with
        | true =>
          simp only [if_true] at hx
          rcases List.mem_cons.mp hx with hx | hx
          · subst hx
            exact ⟨hfy, List.mem_cons_self _ _⟩
          · obtain ⟨h1, h2⟩ := ih hrest x hx
            exact ⟨h1, List.mem_cons_of_mem y h2⟩
        | false =>
          simp only [Bool.false_eq_true, if_false] at hx
          obtain ⟨h1, h2⟩ := ih hrest x hx
          exact ⟨h1, List.mem_cons_of_mem y h2⟩

theorem criticalNodes_not_subset {subsetIds : List String}
    {topo : List GNode} {x : GNode} (h : x ∈ criticalNodes subsetIds topo) :
    subsetIds.contains (GNode.id x) = false := by
  unfold criticalNodes at h
  have := (List.mem_filter.mp h).2
  simpa using this

theorem succInSubsetM_ne_true {g : GNode} {subsetIds : List String}
    {obj0 node : GNode}
    (hid : subsetIds.contains (GNode.id node) = false) :
    succInSubsetM g subsetIds obj0 node ≠ .ok true := by
  intro h
  unfold succInSubsetM at h
  cases hp1 : pathParentOf node with
  | error e => simp only [hp1] at h; exact Except.noConfusion h
  | ok p1 =>
    simp only [hp1] at h
    cases hp2 : pathParentOf obj0 with
    | error e => simp only [hp2] at h; exact Except.noConfusion h
    | ok p2 =>
      simp only [hp2] at h
      by_cases hne : (p1 != p2) = true
      · rw [if_pos hne] at h
        injection h with h
        exact Bool.noConfusion h
      · rw [if_neg hne, if_neg (by rw [hid]; decide)] at h
        cases hsucc : successorsL (.byId (GNode.id node)) g
            ["dataflow"] false with
        | error e => simp only [hsucc] at h; exact Except.noConfusion h
        | ok ends =>
          simp only [hsucc] at h
          cases ends with
          | nil =>
            simp only [someM] at h
            injection h with h
            exact Bool.noConfusion h
          | cons x xs =>
            simp only [someM, findInSubsetEnd] at h
            exact Except.noConfusion h

theorem blockedM_ne_true {g : GNode} {subsetIds : List String}
    {obj0 node : GNode}
    (hid : subsetIds.contains (GNode.id node) = false) :
    blockedM g subsetIds obj0 node ≠ .ok true := by
  intro h
  unfold blockedM at h
  cases hs : succInSubsetM g subsetIds obj0 node with
  | error e => rw [hs] at h; exact Except.noConfusion h
  | ok b =>
    rw [hs] at h
    cases b with
    | false => injection h with h; exact Bool.noConfusion h
    | true => exact succInSubsetM_ne_true hid hs

/-- A critical node with a stored path equal to the subset's and with at
least one successor makes `blocked` throw the malformed-path error. -/
theorem blockedM_crash {g : GNode} {subsetIds : List String}
    {obj0 node : GNode} {p : List String}
    (hid : subsetIds.contains (GNode.id node) = false)
    (hp1 : pathParentOf node = .ok p) (hp2 : pathParentOf obj0 = .ok p)
    {x : EdgeEnd} {xs : List EdgeEnd}
    (hsucc : successorsL (.byId (GNode.id node)) g ["dataflow"] false
      = .ok (x :: xs)) :
    blockedM g subsetIds obj0 node
      = .error "Malformed compound path. It must either be a string or an array of node IDs. Compounds paths was: undefined" := by
  unfold blockedM succInSubsetM
  simp only [hp1, hp2]
  rw [if_neg (by simp), if_neg (by rw [hid]; decide)]
  simp only [hsucc]
  rfl

/-- The blocked filter over any set of non-subset nodes is empty whenever
it returns at all: `blocked` can never certify a node. -/
theorem blocked_filter_empty {g : GNode} {subsetIds : List String}
    {obj0 : GNode} {critical r : List GNode}
    (hids : ∀ y ∈ critical, subsetIds.contains (GNode.id y) = false)
    (hfe : filterE (blockedM g subsetIds obj0) critical = .ok r) :
    r = [] := by
  cases hr : r with
  | nil => rfl
  | cons y ys =>
    rw [hr] at hfe
    obtain ⟨htrue, hmem⟩ :=
      filterE_ok_mem hfe y (List.mem_cons_self y ys)
    exact absurd htrue (blockedM_ne_true (hids y hmem))

/-- C5: the not-compoundable error of `compoundify` is unreachable —
`blocked` can never return `true`, because its successor walk hands port
objects (which carry no `path`) back to `sameParent`, so it either sees
no successors (and returns `false`) or throws the malformed-path error.
Under the claim's precondition violation — a critical node, sharing the
subset's parent, with a successor chain into the subset (in particular at
least one successor) — `compoundify` does fail before creating any
compound, but with the malformed-path error rather than the declared
not-compoundable one; and the blocked list justifying the declared error
is provably always empty. -/
theorem claim_C5_compoundify_blocked (g : GNode) (s0 : String)
    (rest : List String) {obj0 : GNode}
    (hobj0 : nodeL (.byId s0) g = .ok obj0)
    {objsRest : List GNode} (hrest : resolveAll rest g = .ok objsRest)
    (hsame : sameParentsB (obj0 :: objsRest) = .ok true)
    {par : GNode} (hpar : parentL (.byId (GNode.id obj0)) g = .ok (some par))
    {topo : List GNode} (htopo : topologicalSort par = .ok topo)
    {cstar : GNode} (hcrit : cstar ∈ criticalNodes (s0 :: rest) topo)
    {p : List String} (hp1 : pathParentOf cstar = .ok p)
    (hp2 : pathParentOf obj0 = .ok p)
    {x : EdgeEnd} {xs : List EdgeEnd}
    (hsucc : successorsL (.byId (GNode.id cstar)) g ["dataflow"] false
      = .ok (x :: xs)) :
    (∃ e, compoundifyChecks (s0 :: rest) g = .error e) ∧
    (∀ (critical r : List GNode),
      (∀ y ∈ critical, (s0 :: rest).contains (GNode.id y) = false) →
      filterE (blockedM g (s0 :: rest) obj0) critical = .ok r → r = []) := by
  refine ⟨?_, fun critical r hids hfe => blocked_filter_empty hids hfe⟩
  unfold compoundifyChecks
  simp only [hobj0, hrest, hsame, hpar, htopo]
  cases hfe : filterE (blockedM g (s0 :: rest) obj0)
      (criticalNodes (s0 :: rest) topo) with
  | error e => simp only [hfe]; exact ⟨e, rfl⟩
  | ok blockedNodes =>
    obtain ⟨b, hb⟩ := filterE_ok_forall hfe cstar hcrit
    rw [blockedM_crash (criticalNodes_not_subset hcrit) hp1 hp2 hsucc] at hb
    exact Except.noConfusion hb

/-- The compoundify counterexample graph: a chain `a → b → c` at the
root, subset `{a, c}`, critical node `b`. -/
def cfA : GNode := .mk "#ca" (some "a")
  [⟨"out", "output", "generic", some "#ca"⟩] true none [] [] []
  (some ["#ca"])

def cfB : GNode := .mk "#cb" (some "b")
  [⟨"in", "input", "generic", some "#cb"⟩,
   ⟨"out", "output", "generic", some "#cb"⟩] true none [] [] []
  (some ["#cb"])

def cfC : GNode := .mk "#cc" (some "c")
  [⟨"in", "input", "generic", some "#cc"⟩] true none [] [] []
  (some ["#cc"])

def cfRoot : GNode := .mk "#cr" none [] false (some [cfA, cfB, cfC])
  [⟨.eport "#ca" "out", .eport "#cb" "in", "dataflow"⟩,
   ⟨.eport "#cb" "out", .eport "#cc" "in", "dataflow"⟩] [] [] (some [])

theorem cfRoot_topo : topologicalSort cfRoot = .ok [cfA, cfB, cfC] := by
  show topoLoop cfRoot
    [("#ca", some 0), ("#cb", some 1), ("#cc", some 1)] [] = _
  rw [topoLoop]
  show topoLoop cfRoot [("#cb", some 0), ("#cc", some 1)] [cfA] = _
  rw [topoLoop]
  show topoLoop cfRoot [("#cc", some 0)] [cfA, cfB] = _
  rw [topoLoop]
  show topoLoop cfRoot [] [cfA, cfB, cfC] = _
  rw [topoLoop]
  rfl

/-- C5: the literal claim fails.  On the chain `a → b → c` with subset
`{a, c}` the node `b` is critical and blocked (it is fed from the subset
and feeds the subset), yet `compoundify` raises the malformed-path error
of `findInSubset`'s `sameParent` on a port object — not the declared
not-compoundable error. -/
theorem claim_C5_counterexample :
    compoundifyChecks ["#ca", "#cc"] cfRoot
      = .error "Malformed compound path. It must either be a string or an array of node IDs. Compounds paths was: undefined" ∧
    "#cb" ∈ succKeys cfRoot "#ca" ∧ "#cc" ∈ succKeys cfRoot "#cb" ∧
    cfB ∈ criticalNodes ["#ca", "#cc"] [cfA, cfB, cfC] := by
  refine ⟨?_, by decide, by decide, List.mem_cons_self cfB []⟩
  show ((match topologicalSort cfRoot with
        | .error e => .error e
        | .ok topo =>
          match filterE (blockedM cfRoot ["#ca", "#cc"] cfA)
              (criticalNodes ["#ca", "#cc"] topo) with
          | .error e => .error e
          | .ok blockedNodes =>
            if blockedNodes.length > 0 then
              Except.error "Subset of nodes is not compoundably."
            else .ok true : Except String Bool)) = _
  rw [cfRoot_topo]
  rfl

/-- Witness for the amended C5 on the chain counterexample graph. -/
theorem claim_C5_witness :
    ∃ e, compoundifyChecks ["#ca", "#cc"] cfRoot = .error e :=
  (claim_C5_compoundify_blocked cfRoot "#ca" ["#cc"]
    (show nodeL (.byId "#ca") cfRoot = .ok cfA from rfl)
    (show resolveAll ["#cc"] cfRoot = .ok [cfC] from rfl)
    (show sameParentsB [cfA, cfC] = .ok true from rfl)
    (show parentL (.byId (GNode.id cfA)) cfRoot = .ok (some cfRoot) from rfl)
    cfRoot_topo
    (List.mem_cons_self cfB [])
    (show pathParentOf cfB = .ok [] from rfl)
    (show pathParentOf cfA = .ok [] from rfl)
    (show successorsL (.byId (GNode.id cfB)) cfRoot ["dataflow"] false
      = .ok [.eport "#cc" "in"] from rfl)).1

/-- The C6 witness graph: a node `a` nested at depth two inside the inner
compound `p`, fed from `p`'s input boundary port and feeding its sibling
`b` — `a`'s nearest containing compound is `p`, not the root. -/
def wA : GNode := .mk "#wa" (some "a")
  [⟨"in", "input", "generic", some "#wa"⟩,
   ⟨"out", "output", "generic", some "#wa"⟩] true none [] [] []
  (some ["#wp", "#wa"])

def wB : GNode := .mk "#wb" (some "b")
  [⟨"in", "input", "generic", some "#wb"⟩] true none [] [] []
  (some ["#wp", "#wb"])

def wP : GNode := .mk "#wp" (some "p")
  [⟨"pin", "input", "generic", some "#wp"⟩] false (some [wA, wB])
  [⟨.eport "#wp" "pin", .eport "#wa" "in", "dataflow"⟩,
   ⟨.eport "#wa" "out", .eport "#wb" "in", "dataflow"⟩] [] []
  (some ["#wp"])

def wR : GNode := .mk "#wr" none [] false (some [wP]) [] [] [] (some [])

/-- Witness for C6 on a depth-two location: the nested node's scoped
ingoing query consults the inner compound's edge list and agrees with the
full deep scan. -/
theorem claim_C6_witness :
    wfGraph wR = true ∧
    inIncidents (.byId (GNode.id wA)) wR ["dataflow"] false
      = .ok ((GNode.edges wP).filter (childInPred (GNode.id wA))) ∧
    filterE (inFilterFn (.byId (GNode.id wA)) wR ["dataflow"] false)
        (edgesDeep wR)
      = .ok ((GNode.edges wP).filter (childInPred (GNode.id wA))) :=
  ⟨by decide,
    (claim_C6_incident_scoping wR (by decide)
      (List.mem_cons_self _ _) (List.mem_cons_self _ _)).1.1,
    (claim_C6_incident_scoping wR (by decide)
      (List.mem_cons_self _ _) (List.mem_cons_self _ _)).1.2⟩

end Graphtools
